import Mathlib

/-!
# libzim read side: cluster layer and archive lookups

A shallow embedding of `src/cluster.cpp`, of `src/fileimpl.cpp` (cluster and
blob location, directory entries, lookups by title, by path and by cluster
order, construction of a `FileImpl`, MIME types, namespaces, checksum), of the
sub-buffers of `src/buffer.cpp` and of `src/decodeddatastream.h`, followed by
theorems about them.

Conventions of the embedding

* A byte is a `Fin 256`; a byte range is a `List Byte`.
* `offset_t`, `zsize_t` and `size_t` are 64-bit unsigned; their values are
  natural numbers and every C++ operation that can wrap is written with an
  explicit `% 2 ^ 64`.
* A C++ exception is an `Except.error`; the constructor of `Error` records the
  C++ exception type and its message.  Functions that can throw are written
  in the `Except Error` monad, one statement per C++ statement.
* Headers that are not part of the sources at hand (`file_reader.h`,
  `buffer.h`, `cluster.h`, `idatastream.h`, `debug.h`, `zim.h`, `config.h`,
  `compression.h`, `_dirent.h`, `fileheader.h`, `lrucache.h`,
  `concurrent_cache.h`) are modelled from the specification; each such definition
  says so in its doc comment.  The decoder of a `DecodedDataStream` and the
  MD5 functions of `md5.h` are parameters.
* A loop that need not end takes a number `fuel` of rounds and gives `none`
  when it has not ended by then.
-/

namespace zim

/-! ## Basic types -/

/-- One byte of a file or of a memory buffer. -/
abbrev Byte := Fin 256

/-- Exceptions raised by the read side.  The constructors `runtime_error`,
`logic_error` and `ZimFileFormatError` carry the message given to the C++
exception.

Modelled from the spec: `assertion` is a failed `ASSERT(left, op, right)`
(the macro of `debug.h`, not in the sources).  The spec describes header
parsing as "asserting monotonicity and upper bound", so a failed assertion
ends the operation with an error instead of letting it continue.

`InvalidSize` is the exception of that name, which the dirent parser raises
when its buffer is too short and which `getDirent` catches.

`out_of_bounds` marks an access outside a vector or a blob, for which C++
defines no result. -/
inductive Error where
  | assertion
  | runtime_error (msg : String)
  | logic_error (msg : String)
  | ZimFileFormatError (msg : String)
  | InvalidSize
  | out_of_bounds
  deriving DecidableEq, Repr

/-- Equality of results is decidable, so closed evaluations can be checked. -/
instance instDecidableEqExcept {ε α : Type} [DecidableEq ε] [DecidableEq α] :
    DecidableEq (Except ε α)
  | .ok a, .ok b =>
    if h : a = b then isTrue (by rw [h]) else isFalse (by intro h2; cases h2; exact h rfl)
  | .error a, .error b =>
    if h : a = b then isTrue (by rw [h]) else isFalse (by intro h2; cases h2; exact h rfl)
  | .ok _, .error _ => isFalse (by intro h; cases h)
  | .error _, .ok _ => isFalse (by intro h; cases h)

/-- Modelled from the spec: the `ASSERT(left, op, right)` macro of `debug.h`
(not in the sources): nothing happens when the condition holds, the operation
ends with `Error.assertion` when it does not. -/
def ASSERT (cond : Prop) [Decidable cond] : Except Error Unit :=
  if cond then .ok () else .error .assertion

/-- Modelled from the spec: `SIZE_MAX` of a platform whose `size_t` is 64 bits
wide ("all byte offsets and sizes are 64-bit unsigned"). -/
def SIZE_MAX : Nat := 2 ^ 64 - 1

/-- Modelled from the spec: `fromLittleEndian` of `endian_tools.h` (not in the
sources), "all integers little-endian": the value of a byte string read as a
little-endian unsigned number. -/
def fromLittleEndian : List Byte → Nat
  | [] => 0
  | b :: bs => b.val + 256 * fromLittleEndian bs

/-- The bytes `[off, off + n)` of a byte range (fewer when the range ends
earlier). -/
def slice (bs : List Byte) (off n : Nat) : List Byte :=
  (bs.drop off).take n

/-! ## Buffer and Reader -/

/-- Modelled from the spec: a `Buffer` is "an immutable byte span"
(`buffer.h` is not in the sources); the model keeps the bytes of the span. -/
abbrev Buffer := List Byte

/-- Modelled from the spec: `Buffer::as<T>(offset)` (declared in `buffer.h`,
not in the sources) reads a little-endian unsigned of `w = sizeof(T)` bytes at
`offset`; a read that does not lie inside the span fails. -/
def Buffer.as (w : Nat) (b : Buffer) (offset : Nat) : Except Error Nat :=
  if offset < b.length ∧ offset + w ≤ b.length then
    .ok (fromLittleEndian (slice b offset w))
  else .error .assertion

/-- Modelled from the spec: a `Reader` is "a polymorphic abstraction over a
byte range" (`file_reader.h` is not in the sources).  `offset` is the position
of the range in the underlying file, `bytes` the range itself. -/
structure Reader where
  offset : Nat
  bytes : List Byte
  deriving DecidableEq, Repr

/-- Modelled from the spec: `Reader::size()`. -/
def Reader.size (r : Reader) : Nat := r.bytes.length

/-- Modelled from the spec: `Reader::read(offset)`, the byte at `offset`;
reading outside the range fails. -/
def Reader.read (r : Reader) (offset : Nat) : Except Error Byte :=
  match r.bytes.get? offset with
  | some b => .ok b
  | none => .error .assertion

/-- Modelled from the spec: `Reader::read_uint<T>(offset)`, "little-endian
fixed-width unsigned" of `w = sizeof(T)` bytes; a read that does not lie
inside the range fails. -/
def Reader.read_uint (w : Nat) (r : Reader) (offset : Nat) : Except Error Nat :=
  if offset < r.size ∧ offset + w ≤ r.size then
    .ok (fromLittleEndian (slice r.bytes offset w))
  else .error .assertion

/-- Modelled from the spec: `Reader::get_buffer(offset, n)`, the bytes
`[offset, offset + n)` of the range as a `Buffer`; fails when the range does
not cover them. -/
def Reader.get_buffer (r : Reader) (offset n : Nat) : Except Error Buffer :=
  if offset + n ≤ r.size then .ok (slice r.bytes offset n) else .error .assertion

/-- Modelled from the spec: `Reader::sub_reader(offset, n)`, "a cheap view" of
the bytes `[offset, offset + n)`; fails when the range does not cover them. -/
def Reader.sub_reader (r : Reader) (offset n : Nat) : Except Error Reader :=
  if offset + n ≤ r.size then
    .ok { offset := r.offset + offset, bytes := slice r.bytes offset n }
  else .error .assertion

/-- Modelled from the spec: `Reader::sub_reader(offset)`, the view from
`offset` to the end of the range. -/
def Reader.sub_reader_from (r : Reader) (offset : Nat) : Except Error Reader :=
  if offset ≤ r.size then r.sub_reader offset (r.size - offset) else .error .assertion

/-! ## Cluster (uncompressed) -/

/-- `sizeof(OFFSET_TYPE)`: 8 for `uint64_t` (extended cluster), 4 for
`uint32_t`. -/
def sizeofOffset (isExtended : Bool) : Nat := if isExtended then 8 else 4

/-- The number of iterations of `while (--n_offset)` for a `size_t n_offset`:
the pre-decrement wraps at zero. -/
def loopCount (n_offset : Nat) : Nat := (n_offset + (2 ^ 64 - 1)) % 2 ^ 64

/-- The loop of `Cluster::read_header` (cluster.cpp 149-158).  `cnt` is the
number of iterations left, `offset` the previous raw entry, `current` the
position of the next entry in `buffer`, `offsets` the vector built so far.
`current` never exceeds the buffer size when `as` succeeds, so its addition
does not wrap. -/
def Cluster.read_header_loop (w : Nat) (buffer : Buffer) (readerSize data_address : Nat) :
    Nat → Nat → Nat → List Nat → Except Error (List Nat)
  | 0, _, _, offsets => pure offsets
  | cnt + 1, offset, current, offsets => do
    let new_offset ← Buffer.as w buffer current
    ASSERT (new_offset ≥ offset)
    ASSERT (new_offset ≤ readerSize)
    Cluster.read_header_loop w buffer readerSize data_address cnt new_offset (current + w)
      (offsets ++ [(new_offset + 2 ^ 64 - data_address) % 2 ^ 64])

/-- `Cluster::read_header<OFFSET_TYPE>()` (cluster.cpp 133-160) on the reader
of the cluster body: returns the offsets vector and `data_address`. -/
def Cluster.read_header (w : Nat) (reader : Reader) : Except Error (List Nat × Nat) := do
  let offset ← reader.read_uint w 0
  let buffer ← reader.get_buffer 0 offset
  let offsets ← Cluster.read_header_loop w buffer reader.size offset
    (loopCount (offset / w)) offset w [0]
  pure (offsets, offset)

/-- The state of an uncompressed `Cluster` after construction. -/
structure Cluster where
  isExtended : Bool
  reader : Reader
  startOffset : Nat
  offsets : List Nat
  deriving DecidableEq, Repr

/-- `Cluster::Cluster(reader, isExtended)` (cluster.cpp 116-130); `d` is
`reader_.offset`, `d1` the offset of the data sub-reader. -/
def Cluster.new (reader_ : Reader) (isExtended : Bool) : Except Error Cluster := do
  let hdr ← Cluster.read_header (sizeofOffset isExtended) reader_
  let reader ← reader_.sub_reader hdr.2 (hdr.1.getLastD 0)
  ASSERT (reader_.offset + hdr.2 = reader.offset)
  pure { isExtended := isExtended, reader := reader, startOffset := hdr.2, offsets := hdr.1 }

/-- Modelled from the spec: `Cluster::count()` of `cluster.h` (not in the
sources), on the offsets vector: the table "includes one extra sentinel", so
the blob count is the number of stored offsets minus one. -/
def countOf (offsets : List Nat) : Nat := offsets.length - 1

/-- Modelled from the spec: `Cluster::getBlobSize(n)` of `cluster.h` (not in
the sources), on the offsets vector: blob `n` spans
`[offsets[n], offsets[n+1])`, so its size is the 64-bit difference of the two
offsets.  Only called with `n < count()`. -/
def blobSizeOf (offsets : List Nat) (n : Nat) : Nat :=
  (offsets.getD (n + 1) 0 + 2 ^ 64 - offsets.getD n 0) % 2 ^ 64

/-- `Cluster::count()` of an uncompressed cluster. -/
def Cluster.count (c : Cluster) : Nat := countOf c.offsets

/-- `Cluster::getBlobSize(n)` of an uncompressed cluster. -/
def Cluster.getBlobSize (c : Cluster) (n : Nat) : Nat := blobSizeOf c.offsets n

/-- Modelled from the spec: `Cluster::getBlobOffset(n)` of `cluster.h` (not in
the sources): the position of blob `n` counted from the start of the cluster
body (`FileImpl::getBlobOffset` adds the cluster offset and the info byte to
it).  An index outside the offsets vector has no defined result. -/
def Cluster.getBlobOffset (c : Cluster) (n : Nat) : Except Error Nat :=
  match c.offsets.get? n with
  | some o => .ok ((c.startOffset + o) % 2 ^ 64)
  | none => .error .out_of_bounds

/-- A `Blob` is identified with its bytes; `Blob()` is the empty byte string. -/
abbrev Blob := List Byte

/-- `Cluster::getBlob(blob_index_t n)` (cluster.cpp 162-174). -/
def Cluster.getBlob (c : Cluster) (n : Nat) : Except Error Blob :=
  if n < c.count then
    if c.getBlobSize n > SIZE_MAX then pure []
    else c.reader.get_buffer (c.offsets.getD n 0) (c.getBlobSize n)
  else pure []

/-- `Cluster::getBlob(blob_index_t n, offset_t offset, zsize_t size)`
(cluster.cpp 176-193), the overload with an offset and a size.  The
subtraction and the addition are 64-bit operations. -/
def Cluster.getBlobAt (c : Cluster) (n offset size : Nat) : Except Error Blob :=
  if n < c.count then
    if offset > c.getBlobSize n then pure []
    else if min size ((c.getBlobSize n + 2 ^ 64 - offset) % 2 ^ 64) > SIZE_MAX then pure []
    else
      c.reader.get_buffer ((offset + c.offsets.getD n 0) % 2 ^ 64)
        (min size ((c.getBlobSize n + 2 ^ 64 - offset) % 2 ^ 64))
  else pure []

/-! ## CompressedCluster -/

/-- Modelled from the spec: the values of `enum CompressionType` (`zim.h` is
not in the sources): "low nibble = compression type ∈ {default=1, none=0,
lzma=4, zstd=5, zip=2, bzip2=3}". -/
abbrev CompressionType := Nat

/-- Modelled from the spec: `zimcompNone`. -/
def zimcompNone : CompressionType := 0
/-- Modelled from the spec: `zimcompDefault`. -/
def zimcompDefault : CompressionType := 1
/-- Modelled from the spec: `zimcompZip`. -/
def zimcompZip : CompressionType := 2
/-- Modelled from the spec: `zimcompBzip2`. -/
def zimcompBzip2 : CompressionType := 3
/-- Modelled from the spec: `zimcompLzma`. -/
def zimcompLzma : CompressionType := 4
/-- Modelled from the spec: `zimcompZstd`. -/
def zimcompZstd : CompressionType := 5

/-- Modelled from the spec: an `IDataStream` (`idatastream.h` and
`readerdatastreamwrapper.h` are not in the sources) is a sequential
byte stream; the model keeps the bytes not consumed yet. -/
abbrev IDataStream := List Byte

/-- Modelled from the spec: `ReaderDataStreamWrapper(reader)`, the stream of
the bytes of `reader` from its start. -/
def ReaderDataStreamWrapper (reader : Reader) : IDataStream := reader.bytes

/-- Modelled from the spec: `IDataStream::readImpl(buf, nbytes)`: the next
`nbytes` bytes and the stream after them; fails when the stream holds
fewer. -/
def IDataStream.readImpl (ds : IDataStream) (nbytes : Nat) :
    Except Error (List Byte × IDataStream) :=
  if nbytes ≤ ds.length then .ok (ds.take nbytes, ds.drop nbytes) else .error .assertion

/-- Modelled from the spec: `IDataStream::read<T>()`, the next little-endian
unsigned of `w = sizeof(T)` bytes and the stream after it. -/
def IDataStream.read (w : Nat) (ds : IDataStream) : Except Error (Nat × IDataStream) := do
  let r ← ds.readImpl w
  pure (fromLittleEndian r.1, r.2)

/-- Modelled from the spec: `IDataStream::readBlob(size)`, the next `size`
bytes as an `IDataStream::Blob` and the stream after them. -/
def IDataStream.readBlob (ds : IDataStream) (size : Nat) :
    Except Error (List Byte × IDataStream) :=
  ds.readImpl size

/-- The loop of `CompressedCluster::readHeader` (cluster.cpp 280-287): `cnt`
iterations are left, `offset` is the previous raw entry. -/
def CompressedCluster.readHeader_loop (w startOffset : Nat) :
    Nat → Nat → List Nat → IDataStream → Except Error (List Nat × IDataStream)
  | 0, _, offsets, ds => pure (offsets, ds)
  | cnt + 1, offset, offsets, ds => do
    let r ← IDataStream.read w ds
    ASSERT (r.1 ≥ offset)
    CompressedCluster.readHeader_loop w startOffset cnt r.1
      (offsets ++ [(r.1 + 2 ^ 64 - startOffset) % 2 ^ 64]) r.2

/-- `CompressedCluster::readHeader<OFFSET_TYPE>(ds)` (cluster.cpp 266-288):
returns `startOffset`, the offsets vector and the stream after the table. -/
def CompressedCluster.readHeader (w : Nat) (ds : IDataStream) :
    Except Error (Nat × List Nat × IDataStream) := do
  let r ← IDataStream.read w ds
  let t ← CompressedCluster.readHeader_loop w r.1 (loopCount (r.1 / w)) r.1 [0] r.2
  pure (r.1, t.1, t.2)

/-- The loop of `CompressedCluster::readBlobs` (cluster.cpp 294-295): `k`
iterations are left, `i` is the loop variable. -/
def CompressedCluster.readBlobs_loop (offsets : List Nat) :
    Nat → Nat → List (List Byte) → IDataStream → Except Error (List (List Byte) × IDataStream)
  | 0, _, blobs, ds => pure (blobs, ds)
  | k + 1, i, blobs, ds => do
    let r ← IDataStream.readBlob ds (blobSizeOf offsets i)
    CompressedCluster.readBlobs_loop offsets k (i + 1) (blobs ++ [r.1]) r.2

/-- `CompressedCluster::readBlobs(ds)` (cluster.cpp 290-296). -/
def CompressedCluster.readBlobs (offsets : List Nat) (ds : IDataStream) :
    Except Error (List (List Byte) × IDataStream) :=
  CompressedCluster.readBlobs_loop offsets (countOf offsets) 0 [] ds

/-- The state of a `CompressedCluster` after construction. -/
structure CompressedCluster where
  isExtended : Bool
  startOffset : Nat
  offsets : List Nat
  compression_ : CompressionType
  blobs_ : List (List Byte)
  deriving DecidableEq, Repr

/-- `CompressedCluster::CompressedCluster(reader, comp, isExtended)`
(cluster.cpp 232-246). -/
def CompressedCluster.new (reader : Reader) (comp : CompressionType) (isExtended : Bool) :
    Except Error CompressedCluster := do
  ASSERT (comp > zimcompNone)
  let hdr ← CompressedCluster.readHeader (sizeofOffset isExtended)
    (ReaderDataStreamWrapper reader)
  let bl ← CompressedCluster.readBlobs hdr.2.1 hdr.2.2
  pure { isExtended := isExtended, startOffset := hdr.1, offsets := hdr.2.1,
         compression_ := comp, blobs_ := bl.1 }

/-- `Cluster::count()` of a compressed cluster. -/
def CompressedCluster.count (c : CompressedCluster) : Nat := countOf c.offsets

/-- `Cluster::getBlobSize(n)` of a compressed cluster. -/
def CompressedCluster.getBlobSize (c : CompressedCluster) (n : Nat) : Nat :=
  blobSizeOf c.offsets n

/-- `CompressedCluster::isCompressed()` (cluster.cpp 248-252). -/
def CompressedCluster.isCompressed (_c : CompressedCluster) : Bool := true

/-- `CompressedCluster::getCompression()` (cluster.cpp 254-258). -/
def CompressedCluster.getCompression (c : CompressedCluster) : CompressionType :=
  c.compression_

/-- `CompressedCluster::getBlobOffset(n)` (cluster.cpp 260-264). -/
def CompressedCluster.getBlobOffset (_c : CompressedCluster) (_n : Nat) : Except Error Nat :=
  .error (.logic_error "CompressedCluster::getBlobOffset() should never be called")

/-- `idsBlob2zimBlob(blob, offset, size)` with the constructor of
`IDSBlobBuffer` (cluster.cpp 202-228).  The sum `offset_ + size_` is a
`size_t` sum.  A view that passes both assertions and still reaches past the
blob has no defined content. -/
def idsBlob2zimBlob (blob : List Byte) (offset size : Nat) : Except Error Blob := do
  ASSERT (offset < blob.length)
  ASSERT ((offset + size) % 2 ^ 64 ≤ blob.length)
  if offset + size ≤ blob.length then pure (slice blob offset size)
  else .error .out_of_bounds

/-- `CompressedCluster::getBlob(blob_index_t n)` (cluster.cpp 298-304). -/
def CompressedCluster.getBlob (c : CompressedCluster) (n : Nat) : Except Error Blob := do
  ASSERT (n < c.blobs_.length)
  idsBlob2zimBlob (c.blobs_.getD n []) 0 (c.blobs_.getD n []).length

/-- `CompressedCluster::getBlob(blob_index_t n, offset_t offset, zsize_t size)`
(cluster.cpp 306-311), the overload with an offset and a size. -/
def CompressedCluster.getBlobAt (c : CompressedCluster) (n offset size : Nat) :
    Except Error Blob := do
  ASSERT (n < c.blobs_.length)
  idsBlob2zimBlob (c.blobs_.getD n []) offset size

/-! ## Cluster::read -/

/-- What the build and the codec libraries contribute: whether `ENABLE_ZLIB`
is defined (`config.h`), and the function `uncompress<INFO>` of
`compression.h`, which maps the bytes of the file from the given position on
to the decoded bytes or fails.  Neither is part of the sources. -/
structure Codecs where
  ENABLE_ZLIB : Bool
  uncompress : CompressionType → List Byte → Except Error (List Byte)

/-- `getClusterBuffer(zimReader, offset, comp)` (cluster.cpp 45-68): the
decoded bytes, held by a `MemoryBuffer`. -/
def getClusterBuffer (env : Codecs) (zimReader : Reader) (offset : Nat)
    (comp : CompressionType) : Except Error Buffer :=
  if comp = zimcompLzma then env.uncompress zimcompLzma (zimReader.bytes.drop offset)
  else if comp = zimcompZip then
    if env.ENABLE_ZLIB then env.uncompress zimcompZip (zimReader.bytes.drop offset)
    else .error (.runtime_error "zlib not enabled in this library")
  else if comp = zimcompZstd then env.uncompress zimcompZstd (zimReader.bytes.drop offset)
  else .error (.logic_error
    "compressions should not be something else than zimcompLzma, zimComZip or zimcompZstd.")

/-- Modelled from the spec: `BufferReader(buffer)`, the reader over an
in-memory buffer. -/
def BufferReader (buffer : Buffer) : Reader := { offset := 0, bytes := buffer }

/-- The `switch` of `getClusterReader` (cluster.cpp 77-97) for the decoded
`comp`: the reader of the cluster body.  The read at `offset` has succeeded
when `offset + 1` is formed, so that sum does not wrap. -/
def getClusterReader_switch (env : Codecs) (zimReader : Reader) (offset : Nat)
    (comp : CompressionType) : Except Error Reader :=
  if comp = zimcompDefault ∨ comp = zimcompNone then
    zimReader.sub_reader_from (offset + 1)
  else if comp = zimcompLzma ∨ comp = zimcompZip ∨ comp = zimcompZstd then do
    let buffer ← getClusterBuffer env zimReader (offset + 1) comp
    pure (BufferReader buffer)
  else if comp = zimcompBzip2 then
    .error (.runtime_error "bzip2 not enabled in this library")
  else .error (.ZimFileFormatError "Invalid compression flag")

/-- `getClusterReader(zimReader, offset, &comp, &extended)` (cluster.cpp
70-98): returns `comp`, `extended` and the reader of the cluster body. -/
def getClusterReader (env : Codecs) (zimReader : Reader) (offset : Nat) :
    Except Error (CompressionType × Bool × Reader) := do
  let clusterInfo ← zimReader.read offset
  let reader ← getClusterReader_switch env zimReader offset (clusterInfo.val &&& 0x0F)
  pure (clusterInfo.val &&& 0x0F, (clusterInfo.val &&& 0x10) != 0, reader)

/-- A `std::shared_ptr<const Cluster>`: an uncompressed `Cluster` or a
`CompressedCluster`. -/
inductive ClusterHandle where
  | plain (c : Cluster)
  | compressed (c : CompressedCluster)
  deriving DecidableEq, Repr

/-- The virtual `isCompressed()`.  Modelled from the spec for the base class
(`cluster.h` is not in the sources): an uncompressed cluster answers false. -/
def ClusterHandle.isCompressed : ClusterHandle → Bool
  | .plain _ => false
  | .compressed c => c.isCompressed

/-- The virtual `getBlobOffset(n)`. -/
def ClusterHandle.getBlobOffset : ClusterHandle → Nat → Except Error Nat
  | .plain c, n => c.getBlobOffset n
  | .compressed c, n => c.getBlobOffset n

/-- The virtual `getBlob(n)`. -/
def ClusterHandle.getBlob : ClusterHandle → Nat → Except Error Blob
  | .plain c, n => c.getBlob n
  | .compressed c, n => c.getBlob n

/-- `Cluster::count()` through a handle. -/
def ClusterHandle.count : ClusterHandle → Nat
  | .plain c => c.count
  | .compressed c => c.count

/-- `Cluster::read(zimReader, clusterOffset)` (cluster.cpp 106-114); `r` holds
`comp`, `extended` and `reader`. -/
def Cluster.read (env : Codecs) (zimReader : Reader) (clusterOffset : Nat) :
    Except Error ClusterHandle := do
  let r ← getClusterReader env zimReader clusterOffset
  if r.1 = zimcompDefault ∨ r.1 = zimcompNone then do
    let c ← Cluster.new r.2.2 r.2.1
    pure (.plain c)
  else do
    let c ← CompressedCluster.new r.2.2 r.1 r.2.1
    pure (.compressed c)

/-! ## FileImpl: clusters and blob offsets -/

/-- Modelled from the spec: the fields of `Fileheader` (`fileheader.h` is not
in the sources) that the lookups use. -/
structure Fileheader where
  articleCount : Nat
  clusterCount : Nat
  mimeListPos : Nat
  urlPtrPos : Nat
  titleIdxPos : Nat
  clusterPtrPos : Nat
  checksumPos : Nat
  deriving DecidableEq, Repr

/-- The members of `FileImpl` (fileimpl.h) that are fixed by the constructor:
the file, the header, the three pointer tables and the MIME types.  The caches
and mutexes, which change during a call, are the separate state `Caches`. -/
structure FileImpl where
  env : Codecs
  zimReader : Reader
  header : Fileheader
  titleIndexReader : Reader
  urlPtrOffsetReader : Reader
  clusterOffsetReader : Reader
  mimeTypes : List (List Byte) := []

/-- `readOffset(reader, idx)` (fileimpl.cpp 45-49); `offset_type` is 8 bytes
wide. -/
def readOffset (reader : Reader) (idx : Nat) : Except Error Nat :=
  reader.read_uint 8 (8 * idx)

/-- `FileImpl::getCountClusters()` (fileimpl.h). -/
def FileImpl.getCountClusters (f : FileImpl) : Nat := f.header.clusterCount

/-- `FileImpl::getClusterOffset(idx)` (fileimpl.cpp 371-374). -/
def FileImpl.getClusterOffset (f : FileImpl) (idx : Nat) : Except Error Nat :=
  readOffset f.clusterOffsetReader idx

/-- `FileImpl::readCluster(idx)` (fileimpl.cpp 356-361). -/
def FileImpl.readCluster (f : FileImpl) (idx : Nat) : Except Error ClusterHandle := do
  let clusterOffset ← f.getClusterOffset idx
  Cluster.read f.env f.zimReader clusterOffset

/-- `FileImpl::getCluster(idx)` (fileimpl.cpp 363-369).  Modelled from the
spec: `clusterCache.getOrPut(idx, compute)` (`concurrent_cache.h` is not in
the sources) returns the cached value of `compute()` or computes it; the
value is the one `readCluster(idx)` gives. -/
def FileImpl.getCluster (f : FileImpl) (idx : Nat) : Except Error ClusterHandle :=
  if idx ≥ f.getCountClusters then .error (.ZimFileFormatError "cluster index out of range")
  else f.readCluster idx

/-- `FileImpl::getBlobOffset(clusterIdx, blobIdx)` (fileimpl.cpp 376-382);
the sums are `offset_t` sums. -/
def FileImpl.getBlobOffset (f : FileImpl) (clusterIdx blobIdx : Nat) : Except Error Nat := do
  let cluster ← f.getCluster clusterIdx
  if cluster.isCompressed then pure 0
  else do
    let clusterOffset ← f.getClusterOffset clusterIdx
    let blobOffset ← cluster.getBlobOffset blobIdx
    pure (((clusterOffset + 1) % 2 ^ 64 + blobOffset) % 2 ^ 64)

/-! ## The raw offset table -/

/-- The raw entry number `i` of the offset table at the start of the byte
string `B`: the little-endian value of the bytes `[w * i, w * i + w)`. -/
def rawEntry (w : Nat) (B : List Byte) (i : Nat) : Nat :=
  fromLittleEndian (slice B (w * i) w)

/-! ## Dirent -/

/-- Modelled from the spec: a directory entry (`_dirent.h` is not in the
sources), with the fields of the article and of the redirect layout. `ns` is
the namespace character. -/
structure Dirent where
  mimeType : Nat
  ns : Byte
  version : Nat
  clusterNumber : Nat
  blobNumber : Nat
  redirectIndex : Nat
  url : List Byte
  title : List Byte
  parameter : List Byte
  deriving DecidableEq, Repr

/-- Modelled from the spec: `Dirent::redirectMimeType`, "redirect (0xFFFF)". -/
def Dirent.redirectMimeType : Nat := 0xffff
/-- Modelled from the spec: `Dirent::linktargetMimeType`, "linktarget
(0xFFFE)". -/
def Dirent.linktargetMimeType : Nat := 0xfffe
/-- Modelled from the spec: `Dirent::deletedMimeType`, "deleted (0xFFFD)". -/
def Dirent.deletedMimeType : Nat := 0xfffd

/-- Modelled from the spec: `Dirent::getNamespace()`. -/
def Dirent.getNamespace (d : Dirent) : Byte := d.ns

/-- Modelled from the spec: `Dirent::getTitle()`, "title, if empty, aliases url
for comparison". -/
def Dirent.getTitle (d : Dirent) : List Byte := if d.title = [] then d.url else d.title

/-- A NUL-terminated string at the head of a byte string: the string and the
bytes after its NUL, or nothing when there is no NUL. -/
def readCString : List Byte → Option (List Byte × List Byte)
  | [] => none
  | b :: bs =>
    if b = 0 then some ([], bs)
    else
      match readCString bs with
      | none => none
      | some r => some (b :: r.1, r.2)

/-- The variable-length part of a dirent record: url, title, parameters. -/
def Dirent.parseTail (mimeType paramLen : Nat) (ns : Byte)
    (version clusterNumber blobNumber redirectIndex : Nat) (rest : List Byte) :
    Except Error Dirent :=
  match readCString rest with
  | none => .error .InvalidSize
  | some u =>
    match readCString u.2 with
    | none => .error .InvalidSize
    | some t =>
      if t.2.length < paramLen then .error .InvalidSize
      else
        .ok { mimeType := mimeType, ns := ns, version := version,
              clusterNumber := clusterNumber, blobNumber := blobNumber,
              redirectIndex := redirectIndex, url := u.1, title := t.1,
              parameter := t.2.take paramLen }

/-- Modelled from the spec: the constructor `Dirent(buffer)` (`_dirent.h` and
its implementation are not in the sources).  "Article layout: mimeType |
paramLen(1) | namespace(1) | version(4) | clusterNumber(4) | blobNumber(4) |
url(NUL-term) | title(NUL-term) | extraParams(paramLen).  Redirect layout
replaces cluster/blob with a 4-byte redirect target entry index."  "If any
variable-length field would extend past the buffer end, fail with
InsufficientBuffer": the exception `InvalidSize`.  The spec gives no other
layout, so every record that is not a redirect is read as an article. -/
def Dirent.parse (buf : List Byte) : Except Error Dirent :=
  if buf.length < 8 then .error .InvalidSize
  else if fromLittleEndian (slice buf 0 2) = Dirent.redirectMimeType then
    if buf.length < 12 then .error .InvalidSize
    else
      Dirent.parseTail (fromLittleEndian (slice buf 0 2)) (buf.getD 2 0).val (buf.getD 3 0)
        (fromLittleEndian (slice buf 4 4)) 0 0 (fromLittleEndian (slice buf 8 4)) (buf.drop 12)
  else
    if buf.length < 16 then .error .InvalidSize
    else
      Dirent.parseTail (fromLittleEndian (slice buf 0 2)) (buf.getD 2 0).val (buf.getD 3 0)
        (fromLittleEndian (slice buf 4 4)) (fromLittleEndian (slice buf 8 4))
        (fromLittleEndian (slice buf 12 4)) 0 (buf.drop 16)

/-! ## Caches -/

/-- Modelled from the spec: `lru_cache<K, V>` (`lrucache.h` is not in the
sources), a "bounded LRU ... with hit/miss counters"; `items` holds the
entries, the most recently used first. -/
structure LruCache (α : Type) where
  items : List (Nat × α)
  capacity : Nat
  hits : Nat
  misses : Nat

/-- Modelled from the spec: `lru_cache::get(k)`, "Hit(v) | Miss"; a hit makes
the entry the most recently used. -/
def LruCache.get {α : Type} (c : LruCache α) (k : Nat) : Option α × LruCache α :=
  match c.items.find? (fun e => e.1 == k) with
  | some e =>
    (some e.2, { c with items := e :: c.items.filter (fun x => x.1 != k), hits := c.hits + 1 })
  | none => (none, { c with misses := c.misses + 1 })

/-- Modelled from the spec: `lru_cache::put(k, v)`, "inserts and evicts
least-recently used". -/
def LruCache.put {α : Type} (c : LruCache α) (k : Nat) (v : α) : LruCache α :=
  { c with items := ((k, v) :: c.items.filter (fun x => x.1 != k)).take c.capacity }

/-- Modelled from the spec: `ConcurrentCache::getOrPut(k, compute)`
(`concurrent_cache.h` is not in the sources) as one thread sees it: "if k is
present, return the cached value", otherwise run `compute`; a value is
inserted, a failure leaves the cache without the key. -/
def LruCache.getOrPut {α : Type} (c : LruCache α) (k : Nat) (compute : Unit → Except Error α) :
    Except Error α × LruCache α :=
  match c.get k with
  | (some v, c1) => (.ok v, c1)
  | (none, c1) =>
    match compute () with
    | .error e => (.error e, c1)
    | .ok v => (.ok v, c1.put k v)

/-- The mutable members of `FileImpl` (fileimpl.h): the two caches and the two
mutexes of `getDirent` (true when locked). -/
structure Caches where
  direntCache : LruCache Dirent
  direntCacheLock : Bool
  bufferDirentLock : Bool
  clusterCache : LruCache ClusterHandle

/-- The caches of a `FileImpl` right after construction: empty, unlocked. -/
def Caches.empty (direntCacheSize clusterCacheSize : Nat) : Caches :=
  { direntCache := { items := [], capacity := direntCacheSize, hits := 0, misses := 0 },
    direntCacheLock := false,
    bufferDirentLock := false,
    clusterCache := { items := [], capacity := clusterCacheSize, hits := 0, misses := 0 } }

/-! ## FileImpl: directory entries -/

/-- `FileImpl::getCountArticles()` (fileimpl.h). -/
def FileImpl.getCountArticles (f : FileImpl) : Nat := f.header.articleCount

/-- Modelled from the spec: `Reader::read(dest, offset, n)`, "copies n bytes;
fails with ReadError on short read". -/
def Reader.read_bytes (r : Reader) (offset n : Nat) : Except Error (List Byte) :=
  if offset + n ≤ r.size then .ok (slice r.bytes offset n) else .error .assertion

/-- The retry loop of `FileImpl::getDirent` (fileimpl.cpp 314-327): read
`bufferSize` bytes at `indexOffset`, parse them, and on `InvalidSize` try again
with 256 bytes more.  Every retry enlarges the read, so after at most
`fuel = size / 256 + 2` rounds the read itself has failed. -/
def FileImpl.getDirent_loop (f : FileImpl) (indexOffset : Nat) :
    Nat → Nat → Except Error Dirent
  | 0, _ => .error .assertion
  | fuel + 1, bufferSize =>
    match f.zimReader.read_bytes indexOffset bufferSize with
    | .error e => .error e
    | .ok direntBuffer =>
      match Dirent.parse direntBuffer with
      | .error .InvalidSize =>
        FileImpl.getDirent_loop f indexOffset fuel ((bufferSize + 256) % 2 ^ 64)
      | .error e => .error e
      | .ok dirent => .ok dirent

/-- The part of `FileImpl::getDirent` that runs under `bufferDirentLock`
(fileimpl.cpp 307-327): the first buffer size is 256, or the bytes up to the
end of the file when `indexOffset + 256` exceeds the file size. -/
def FileImpl.readDirent (f : FileImpl) (indexOffset : Nat) : Except Error Dirent :=
  FileImpl.getDirent_loop f indexOffset (f.zimReader.size / 256 + 2)
    (if (indexOffset + 256) % 2 ^ 64 > f.zimReader.size then
      (f.zimReader.size + 2 ^ 64 - indexOffset) % 2 ^ 64
    else 256)

/-- `FileImpl::getDirent(idx)` (fileimpl.cpp 271-336) with its effect on the
caches and the mutexes: the result and the state after the call.  An exception
leaves the function at once, with the state as it is at that point. -/
def FileImpl.getDirent_st (f : FileImpl) (idx : Nat) (s : Caches) :
    Except Error Dirent × Caches :=
  if idx ≥ f.getCountArticles then
    (.error (.ZimFileFormatError "article index out of range"), s)
  else
    match s.direntCache.get idx with
    | (some v, c1) => (.ok v, { s with direntCache := c1, direntCacheLock := false })
    | (none, c1) =>
      match readOffset f.urlPtrOffsetReader idx with
      | .error e => (.error e, { s with direntCache := c1, direntCacheLock := false })
      | .ok indexOffset =>
        match f.readDirent indexOffset with
        | .error e =>
          (.error e, { s with direntCache := c1, direntCacheLock := false,
                              bufferDirentLock := true })
        | .ok dirent =>
          (.ok dirent, { s with direntCache := c1.put idx dirent, direntCacheLock := false,
                                bufferDirentLock := false })

/-- The dirent that `getDirent(idx)` returns when the cache has no entry for
`idx`; a cached dirent is the result of an earlier such call on the same
immutable file. -/
def FileImpl.getDirent (f : FileImpl) (idx : Nat) : Except Error Dirent :=
  (f.getDirent_st idx (Caches.empty 0 0)).1

/-- `FileImpl::getIndexByTitle(idx)` (fileimpl.cpp 345-354); a title pointer
is 4 bytes wide. -/
def FileImpl.getIndexByTitle (f : FileImpl) (idx : Nat) : Except Error Nat :=
  if idx ≥ f.getCountArticles then .error (.ZimFileFormatError "article index out of range")
  else f.titleIndexReader.read_uint 4 (4 * idx)

/-- `FileImpl::getDirentByTitle(idx)` (fileimpl.cpp 338-343) with its effect
on the caches. -/
def FileImpl.getDirentByTitle_st (f : FileImpl) (idx : Nat) (s : Caches) :
    Except Error Dirent × Caches :=
  if idx ≥ f.getCountArticles then
    (.error (.ZimFileFormatError "article index out of range"), s)
  else
    match f.getIndexByTitle idx with
    | .error e => (.error e, s)
    | .ok i => f.getDirent_st i s

/-- The dirent that `getDirentByTitle(idx)` returns (on an empty cache). -/
def FileImpl.getDirentByTitle (f : FileImpl) (idx : Nat) : Except Error Dirent :=
  (f.getDirentByTitle_st idx (Caches.empty 0 0)).1

/-- `FileImpl::getCluster(idx)` (fileimpl.cpp 363-369) with its effect on the
cluster cache. -/
def FileImpl.getCluster_st (f : FileImpl) (idx : Nat) (s : Caches) :
    Except Error ClusterHandle × Caches :=
  if idx ≥ f.getCountClusters then
    (.error (.ZimFileFormatError "cluster index out of range"), s)
  else
    match s.clusterCache.getOrPut idx (fun _ => f.readCluster idx) with
    | (r, c1) => (r, { s with clusterCache := c1 })

/-! ## FileImpl: lookups -/

/-- Modelled from the spec: the search behind `zim::getNamespaceBeginOffset`
and `zim::getNamespaceEndOffset` (templates that are not in the sources).  It
gives the first index at or after `i`, among the next `k` entries in URL
order, whose namespace satisfies `p`, and `i + k` when there is none: the
index that the binary search of the spec finds when the URL order is sorted by
namespace. -/
def firstNamespace (f : FileImpl) (p : Byte → Bool) : Nat → Nat → Except Error Nat
  | 0, i => pure i
  | k + 1, i => do
    let d ← f.getDirent i
    if p d.getNamespace then pure i
    else firstNamespace f p k (i + 1)

/-- Modelled from the spec: `zim::getNamespaceBeginOffset(impl, ch)` (not in
the sources), "the first index with namespace ≥ ns" in URL order. -/
def getNamespaceBeginOffset (f : FileImpl) (ch : Byte) : Except Error Nat :=
  firstNamespace f (fun n => decide (ch ≤ n)) f.getCountArticles 0

/-- Modelled from the spec: `zim::getNamespaceEndOffset(impl, ch)` (not in the
sources), the first index with namespace "> ns" in URL order. -/
def getNamespaceEndOffset (f : FileImpl) (ch : Byte) : Except Error Nat :=
  firstNamespace f (fun n => decide (ch < n)) f.getCountArticles 0

/-- `FileImpl::getNamespaceBeginOffset(ch)` (fileimpl.cpp 384-405).  A value
found in `namespaceBeginCache` is the result of an earlier call on the same
immutable file, so the result is that of `zim::getNamespaceBeginOffset`. -/
def FileImpl.getNamespaceBeginOffset (f : FileImpl) (ch : Byte) : Except Error Nat :=
  zim.getNamespaceBeginOffset f ch

/-- `FileImpl::getNamespaceEndOffset(ch)` (fileimpl.cpp 407-428).  A value
found in `namespaceEndCache` is the result of an earlier call on the same
immutable file, so the result is that of `zim::getNamespaceEndOffset`. -/
def FileImpl.getNamespaceEndOffset (f : FileImpl) (ch : Byte) : Except Error Nat :=
  zim.getNamespaceEndOffset f ch

/-- `std::string::compare`: negative, zero or positive as the first string is
below, equal to or above the second in the lexicographic order of bytes. -/
def stringCompare (a b : List Byte) : Int :=
  if a < b then -1 else if a = b then 0 else 1

/-- The loop of `FileImpl::findxByTitle` (fileimpl.cpp 202-221): `some p` when
the loop returns `(true, p)`, otherwise the bounds `l, u` it ends with.  Every
round shrinks `u - l`, so `fuel = u - l` rounds are enough.  The bounds are
32-bit values with `l ≤ u` (the begin offset of a namespace is at most its end
offset, and the loop keeps `l < p < u`), so `u - l` does not wrap.  The
namespace characters are compared as byte values, which for ASCII characters
is the order of `char`. -/
def FileImpl.findxByTitle_loop (f : FileImpl) (ns : Byte) (title : List Byte) :
    Nat → Nat → Nat → Except Error (Option Nat × Nat × Nat)
  | 0, l, u => pure (none, l, u)
  | fuel + 1, l, u =>
    if u - l > 1 then do
      let d ← f.getDirentByTitle (l + (u - l) / 2)
      let c : Int :=
        if ns < d.getNamespace then -1
        else if ns > d.getNamespace then 1
        else stringCompare title d.getTitle
      if c < 0 then FileImpl.findxByTitle_loop f ns title fuel l (l + (u - l) / 2)
      else if c > 0 then FileImpl.findxByTitle_loop f ns title fuel (l + (u - l) / 2) u
      else pure (some (l + (u - l) / 2), l, u)
    else pure (none, l, u)

/-- `FileImpl::findxByTitle(ns, title)` (fileimpl.cpp 188-234). -/
def FileImpl.findxByTitle (f : FileImpl) (ns : Byte) (title : List Byte) :
    Except Error (Bool × Nat) := do
  let l ← f.getNamespaceBeginOffset ns
  let u ← f.getNamespaceEndOffset ns
  if l = u then pure (false, 0)
  else do
    let r ← FileImpl.findxByTitle_loop f ns title (u - l) l u
    match r.1 with
    | some p => pure (true, p)
    | none => do
      let d ← f.getDirentByTitle r.2.1
      if stringCompare title d.getTitle = 0 then pure (true, r.2.1)
      else pure (false, if stringCompare title d.getTitle < 0 then r.2.1 else r.2.2)

/-- `FileImpl::findx(const std::string& url)` (fileimpl.cpp 177-186).  The
two-argument `findx(ns, url)` forwards to `zim::findx`, which is not in the
sources; it is the parameter `findx_ns_url`.  `url[0]` of the empty string is
the NUL character, and 47 is the character `/`. -/
def FileImpl.findx (findx_ns_url : Byte → List Byte → Except Error (Bool × Nat))
    (url : List Byte) : Except Error (Bool × Nat) :=
  let start : Nat := if url.getD 0 0 = 47 then 1 else 0
  if url.length < 2 + start ∨ url.getD (1 + start) 0 ≠ 47 then
    pure (false, 0)
  else
    findx_ns_url (url.getD start 0) (url.drop (2 + start))

/-- The pair that the loop body of `findxByClusterOrder` (fileimpl.cpp
245-255) pushes for entry `i`; `cluster_index_type` is 4 bytes wide. -/
def FileImpl.clusterOrderPair (f : FileImpl) (i : Nat) : Except Error (Nat × Nat) := do
  let indexOffset ← readOffset f.urlPtrOffsetReader i
  let mimeType ← f.zimReader.read_uint 2 indexOffset
  if mimeType = Dirent.redirectMimeType ∨ mimeType = Dirent.linktargetMimeType ∨
      mimeType = Dirent.deletedMimeType then
    pure (0, i)
  else do
    let clusterNumber ← f.zimReader.read_uint 4 ((indexOffset + 8) % 2 ^ 64)
    pure (clusterNumber, i)

/-- The `for` loop of `findxByClusterOrder` (fileimpl.cpp 243-256): `k`
entries are left, `i` is the loop variable. -/
def FileImpl.clusterOrderPairs (f : FileImpl) :
    Nat → Nat → List (Nat × Nat) → Except Error (List (Nat × Nat))
  | 0, _, acc => pure acc
  | k + 1, i, acc => do
    let p ← f.clusterOrderPair i
    FileImpl.clusterOrderPairs f k (i + 1) (acc ++ [p])

/-- The order of `std::pair`: by first component, then by second. -/
def pairLE (a b : Nat × Nat) : Prop := a.1 < b.1 ∨ (a.1 = b.1 ∧ a.2 ≤ b.2)

/-- The order of `std::pair` is decidable. -/
instance pairLE_decidable : DecidableRel pairLE := fun a b =>
  inferInstanceAs (Decidable (a.1 < b.1 ∨ (a.1 = b.1 ∧ a.2 ≤ b.2)))

/-- The order of `std::pair` is total. -/
instance pairLE_total : IsTotal (Nat × Nat) pairLE :=
  ⟨fun a b => by unfold pairLE; omega⟩

/-- The order of `std::pair` is transitive. -/
instance pairLE_trans : IsTrans (Nat × Nat) pairLE :=
  ⟨fun a b c => by unfold pairLE; omega⟩

/-- The vector `articleListByCluster` that the `call_once` block of
`findxByClusterOrder` builds (fileimpl.cpp 238-258); `std::sort` gives the
sorted arrangement of the pairs. -/
def FileImpl.articleListByCluster (f : FileImpl) : Except Error (List (Nat × Nat)) := do
  let l ← FileImpl.clusterOrderPairs f f.getCountArticles 0 []
  pure (l.insertionSort pairLE)

/-- `FileImpl::findxByClusterOrder(idx)` (fileimpl.cpp 236-263). -/
def FileImpl.findxByClusterOrder (f : FileImpl) (idx : Nat) : Except Error (Bool × Nat) := do
  let articleListByCluster ← f.articleListByCluster
  if idx ≥ articleListByCluster.length then pure (false, 0)
  else pure (true, (articleListByCluster.getD idx (0, 0)).2)

/-! ## FileImpl: construction -/

/-- Modelled from the spec: `Fileheader::size`, "fixed 80 bytes". -/
def Fileheader.size : Nat := 80

/-- Modelled from the spec: `Fileheader::hasChecksum()`, "checksum offset
(0 = no checksum)". -/
def Fileheader.hasChecksum (h : Fileheader) : Bool := h.checksumPos != 0

/-- Modelled from the spec: `Fileheader::read(buffer)` (`fileheader.h` and its
implementation are not in the sources).  "FileHeader (fixed 80 bytes at offset
0)": "magic number (must equal 0x44D495A), major/minor version, 16-byte UUID,
article (entry) count, cluster count, mime-list offset, URL-pointer-list
offset, title-pointer-list offset, cluster-pointer-list offset, main-page
index and layout-page index, checksum offset", "all integers
little-endian". -/
def Fileheader.read (buffer : Buffer) : Except Error Fileheader := do
  let magic ← Buffer.as 4 buffer 0
  if magic ≠ 0x44D495A then .error (.ZimFileFormatError "Invalid magic number")
  else do
    let articleCount ← Buffer.as 4 buffer 24
    let clusterCount ← Buffer.as 4 buffer 28
    let mimeListPos ← Buffer.as 8 buffer 32
    let urlPtrPos ← Buffer.as 8 buffer 40
    let titleIdxPos ← Buffer.as 8 buffer 48
    let clusterPtrPos ← Buffer.as 8 buffer 56
    let checksumPos ← Buffer.as 8 buffer 72
    pure { articleCount := articleCount, clusterCount := clusterCount,
           mimeListPos := mimeListPos, urlPtrPos := urlPtrPos, titleIdxPos := titleIdxPos,
           clusterPtrPos := clusterPtrPos, checksumPos := checksumPos }

/-- Modelled from the spec: `Reader::can_read(offset, n)`. -/
def Reader.can_read (r : Reader) (offset n : Nat) : Bool := decide (offset + n ≤ r.size)

/-- The `try` block around `header.read` (fileimpl.cpp 80-86): a
`ZimFileFormatError` passes, every other exception becomes one.
`Fileheader::read` is not in the sources; it is the parameter
`readHeader`. -/
def FileImpl.readHeader (readHeader : Buffer → Except Error Fileheader) (zimReader : Reader) :
    Except Error Fileheader :=
  match zimReader.get_buffer 0 Fileheader.size with
  | .error _ => .error (.ZimFileFormatError "error reading zim-file header.")
  | .ok buffer =>
    match readHeader buffer with
    | .ok h => .ok h
    | .error (.ZimFileFormatError msg) => .error (.ZimFileFormatError msg)
    | .error _ => .error (.ZimFileFormatError "error reading zim-file header.")

/-- `strlen`: the number of bytes before the first NUL.  When there is no NUL
in the buffer, `strlen` runs past its end; the model gives the number of bytes
left, and any larger value takes the same branch in `parseMimeTypes`. -/
def strlen (bytes : List Byte) : Nat := (bytes.takeWhile (fun b => b != 0)).length

/-- The loop that reads the MIME types (fileimpl.cpp 152-168).  `current`
grows in every round, so `fuel = size + 1` rounds are enough. -/
def FileImpl.parseMimeTypes (buffer : Buffer) (size : Nat) :
    Nat → Nat → List (List Byte) → Except Error (List (List Byte))
  | 0, _, mimeTypes => pure mimeTypes
  | fuel + 1, current, mimeTypes =>
    if current < size then
      if strlen (buffer.drop current) = 0 then pure mimeTypes
      else if current + strlen (buffer.drop current) ≥ size then
        .error (.ZimFileFormatError "Error getting mimelists.")
      else
        FileImpl.parseMimeTypes buffer size fuel (current + (strlen (buffer.drop current) + 1))
          (mimeTypes ++ [slice buffer current (strlen (buffer.drop current))])
    else pure mimeTypes

/-- The part of the constructor that sets up the pointer tables (fileimpl.cpp
88-122): the readers `urlPtrOffsetReader`, `titleIndexReader` and
`clusterOffsetReader`, here the `sub_reader` variants.  The counts of the
header are 32-bit values (`entry_index_t(header.getArticleCount())` in
fileimpl.h), so the products `count * 8` and `count * 4` are taken in 32 bits
and then widened to `zsize_t`. -/
def FileImpl.new_tables (zimReader : Reader) (header : Fileheader) :
    Except Error (Reader × Reader × Reader) :=
  -- urlPtrOffsetReader
  if ¬ zimReader.can_read header.urlPtrPos ((header.articleCount * 8) % 2 ^ 32) then
    .error (.ZimFileFormatError "Reading out of zim file.")
  else do
  let urlPtrOffsetReader ←
    zimReader.sub_reader header.urlPtrPos ((header.articleCount * 8) % 2 ^ 32)
  -- titleIndexReader
  if ¬ zimReader.can_read header.titleIdxPos ((header.articleCount * 4) % 2 ^ 32) then
    .error (.ZimFileFormatError "Reading out of zim file.")
  else do
  let titleIndexReader ←
    zimReader.sub_reader header.titleIdxPos ((header.articleCount * 4) % 2 ^ 32)
  -- clusterOffsetReader
  if ¬ zimReader.can_read header.clusterPtrPos ((header.clusterCount * 8) % 2 ^ 32) then
    .error (.ZimFileFormatError "Reading out of zim file.")
  else do
  let clusterOffsetReader ←
    zimReader.sub_reader header.clusterPtrPos ((header.clusterCount * 8) % 2 ^ 32)
  pure (urlPtrOffsetReader, titleIndexReader, clusterOffsetReader)

/-- The check of the last cluster offset in the constructor (fileimpl.cpp
124-135); `zimFile->fsize()` is the size of `zimReader`, and
`cluster_index_type(getCountClusters()) - 1` is a 32-bit value. -/
def FileImpl.new_lastOffset (zimReader : Reader) (header : Fileheader)
    (clusterOffsetReader : Reader) : Except Error Unit :=
  if header.clusterCount = 0 then pure ()
  else do
    let lastOffset ← readOffset clusterOffsetReader ((header.clusterCount + 2 ^ 32 - 1) % 2 ^ 32)
    if lastOffset > zimReader.size then
      .error (.ZimFileFormatError "last cluster offset larger than file size; file corrupt")
    else pure ()

/-- The check of the checksum position in the constructor (fileimpl.cpp
137-139); `fsize().v - 16` is a 64-bit value. -/
def FileImpl.new_checksum (zimReader : Reader) (header : Fileheader) : Except Error Unit :=
  if header.hasChecksum = true ∧
      header.checksumPos ≠ (zimReader.size + 2 ^ 64 - 16) % 2 ^ 64 then
    .error (.ZimFileFormatError "Checksum position is not valid")
  else pure ()

/-- The part of the constructor that reads the MIME types (fileimpl.cpp
141-168); `endMimeList - header.getMimeListPos()` is a 64-bit value. -/
def FileImpl.new_mimeTypes (zimReader : Reader) (header : Fileheader) :
    Except Error (List (List Byte)) := do
  let endMimeList := min header.urlPtrPos 1024
  let size := (endMimeList + 2 ^ 64 - header.mimeListPos) % 2 ^ 64
  let buffer ← zimReader.get_buffer header.mimeListPos size
  FileImpl.parseMimeTypes buffer size (size + 1) 0 []

/-- The constructor up to the MIME types (fileimpl.cpp 76-139): the header and
the three readers of an archive that passes the checks. -/
def FileImpl.new_checked (readHeader : Buffer → Except Error Fileheader) (zimReader : Reader) :
    Except Error (Fileheader × Reader × Reader × Reader) :=
  if zimReader.size < Fileheader.size then
    .error (.ZimFileFormatError "zim-file is too small to contain a header")
  else do
    let header ← FileImpl.readHeader readHeader zimReader
    let tables ← FileImpl.new_tables zimReader header
    FileImpl.new_lastOffset zimReader header tables.2.2
    FileImpl.new_checksum zimReader header
    pure (header, tables)

/-- `FileImpl::FileImpl(fname)` (fileimpl.cpp 56-169) from the bytes of the
opened file. -/
def FileImpl.new (env : Codecs) (readHeader : Buffer → Except Error Fileheader)
    (zimFile : List Byte) : Except Error FileImpl := do
  let checked ← FileImpl.new_checked readHeader { offset := 0, bytes := zimFile }
  let mimeTypes ← FileImpl.new_mimeTypes { offset := 0, bytes := zimFile } checked.1
  pure { env := env, zimReader := { offset := 0, bytes := zimFile }, header := checked.1,
         urlPtrOffsetReader := checked.2.1, titleIndexReader := checked.2.2.1,
         clusterOffsetReader := checked.2.2.2, mimeTypes := mimeTypes }

/-- `FileImpl::getMimeType(idx)` (fileimpl.cpp 447-457).  `mimeTypes[idx]`
with `idx` equal to the size of the vector is an access outside of it. -/
def FileImpl.getMimeType (f : FileImpl) (idx : Nat) : Except Error (List Byte) :=
  if idx > f.mimeTypes.length then
    .error (.runtime_error ("unknown mime type code " ++ toString idx))
  else
    match f.mimeTypes.get? idx with
    | some mimeType => .ok mimeType
    | none => .error .out_of_bounds

/-! ## FileImpl: checksum -/

/-- Modelled from the spec: `Buffer::at(offset)` (`buffer.h` is not in the
sources), the byte at `offset` of the span; an offset outside the span
fails. -/
def Buffer.at (b : Buffer) (offset : Nat) : Except Error Byte :=
  match b.get? offset with
  | some v => .ok v
  | none => .error .assertion

/-- The table `hex[] = "0123456789abcdef"` of `getChecksum` (fileimpl.cpp
475). -/
def hex : List Byte :=
  [48, 49, 50, 51, 52, 53, 54, 55, 56, 57, 97, 98, 99, 100, 101, 102]

/-- The loop of `getChecksum` (fileimpl.cpp 477-482): `k` rounds are left, `i`
is the loop variable, `hexdigest` holds the characters written so far. -/
def FileImpl.getChecksum_loop (chksum : Buffer) :
    Nat → Nat → List Byte → Except Error (List Byte)
  | 0, _, hexdigest => pure hexdigest
  | k + 1, i, hexdigest => do
    let v ← chksum.at i
    FileImpl.getChecksum_loop chksum k (i + 1)
      (hexdigest ++ [hex.getD (v.val >>> 4) 0, hex.getD (v.val &&& 0xf) 0])

/-- `FileImpl::getChecksum()` (fileimpl.cpp 459-485); a string is the list of
its characters.  Every exception of `get_buffer` is caught and gives the empty
string. -/
def FileImpl.getChecksum (f : FileImpl) : Except Error (List Byte) :=
  if ¬ f.header.hasChecksum then pure []
  else
    match f.zimReader.get_buffer f.header.checksumPos 16 with
    | .error _ => pure []
    | .ok chksum => FileImpl.getChecksum_loop chksum 16 0 []

/-! ## Buffer views -/

/-- Modelled from the spec: `Buffer::size()` (`buffer.h` is not in the
sources), the number of bytes of the span. -/
def Buffer.size (b : Buffer) : Nat := b.length

/-- Modelled from the spec: `Buffer::data(offset)` (`buffer.h` is not in the
sources), the pointer to the byte at `offset`; the model keeps the bytes of
the span from that pointer on. -/
def Buffer.data (b : Buffer) (offset : Nat) : List Byte := b.drop offset

/-- The class `SubBuffer` (buffer.cpp 39-55): a `Buffer` of `size_` bytes
whose data pointer `_data` points into the parent. -/
structure SubBuffer where
  size_ : Nat
  _data : List Byte
  deriving DecidableEq, Repr

/-- The constructor `SubBuffer(src, offset, size)` (buffer.cpp 41-47); the sum
`offset.v + size.v` is a 64-bit value. -/
def SubBuffer.new (src : Buffer) (offset size : Nat) : Except Error SubBuffer := do
  ASSERT (offset ≤ src.size)
  ASSERT ((offset + size) % 2 ^ 64 ≤ src.size)
  pure { size_ := size, _data := src.data offset }

/-- `SubBuffer::dataImpl(offset)` (buffer.cpp 49-51). -/
def SubBuffer.dataImpl (b : SubBuffer) (offset : Nat) : List Byte := b._data.drop offset

/-- Modelled from the spec: `Buffer::size()` of a `SubBuffer` (`buffer.h` is
not in the sources), the size given to the base constructor `Buffer(size)`. -/
def SubBuffer.size (b : SubBuffer) : Nat := b.size_

/-- Modelled from the spec: `Buffer::data(offset)` of a `SubBuffer` (`buffer.h`
is not in the sources), the pointer that the virtual `dataImpl` returns. -/
def SubBuffer.data (b : SubBuffer) (offset : Nat) : List Byte := b.dataImpl offset

/-- Modelled from the spec: `Buffer::at(offset)` of a `SubBuffer` (`buffer.h`
is not in the sources), the byte at the pointer `data(offset)`; an offset
outside the span fails. -/
def SubBuffer.at (b : SubBuffer) (offset : Nat) : Except Error Byte :=
  if offset < b.size then
    match (b.data offset).head? with
    | some v => .ok v
    | none => .error .assertion
  else .error .assertion

/-- The constructor `SubBuffer(src, offset, size)` (buffer.cpp 41-47) for a
source that is itself a `SubBuffer`: `src->size()` is its `size_` and
`src->data(offset)` goes through its `dataImpl`. -/
def SubBuffer.new_view (src : SubBuffer) (offset size : Nat) : Except Error SubBuffer := do
  ASSERT (offset ≤ src.size)
  ASSERT ((offset + size) % 2 ^ 64 ≤ src.size)
  pure { size_ := size, _data := src.data offset }

/-- `Buffer::sub_buffer(offset, size)` (buffer.cpp 59-62) on a buffer that
holds its bytes. -/
def Buffer.sub_buffer (b : Buffer) (offset size : Nat) : Except Error SubBuffer :=
  SubBuffer.new b offset size

/-- `Buffer::sub_buffer(offset, size)` (buffer.cpp 59-62) on a `SubBuffer`. -/
def SubBuffer.sub_buffer (b : SubBuffer) (offset size : Nat) : Except Error SubBuffer :=
  SubBuffer.new_view b offset size

/-! ## FileImpl: verify -/

/-- The interface of `md5.h` (not in the sources) that `verify` uses:
`zim_MD5Init`, `zim_MD5Update` with one byte, and `zim_MD5Final`, on a context
of type `σ`.  The digest is a parameter of the model. -/
structure MD5 (σ : Type) where
  zim_MD5Init : σ
  zim_MD5Update : σ → Byte → σ
  zim_MD5Final : σ → List Byte

/-- One part of the file compound as `verify` sees it through its
`std::ifstream`: the bytes that `stream.get` delivers while the stream is
`good()`, and whether the stream is `bad()` once `get` has failed. -/
structure PartStream where
  bytes : List Byte
  bad : Bool
  deriving DecidableEq, Repr

/-- The inner loop of `verify` (fileimpl.cpp 502-504) on the bytes that the
stream of one part delivers: the MD5 context and `currentPos` after it.
`currentPos` is below `checksumPos` when it is incremented, so the 64-bit
increment does not wrap. -/
def FileImpl.verify_part {σ : Type} (md5 : MD5 σ) (checksumPos : Nat) :
    σ → Nat → List Byte → σ × Nat
  | md5ctx, currentPos, [] => (md5ctx, currentPos)
  | md5ctx, currentPos, ch :: rest =>
    if currentPos < checksumPos then
      FileImpl.verify_part md5 checksumPos (md5.zim_MD5Update md5ctx ch) (currentPos + 1) rest
    else (md5ctx, currentPos)

/-- The loop of `verify` over the parts (fileimpl.cpp 497-512): `none` when
the loop returns `false` because a stream is bad, otherwise the MD5 context
and `currentPos` after the loop.  A stream can be bad only when `get` has
failed on it, which is tried only while `currentPos < checksumPos`. -/
def FileImpl.verify_parts {σ : Type} (md5 : MD5 σ) (checksumPos : Nat) :
    σ → Nat → List PartStream → Option (σ × Nat)
  | md5ctx, currentPos, [] => some (md5ctx, currentPos)
  | md5ctx, currentPos, part :: parts =>
    if (FileImpl.verify_part md5 checksumPos md5ctx currentPos part.bytes).2 < checksumPos ∧
        part.bad = true then
      none
    else if (FileImpl.verify_part md5 checksumPos md5ctx currentPos part.bytes).2 =
        checksumPos then
      some (FileImpl.verify_part md5 checksumPos md5ctx currentPos part.bytes)
    else
      FileImpl.verify_parts md5 checksumPos
        (FileImpl.verify_part md5 checksumPos md5ctx currentPos part.bytes).1
        (FileImpl.verify_part md5 checksumPos md5ctx currentPos part.bytes).2 parts

/-- `FileImpl::verify()` (fileimpl.cpp 487-528); `parts` are the streams of
the parts of `zimFile` in order, and `memcmp` compares 16 bytes. -/
def FileImpl.verify {σ : Type} (f : FileImpl) (md5 : MD5 σ) (parts : List PartStream) :
    Except Error Bool :=
  if ¬ f.header.hasChecksum then pure false
  else
    match FileImpl.verify_parts md5 f.header.checksumPos md5.zim_MD5Init 0 parts with
    | none => pure false
    | some r =>
      if r.2 ≠ f.header.checksumPos then pure false
      else do
        let chksumFile ← f.zimReader.get_buffer f.header.checksumPos 16
        if (chksumFile.data 0).take 16 ≠ (md5.zim_MD5Final r.1).take 16 then pure false
        else pure true

/-! ## FileImpl: namespaces -/

/-- The loop of `getNamespaces` (fileimpl.cpp 437-442): `d` is the current
dirent, `namespaces` the string so far; `none` when the loop has not ended
after `fuel` rounds. -/
def FileImpl.getNamespaces_loop (f : FileImpl) :
    Nat → Dirent → List Byte → Except Error (Option (List Byte))
  | 0, _, _ => pure none
  | fuel + 1, d, namespaces => do
    let idx ← f.getNamespaceEndOffset d.getNamespace
    if idx < f.getCountArticles then do
      let d ← f.getDirent idx
      FileImpl.getNamespaces_loop f fuel d (namespaces ++ [d.getNamespace])
    else pure (some namespaces)

/-- `FileImpl::getNamespaces()` (fileimpl.cpp 430-445) with at most `fuel`
rounds of its loop: `some` string when the function returns it, `none` when
the loop has not ended by then. -/
def FileImpl.getNamespaces (f : FileImpl) (fuel : Nat) : Except Error (Option (List Byte)) := do
  let d ← f.getDirent 0
  FileImpl.getNamespaces_loop f fuel d [d.getNamespace]

/-! ## DecodedDataStream -/

/-- Modelled from the spec: `CompStep` (`compression.h` is not in the
sources), "step ∈ {STEP, FINISH}". -/
inductive CompStep where
  | STEP
  | FINISH
  deriving DecidableEq, Repr

/-- Modelled from the spec: `CompStatus` (`compression.h` is not in the
sources), "{Ok, StreamEnd, BufferTooSmall, DecodeError}". -/
inductive CompStatus where
  | OK
  | STREAM_END
  | BUF_ERROR
  | OTHER
  deriving DecidableEq, Repr

/-- The type `Decoder::stream_t` as `DecodedDataStream` uses it
(decodeddatastream.h 43-44, 56-57, 76-78): the "external `next_in / avail_in /
next_out / avail_out` counters" of the spec and the state `codec` of the
decoder library.  `next_in` holds the bytes of the input buffer from the
pointer on, `next_out` the bytes written to the output buffer before the
pointer. -/
structure DecoderState (σ : Type) where
  next_in : List Byte
  avail_in : Nat
  next_out : List Byte
  avail_out : Nat
  codec : σ

/-- The template parameter `Decoder` of `DecodedDataStream` (`compression.h`
is not in the sources): `init_stream_decoder(state, scratch)` and
`stream_run_decode(state, step)`, which updates the state and gives a
status. -/
structure Decoder (σ : Type) where
  init_stream_decoder : DecoderState σ → List Byte → DecoderState σ
  stream_run_decode : DecoderState σ → CompStep → CompStatus × DecoderState σ

/-- The constant `BUF_SIZE` (decodeddatastream.h 33). -/
def BUF_SIZE : Nat := 1024

/-- The data members of `DecodedDataStream` (decodeddatastream.h 87-91). -/
structure DecodedDataStream (σ : Type) where
  encodedDataStream_ : IDataStream
  inputBytesLeft_ : Nat
  decoderState_ : DecoderState σ
  encodedDataBuf_ : List Byte

/-- `std::vector::resize(n)`: the first `n` elements, with zeros added when
the vector is shorter. -/
def resize (v : List Byte) (n : Nat) : List Byte := v.take n ++ List.replicate (n - v.length) 0

/-- `DecodedDataStream::readNextChunk()` (decodeddatastream.h 48-58).  The
read writes the `n` bytes over the first `n` bytes of `encodedDataBuf_`. -/
def DecodedDataStream.readNextChunk {σ : Type} (s : DecodedDataStream σ) :
    Except Error (DecodedDataStream σ) := do
  let n := min BUF_SIZE s.inputBytesLeft_
  let r ← s.encodedDataStream_.readImpl n
  let inputBytesLeft_ := s.inputBytesLeft_ - n
  let encodedDataBuf_ :=
    if inputBytesLeft_ = 0 then resize (r.1 ++ s.encodedDataBuf_.drop n) n
    else r.1 ++ s.encodedDataBuf_.drop n
  pure { encodedDataStream_ := r.2,
         inputBytesLeft_ := inputBytesLeft_,
         decoderState_ := { s.decoderState_ with next_in := encodedDataBuf_,
                                                 avail_in := encodedDataBuf_.length },
         encodedDataBuf_ := encodedDataBuf_ }

/-- The constructor `DecodedDataStream(inputData, inputSize)`
(decodeddatastream.h 36-45).  `uninitialized` is the content of the member
`decoderState_` before `init_stream_decoder` has run. -/
def DecodedDataStream.new {σ : Type} (dec : Decoder σ) (uninitialized : DecoderState σ)
    (inputData : IDataStream) (inputSize : Nat) : Except Error (DecodedDataStream σ) := do
  let s ← DecodedDataStream.readNextChunk
    { encodedDataStream_ := inputData, inputBytesLeft_ := inputSize,
      decoderState_ := uninitialized, encodedDataBuf_ := List.replicate BUF_SIZE 0 }
  let decoderState_ := dec.init_stream_decoder s.decoderState_ s.encodedDataBuf_
  pure { s with decoderState_ := { decoderState_ with next_in := s.encodedDataBuf_,
                                                      avail_in := s.encodedDataBuf_.length } }

/-- `DecodedDataStream::decodeMoreBytes()` (decodeddatastream.h 60-72). -/
def DecodedDataStream.decodeMoreBytes {σ : Type} (dec : Decoder σ) (s : DecodedDataStream σ) :
    Except Error (CompStatus × DecodedDataStream σ) := do
  let r ←
    if s.decoderState_.avail_in = 0 then
      if s.inputBytesLeft_ = 0 then pure (CompStep.FINISH, s)
      else do
        let s ← s.readNextChunk
        pure (CompStep.STEP, s)
    else pure (CompStep.STEP, s)
  pure ((dec.stream_run_decode r.2.decoderState_ r.1).1,
        { r.2 with decoderState_ := (dec.stream_run_decode r.2.decoderState_ r.1).2 })

/-- The loop of `DecodedDataStream::readImpl` (decodeddatastream.h 78-81):
`none` when the loop has not ended after `fuel` rounds.  The status that
`decodeMoreBytes` returns is not looked at. -/
def DecodedDataStream.readImpl_loop {σ : Type} (dec : Decoder σ) :
    Nat → DecodedDataStream σ → Except Error (Option (DecodedDataStream σ))
  | 0, s => if s.decoderState_.avail_out ≠ 0 then pure none else pure (some s)
  | fuel + 1, s =>
    if s.decoderState_.avail_out ≠ 0 then do
      let r ← DecodedDataStream.decodeMoreBytes dec s
      DecodedDataStream.readImpl_loop dec fuel r.2
    else pure (some s)

/-- `DecodedDataStream::readImpl(buf, nbytes)` (decodeddatastream.h 74-82)
with at most `fuel` rounds of its loop: the bytes written to `buf` and the
stream after the call, or `none` when the loop has not ended by then. -/
def DecodedDataStream.readImpl {σ : Type} (dec : Decoder σ) (fuel : Nat)
    (s : DecodedDataStream σ) (nbytes : Nat) :
    Except Error (Option (List Byte × DecodedDataStream σ)) := do
  let r ← DecodedDataStream.readImpl_loop dec fuel
    { s with decoderState_ := { s.decoderState_ with next_out := [], avail_out := nbytes } }
  pure (r.map (fun s => (s.decoderState_.next_out, s)))

/-- Modelled from the spec: `IDataStream::readBlob(size)` (`idatastream.h` is
not in the sources) on a `DecodedDataStream`: a buffer of `size` bytes filled
by `readImpl`. -/
def DecodedDataStream.readBlob {σ : Type} (dec : Decoder σ) (fuel : Nat)
    (s : DecodedDataStream σ) (size : Nat) :
    Except Error (Option (List Byte × DecodedDataStream σ)) :=
  DecodedDataStream.readImpl dec fuel s size

/-! ## Notions used to state the properties -/

/-- The body of the cluster at `clusterOffset`: the bytes of the file that
follow the info byte. -/
def clusterBody (zimReader : Reader) (clusterOffset : Nat) : List Byte :=
  zimReader.bytes.drop (clusterOffset + 1)

/-- Codecs that decode every stream to itself, with zlib enabled or not. -/
def idCodecs (zlib : Bool) : Codecs :=
  { ENABLE_ZLIB := zlib, uncompress := fun _ bs => .ok bs }

/-- A file that holds one uncompressed cluster with the blobs `hi` and `abc`:
info byte 0, table `12, 14, 17` in 32-bit entries, then the five data
bytes. -/
def exampleFile : Reader :=
  { offset := 0,
    bytes := [0, 12, 0, 0, 0, 14, 0, 0, 0, 17, 0, 0, 0, 104, 105, 97, 98, 99] }

/-- The cluster that `Cluster::read` builds from `exampleFile`. -/
def exampleCluster : Cluster :=
  { isExtended := false,
    reader := { offset := 13, bytes := [104, 105, 97, 98, 99] },
    startOffset := 12,
    offsets := [0, 2, 5] }

/-- The reader of the body of the example cluster: the bytes of `exampleFile`
after the info byte. -/
def exampleBody : Reader :=
  { offset := 1, bytes := [12, 0, 0, 0, 14, 0, 0, 0, 17, 0, 0, 0, 104, 105, 97, 98, 99] }

/-- A cluster body whose table `12, 14, 13` is not monotone. -/
def nonMonotoneBody : Reader :=
  { offset := 1, bytes := [12, 0, 0, 0, 14, 0, 0, 0, 13, 0, 0, 0, 104, 105, 97, 98, 99] }

/-- The decoded body of a compressed cluster with the blobs `alpha` and
`beta`: table `12, 17, 21` in 32-bit entries, then the nine data bytes. -/
def alphaBetaBody : List Byte :=
  [12, 0, 0, 0, 17, 0, 0, 0, 21, 0, 0, 0, 97, 108, 112, 104, 97, 98, 101, 116, 97]

/-- The compressed cluster constructed over `alphaBetaBody`. -/
def alphaBetaCluster : CompressedCluster :=
  { isExtended := false,
    startOffset := 12,
    offsets := [0, 5, 9],
    compression_ := zimcompLzma,
    blobs_ := [[97, 108, 112, 104, 97], [98, 101, 116, 97]] }

/-- A cluster body with one blob of length zero: table `8, 8` in 32-bit
entries and no data bytes. -/
def emptyBlobBody : List Byte := [8, 0, 0, 0, 8, 0, 0, 0]

/-- A file that holds one cluster with info byte 2 (zip) whose stream
decodes, under `idCodecs`, to `alphaBetaBody`. -/
def zipFile : Reader := { offset := 0, bytes := 2 :: alphaBetaBody }

/-- A file whose only byte is the info byte `0xF3`: compression nibble 3
(bzip2) with all upper bits set, and nothing after it. -/
def bzip2File : Reader := { offset := 0, bytes := [0xF3] }

/-- A file whose only byte is the info byte `0x07`: compression nibble 7. -/
def badFlagFile : Reader := { offset := 0, bytes := [0x07] }

/-- An archive image with one cluster: the cluster pointer table (one 64-bit
entry, value 8) at offset 0, then the bytes of `exampleFile` as the cluster at
offset 8. -/
def exampleArchiveBytes : List Byte :=
  [8, 0, 0, 0, 0, 0, 0, 0] ++ exampleFile.bytes

/-- A `FileImpl` over `exampleArchiveBytes`. -/
def exampleArchive : FileImpl :=
  { env := idCodecs true,
    zimReader := { offset := 0, bytes := exampleArchiveBytes },
    header := { articleCount := 0, clusterCount := 1, mimeListPos := 0, urlPtrPos := 0,
                titleIdxPos := 0, clusterPtrPos := 0, checksumPos := 0 },
    titleIndexReader := { offset := 0, bytes := [] },
    urlPtrOffsetReader := { offset := 0, bytes := [] },
    clusterOffsetReader := { offset := 0, bytes := [8, 0, 0, 0, 0, 0, 0, 0] } }

/-- A `FileImpl` whose only cluster, at offset 8, is the zip cluster of
`zipFile`. -/
def zipArchive : FileImpl :=
  { env := idCodecs true,
    zimReader := { offset := 0, bytes := [8, 0, 0, 0, 0, 0, 0, 0] ++ zipFile.bytes },
    header := { articleCount := 0, clusterCount := 1, mimeListPos := 0, urlPtrPos := 0,
                titleIdxPos := 0, clusterPtrPos := 0, checksumPos := 0 },
    titleIndexReader := { offset := 0, bytes := [] },
    urlPtrOffsetReader := { offset := 0, bytes := [] },
    clusterOffsetReader := { offset := 0, bytes := [8, 0, 0, 0, 0, 0, 0, 0] } }

/-- The cluster of `exampleArchive`: `exampleCluster` with the data reader at
file offset 21. -/
def exampleArchiveCluster : Cluster :=
  { exampleCluster with reader := { offset := 21, bytes := [104, 105, 97, 98, 99] } }

/-- The cluster of `zipArchive`: `alphaBetaCluster` with compression zip. -/
def zipCluster : CompressedCluster :=
  { alphaBetaCluster with compression_ := zimcompZip }

/-- The little-endian bytes of `n` in a field of `w` bytes. -/
def toLittleEndian : Nat → Nat → List Byte
  | 0, _ => []
  | w + 1, n => ⟨n % 256, Nat.mod_lt n (by decide)⟩ :: toLittleEndian w (n / 256)

/-- The 80 bytes of a header in the layout of `Fileheader.read`: version 5.0,
a zero UUID, no main page and no layout page. -/
def headerBytes (h : Fileheader) : List Byte :=
  toLittleEndian 4 0x44D495A ++ toLittleEndian 2 5 ++ toLittleEndian 2 0 ++
  List.replicate 16 0 ++
  toLittleEndian 4 h.articleCount ++ toLittleEndian 4 h.clusterCount ++
  toLittleEndian 8 h.mimeListPos ++ toLittleEndian 8 h.urlPtrPos ++
  toLittleEndian 8 h.titleIdxPos ++ toLittleEndian 8 h.clusterPtrPos ++
  toLittleEndian 4 0xFFFFFFFF ++ toLittleEndian 4 0xFFFFFFFF ++
  toLittleEndian 8 h.checksumPos

/-- The header of `lastOffsetFile`: no entries, two clusters, every table at
offset 80. -/
def lastOffsetHeader : Fileheader :=
  { articleCount := 0, clusterCount := 2, mimeListPos := 80, urlPtrPos := 80,
    titleIdxPos := 80, clusterPtrPos := 80, checksumPos := 0 }

/-- A file of 96 bytes: the header and a cluster pointer table with the
offsets 65535 and 80. -/
def lastOffsetFile : List Byte :=
  headerBytes lastOffsetHeader ++ toLittleEndian 8 65535 ++ toLittleEndian 8 80

/-- The `FileImpl` that the constructor builds from `lastOffsetFile`. -/
def lastOffsetArchive : FileImpl :=
  { env := idCodecs true,
    zimReader := { offset := 0, bytes := lastOffsetFile },
    header := lastOffsetHeader,
    titleIndexReader := { offset := 80, bytes := [] },
    urlPtrOffsetReader := { offset := 80, bytes := [] },
    clusterOffsetReader := { offset := 80, bytes := toLittleEndian 8 65535 ++ toLittleEndian 8 80 },
    mimeTypes := [] }

/-- The header of `checksumFile`: an empty archive with a checksum at offset
80. -/
def checksumHeader : Fileheader :=
  { articleCount := 0, clusterCount := 0, mimeListPos := 80, urlPtrPos := 80,
    titleIdxPos := 80, clusterPtrPos := 80, checksumPos := 80 }

/-- A file of 96 bytes: the header and the 16 bytes of a checksum. -/
def checksumFile : List Byte := headerBytes checksumHeader ++ List.replicate 16 0

/-- The `FileImpl` that the constructor builds from `checksumFile`. -/
def checksumArchive : FileImpl :=
  { env := idCodecs true,
    zimReader := { offset := 0, bytes := checksumFile },
    header := checksumHeader,
    titleIndexReader := { offset := 80, bytes := [] },
    urlPtrOffsetReader := { offset := 80, bytes := [] },
    clusterOffsetReader := { offset := 80, bytes := [] },
    mimeTypes := [] }

/-- The header of `wrapFile`: no entries, `2^29` clusters, so that the 32-bit
product `clusterCount * 8` is 0, every table at offset 80, and a checksum
declared at offset 40. -/
def wrapHeader : Fileheader :=
  { articleCount := 0, clusterCount := 2 ^ 29, mimeListPos := 80, urlPtrPos := 80,
    titleIdxPos := 80, clusterPtrPos := 80, checksumPos := 40 }

/-- A file of 96 bytes: the header `wrapHeader` and 16 more bytes. -/
def wrapFile : List Byte := headerBytes wrapHeader ++ List.replicate 16 0

/-- The header of `misplacedFile`: as `wrapHeader`, without clusters. -/
def misplacedHeader : Fileheader :=
  { articleCount := 0, clusterCount := 0, mimeListPos := 80, urlPtrPos := 80,
    titleIdxPos := 80, clusterPtrPos := 80, checksumPos := 40 }

/-- A file of 96 bytes: the header `misplacedHeader` and 16 more bytes. -/
def misplacedFile : List Byte := headerBytes misplacedHeader ++ List.replicate 16 0

/-- The bytes of a sequence of NUL-terminated strings. -/
def cstrings : List (List Byte) → List Byte
  | [] => []
  | s :: ss => s ++ 0 :: cstrings ss

/-- The MIME region of a file: the bytes `[mimeListPos, min(urlPtrPos, 1024))`. -/
def mimeRegion (header : Fileheader) (zimFile : List Byte) : List Byte :=
  slice zimFile header.mimeListPos (min header.urlPtrPos 1024 - header.mimeListPos)

/-- The header of `mimeFile`: an empty archive whose MIME region is
`[80, 96)`. -/
def mimeHeader : Fileheader :=
  { articleCount := 0, clusterCount := 0, mimeListPos := 80, urlPtrPos := 96,
    titleIdxPos := 96, clusterPtrPos := 96, checksumPos := 0 }

/-- A file of 96 bytes whose MIME region holds `text/a`, `b/c`, the empty
string and then five bytes that are not part of the list. -/
def mimeFile : List Byte :=
  headerBytes mimeHeader ++
    [116, 101, 120, 116, 47, 97, 0, 98, 47, 99, 0, 0, 120, 0, 121, 122]

/-- The header of `unterminatedMimeFile`: an empty archive whose MIME region
is `[80, 82)`. -/
def unterminatedMimeHeader : Fileheader :=
  { articleCount := 0, clusterCount := 0, mimeListPos := 80, urlPtrPos := 82,
    titleIdxPos := 82, clusterPtrPos := 82, checksumPos := 0 }

/-- A file of 82 bytes whose MIME region is the string `a` with its NUL, and
no empty string after it. -/
def unterminatedMimeFile : List Byte := headerBytes unterminatedMimeHeader ++ [97, 0]

/-- The `FileImpl` that the constructor builds from `unterminatedMimeFile`. -/
def unterminatedMimeArchive : FileImpl :=
  { env := idCodecs true,
    zimReader := { offset := 0, bytes := unterminatedMimeFile },
    header := unterminatedMimeHeader,
    titleIndexReader := { offset := 82, bytes := [] },
    urlPtrOffsetReader := { offset := 82, bytes := [] },
    clusterOffsetReader := { offset := 82, bytes := [] },
    mimeTypes := [[97]] }

/-- The file `unterminatedMimeFile` with the region `[80, 83)` holding the
string `a` with its NUL and then the byte `b`. -/
def truncatedMimeFile : List Byte :=
  headerBytes { unterminatedMimeHeader with urlPtrPos := 83, titleIdxPos := 83,
                                            clusterPtrPos := 83 } ++ [97, 0, 98]

/-- The header of `longUrlFile`: one entry, one cluster, the pointer tables
after the dirent, and a checksum in the last 16 bytes. -/
def longUrlHeader : Fileheader :=
  { articleCount := 1, clusterCount := 1, mimeListPos := 80, urlPtrPos := 415,
    titleIdxPos := 423, clusterPtrPos := 427, checksumPos := 435 }

/-- The dirent record of `longUrlFile`, 318 bytes: an article of MIME type 0
in namespace `A`, cluster 0, blob 0, with a URL of 300 letters `a` and an
empty title. -/
def longUrlRecord : List Byte :=
  [0, 0, 0, 65, 0, 0, 0, 0, 0, 0, 0, 0, 0, 0, 0, 0] ++ List.replicate 300 97 ++ [0] ++ [0]

/-- The dirent that `longUrlRecord` encodes. -/
def longUrlDirent : Dirent :=
  { mimeType := 0, ns := 65, version := 0, clusterNumber := 0, blobNumber := 0,
    redirectIndex := 0, url := List.replicate 300 97, title := [], parameter := [] }

/-- An archive of 451 bytes: the header, the MIME list `x`, one uncompressed
cluster with the blob `hello` at offset 83, the dirent record at offset 97,
the URL pointer table, the title pointer table, the cluster pointer table
and 16 bytes of checksum. -/
def longUrlFile : List Byte :=
  headerBytes longUrlHeader ++ [120, 0, 0] ++
    [0, 8, 0, 0, 0, 13, 0, 0, 0, 104, 101, 108, 108, 111] ++
    longUrlRecord ++
    toLittleEndian 8 97 ++ toLittleEndian 4 0 ++ toLittleEndian 8 83 ++
    List.replicate 16 0

/-- The `FileImpl` that the constructor builds from `longUrlFile`. -/
def longUrlArchive : FileImpl :=
  { env := idCodecs true,
    zimReader := { offset := 0, bytes := longUrlFile },
    header := longUrlHeader,
    titleIndexReader := { offset := 423, bytes := toLittleEndian 4 0 },
    urlPtrOffsetReader := { offset := 415, bytes := toLittleEndian 8 97 },
    clusterOffsetReader := { offset := 427, bytes := toLittleEndian 8 83 },
    mimeTypes := [[120]] }

/-- The position of the dirent record of entry `e`: the `e`-th URL pointer. -/
def recordOffset (f : FileImpl) (e : Nat) : Nat :=
  fromLittleEndian (slice f.urlPtrOffsetReader.bytes (8 * e) 8)

/-- The MIME type code of entry `e`: the 16 bits at the start of its record. -/
def recordMimeType (f : FileImpl) (e : Nat) : Nat :=
  fromLittleEndian (slice f.zimReader.bytes (recordOffset f e) 2)

/-- The key of entry `e` in cluster order: 0 when the MIME type code is
redirect, linktarget or deleted, and otherwise the little-endian 32-bit
cluster number at byte offset 8 of the record. -/
def clusterOrderKey (f : FileImpl) (e : Nat) : Nat :=
  if recordMimeType f e = 0xffff ∨ recordMimeType f e = 0xfffe ∨ recordMimeType f e = 0xfffd then
    0
  else fromLittleEndian (slice f.zimReader.bytes (recordOffset f e + 8) 4)

/-- The URL pointer of entry `e` lies in the URL pointer table and the fields
of its record that decide the key lie in the file: the MIME type code, and
for an article the cluster number. -/
def recordReadable (f : FileImpl) (e : Nat) : Prop :=
  8 * e + 8 ≤ f.urlPtrOffsetReader.size ∧ recordOffset f e + 2 ≤ f.zimReader.size ∧
  (¬ (recordMimeType f e = 0xffff ∨ recordMimeType f e = 0xfffe ∨
      recordMimeType f e = 0xfffd) → recordOffset f e + 12 ≤ f.zimReader.size)

/-- Whether a record is readable can be computed. -/
instance recordReadable_decidable (f : FileImpl) (e : Nat) : Decidable (recordReadable f e) :=
  inferInstanceAs (Decidable (_ ∧ _ ∧ (_ → _)))

/-- The header of `titleFile`: three entries, two clusters, the pointer tables
after the dirents, and a checksum in the last 16 bytes. -/
def titleHeader : Fileheader :=
  { articleCount := 3, clusterCount := 2, mimeListPos := 80, urlPtrPos := 170,
    titleIdxPos := 194, clusterPtrPos := 206, checksumPos := 222 }

/-- An archive of 238 bytes with three entries.  In URL order: the article
`A/a` with title `Zed` in cluster 1, the article `A/b` with title `Ant` in
cluster 0, and the redirect `M/m` without title.  In title order: `A/b`,
`A/a`, `M/m`.  The clusters hold the blobs `hello` and `world`. -/
def titleFile : List Byte :=
  headerBytes titleHeader ++ [120, 0, 0] ++
    [0, 8, 0, 0, 0, 13, 0, 0, 0, 104, 101, 108, 108, 111] ++
    [0, 8, 0, 0, 0, 13, 0, 0, 0, 119, 111, 114, 108, 100] ++
    ([0, 0, 0, 65, 0, 0, 0, 0, 1, 0, 0, 0, 0, 0, 0, 0] ++ [97, 0] ++ [90, 101, 100, 0]) ++
    ([0, 0, 0, 65, 0, 0, 0, 0, 0, 0, 0, 0, 0, 0, 0, 0] ++ [98, 0] ++ [65, 110, 116, 0]) ++
    ([255, 255, 0, 77, 0, 0, 0, 0, 0, 0, 0, 0] ++ [109, 0] ++ [0]) ++
    (toLittleEndian 8 111 ++ toLittleEndian 8 133 ++ toLittleEndian 8 155) ++
    (toLittleEndian 4 1 ++ toLittleEndian 4 0 ++ toLittleEndian 4 2) ++
    (toLittleEndian 8 83 ++ toLittleEndian 8 97) ++
    List.replicate 16 0

/-- The `FileImpl` that the constructor builds from `titleFile`. -/
def titleArchive : FileImpl :=
  { env := idCodecs true,
    zimReader := { offset := 0, bytes := titleFile },
    header := titleHeader,
    titleIndexReader :=
      { offset := 194, bytes := toLittleEndian 4 1 ++ toLittleEndian 4 0 ++ toLittleEndian 4 2 },
    urlPtrOffsetReader :=
      { offset := 170,
        bytes := toLittleEndian 8 111 ++ toLittleEndian 8 133 ++ toLittleEndian 8 155 },
    clusterOffsetReader := { offset := 206, bytes := toLittleEndian 8 83 ++ toLittleEndian 8 97 },
    mimeTypes := [[120]] }

/-- The dirents of `titleArchive` in title order. -/
def titleDirents (i : Nat) : Dirent :=
  match i with
  | 0 => { mimeType := 0, ns := 65, version := 0, clusterNumber := 0, blobNumber := 0,
           redirectIndex := 0, url := [98], title := [65, 110, 116], parameter := [] }
  | 1 => { mimeType := 0, ns := 65, version := 0, clusterNumber := 1, blobNumber := 0,
           redirectIndex := 0, url := [97], title := [90, 101, 100], parameter := [] }
  | _ => { mimeType := 0xffff, ns := 77, version := 0, clusterNumber := 0, blobNumber := 0,
           redirectIndex := 0, url := [109], title := [], parameter := [] }

/-- The key of a dirent in the title pointer table: the namespace and the
title (the URL when the title is empty). -/
def titleKey (d : Dirent) : Byte × List Byte := (d.getNamespace, d.getTitle)

/-- The strict order of keys: by namespace, then by title. -/
def keyLT (a b : Byte × List Byte) : Prop := a.1 < b.1 ∨ (a.1 = b.1 ∧ a.2 < b.2)

/-- The order of keys: by namespace, then by title. -/
def keyLE (a b : Byte × List Byte) : Prop := a.1 < b.1 ∨ (a.1 = b.1 ∧ a.2 ≤ b.2)

/-- The strict order of keys can be computed. -/
instance keyLT_decidable (a b : Byte × List Byte) : Decidable (keyLT a b) :=
  inferInstanceAs (Decidable (a.1 < b.1 ∨ (a.1 = b.1 ∧ a.2 < b.2)))

/-- The order of keys can be computed. -/
instance keyLE_decidable (a b : Byte × List Byte) : Decidable (keyLE a b) :=
  inferInstanceAs (Decidable (a.1 < b.1 ∨ (a.1 = b.1 ∧ a.2 ≤ b.2)))

/-- The value of a hexadecimal digit `0-9a-f`. -/
def hexDigitValue (c : Byte) : Option Nat :=
  if 48 ≤ c.val ∧ c.val ≤ 57 then some (c.val - 48)
  else if 97 ≤ c.val ∧ c.val ≤ 102 then some (c.val - 87)
  else none

/-- Hex-decoding of a string: two digits give one byte, the high nibble
first. -/
def hexDecode : List Byte → Option (List Byte)
  | [] => some []
  | [_] => none
  | h :: l :: rest =>
    match hexDigitValue h, hexDigitValue l, hexDecode rest with
    | some hv, some lv, some r => some (⟨(16 * hv + lv) % 256, Nat.mod_lt _ (by decide)⟩ :: r)
    | _, _, _ => none

/-- Hex-encoding of bytes: byte `i` gives the characters `2i` (high nibble)
and `2i + 1` (low nibble). -/
def hexEncode : List Byte → List Byte
  | [] => []
  | v :: vs => hex.getD (v.val / 16) 0 :: hex.getD (v.val % 16) 0 :: hexEncode vs

/-- The MD5 digest of a byte string: the context is initialised, fed the
bytes in order and finalised. -/
def MD5.digest {σ : Type} (md5 : MD5 σ) (bs : List Byte) : List Byte :=
  md5.zim_MD5Final (bs.foldl md5.zim_MD5Update md5.zim_MD5Init)

/-- The concatenation of the physical parts in order. -/
def concatParts : List PartStream → List Byte
  | [] => []
  | part :: parts => part.bytes ++ concatParts parts

/-- A digest for examples: sixteen times the sum of the bytes modulo 256. -/
def sumDigest : MD5 Nat :=
  { zim_MD5Init := 0,
    zim_MD5Update := fun ctx ch => (ctx + ch.val) % 256,
    zim_MD5Final := fun ctx => List.replicate 16 ⟨ctx % 256, Nat.mod_lt _ (by decide)⟩ }

/-- A file of 96 bytes: the header of `checksumFile` and the `sumDigest`
of these 80 bytes. -/
def sumFile : List Byte :=
  headerBytes checksumHeader ++ sumDigest.digest (headerBytes checksumHeader)

/-- The `FileImpl` that the constructor builds from `sumFile`. -/
def sumArchive : FileImpl :=
  { checksumArchive with zimReader := { offset := 0, bytes := sumFile } }

/-- The dirents of `titleArchive` in URL order. -/
def urlDirents (i : Nat) : Dirent :=
  match i with
  | 0 => titleDirents 1
  | 1 => titleDirents 0
  | _ => titleDirents 2

/-- The decoder of the codec that stores data as it is: one call copies as
many bytes from the input to the output as both have room for. -/
def storedDecoder : Decoder Unit :=
  { init_stream_decoder := fun st _ => st,
    stream_run_decode := fun st _ =>
      (CompStatus.OK,
        { st with next_in := st.next_in.drop (min st.avail_in st.avail_out),
                  avail_in := st.avail_in - min st.avail_in st.avail_out,
                  next_out := st.next_out ++ st.next_in.take (min st.avail_in st.avail_out),
                  avail_out := st.avail_out - min st.avail_in st.avail_out }) }

/-- A decoder state before initialisation, for examples. -/
def blankState : DecoderState Unit :=
  { next_in := [], avail_in := 0, next_out := [], avail_out := 0, codec := () }

/-- The number of bytes that a `DecodedDataStream` has pulled so far from its
upstream stream, which held `inputData` at construction. -/
def DecodedDataStream.pulled {σ : Type} (inputData : IDataStream) (s : DecodedDataStream σ) :
    Nat :=
  inputData.length - s.encodedDataStream_.length

/-- Exact input accounting of a `DecodedDataStream` constructed over
`inputData` with `inputSize`: the bytes pulled so far and `inputBytesLeft_`
add up to `inputSize`, the upstream stream is `inputData` without the bytes
pulled, and `encodedDataBuf_` has its full size until the last chunk has been
read. -/
def DecodedDataStream.Accounted {σ : Type} (inputData : IDataStream) (inputSize : Nat)
    (s : DecodedDataStream σ) : Prop :=
  s.pulled inputData + s.inputBytesLeft_ = inputSize ∧
  s.pulled inputData ≤ inputData.length ∧
  s.encodedDataStream_ = inputData.drop (s.pulled inputData) ∧
  (s.encodedDataBuf_.length = BUF_SIZE ∨ s.inputBytesLeft_ = 0)

/-- The step that `decodeMoreBytes` passes to the decoder: `FINISH` exactly
when `avail_in = 0` and `inputBytesLeft_ = 0`. -/
def DecodedDataStream.stepOf {σ : Type} (s : DecodedDataStream σ) : CompStep :=
  if s.decoderState_.avail_in = 0 ∧ s.inputBytesLeft_ = 0 then CompStep.FINISH
  else CompStep.STEP

/-- Successive reads of the sizes `ns` from a `DecodedDataStream` with
`readBlob`: the blobs in order and the stream after them, or `none` when one
of the reads has not ended after `fuel` rounds. -/
def DecodedDataStream.readBlobs {σ : Type} (dec : Decoder σ) (fuel : Nat) :
    DecodedDataStream σ → List Nat →
      Except Error (Option (List (List Byte) × DecodedDataStream σ))
  | s, [] => pure (some ([], s))
  | s, n :: ns => do
    let r ← DecodedDataStream.readBlob dec fuel s n
    match r with
    | none => pure none
    | some b => do
      let rs ← DecodedDataStream.readBlobs dec fuel b.2 ns
      pure (rs.map (fun x => (b.1 :: x.1, x.2)))

/-- The consecutive slices of `D` of the sizes `ns`. -/
def consecutiveSlices : List Byte → List Nat → List (List Byte)
  | _, [] => []
  | D, n :: ns => D.take n :: consecutiveSlices (D.drop n) ns

/-- The decoder `dec` decodes the compressed form `comp` to the data `D`
through the step interface.  `R codec c p` relates the state of the decoder
library to the number `c` of bytes of `comp` consumed and the number `p` of
bytes of `D` produced so far.  A call of `stream_run_decode` whose input
`next_in, avail_in` is the part of `comp` that follows the consumed bytes
(with `FINISH` only on the last part) consumes `dc` bytes of it and writes the
next `dp` bytes of `D` to the output, within `avail_in` and `avail_out`, and
it makes progress when there is room in the output, data left to produce, and
input at hand or `FINISH`. -/
structure Decoder.DecodesTo {σ : Type} (dec : Decoder σ) (comp D : List Byte)
    (R : σ → Nat → Nat → Prop) : Prop where
  init : ∀ (st : DecoderState σ) (raw : List Byte), R (dec.init_stream_decoder st raw).codec 0 0
  run : ∀ (st : DecoderState σ) (step : CompStep) (c p : Nat),
    R st.codec c p → st.avail_in ≤ st.next_in.length →
    st.next_in.take st.avail_in = slice comp c st.avail_in →
    c + st.avail_in ≤ comp.length →
    (step = CompStep.FINISH → c + st.avail_in = comp.length) →
    ∃ dc dp, dc ≤ st.avail_in ∧ dp ≤ st.avail_out ∧ p + dp ≤ D.length ∧
      (dec.stream_run_decode st step).2.next_in = st.next_in.drop dc ∧
      (dec.stream_run_decode st step).2.avail_in = st.avail_in - dc ∧
      (dec.stream_run_decode st step).2.next_out = st.next_out ++ slice D p dp ∧
      (dec.stream_run_decode st step).2.avail_out = st.avail_out - dp ∧
      R (dec.stream_run_decode st step).2.codec (c + dc) (p + dp) ∧
      (0 < st.avail_out → p < D.length → (0 < st.avail_in ∨ step = CompStep.FINISH) →
        0 < dc + dp)

/-- The state of a `DecodedDataStream` over the compressed form `comp`
(followed by `rest` in the upstream stream) after the decoder has consumed `c`
bytes of `comp` and produced `p` bytes of `D`. -/
structure DecodedDataStream.Decoding {σ : Type} (comp rest D : List Byte)
    (R : σ → Nat → Nat → Prop) (s : DecodedDataStream σ) (c p : Nat) : Prop where
  codec : R s.decoderState_.codec c p
  consumed : c + s.decoderState_.avail_in ≤ comp.length
  upstream : s.encodedDataStream_ = (comp ++ rest).drop (c + s.decoderState_.avail_in)
  left : s.inputBytesLeft_ = comp.length - (c + s.decoderState_.avail_in)
  avail : s.decoderState_.avail_in ≤ s.decoderState_.next_in.length
  input : s.decoderState_.next_in.take s.decoderState_.avail_in =
    slice comp c s.decoderState_.avail_in
  buf : s.encodedDataBuf_.length = BUF_SIZE ∨ s.inputBytesLeft_ = 0
  produced : p ≤ D.length

/-! ## Reasoning about results -/

/-- An error is not a result. -/
theorem error_ne_ok {α : Type} {e : Error} {a : α}
    (h : (Except.error e : Except Error α) = .ok a) : False :=
  Except.noConfusion h

/-- Inversion of one step: when a step and what follows it give a result, the
step gave a result. -/
theorem bind_ok {α β : Type} {x : Except Error α} {f : α → Except Error β} {b : β}
    (h : (x >>= f) = .ok b) : ∃ a, x = .ok a ∧ f a = .ok b := by
  cases x with
  | error e => exact (error_ne_ok h).elim
  | ok a => exact ⟨a, rfl, h⟩

/-- A step that gave a result is followed by the rest. -/
theorem bind_of_ok {α β : Type} {x : Except Error α} {f : α → Except Error β} {a : α}
    (h : x = .ok a) : (x >>= f) = f a := by
  rw [h]; rfl

/-- A failing step fails the whole. -/
theorem bind_of_error {α β : Type} {x : Except Error α} {f : α → Except Error β} {e : Error}
    (h : x = .error e) : (x >>= f) = .error e := by
  rw [h]; rfl

theorem pure_ok {α : Type} {a b : α} (h : (pure a : Except Error α) = .ok b) : a = b :=
  Except.ok.inj h

theorem ASSERT_ok {c : Prop} [Decidable c] {u : Unit} (h : ASSERT c = .ok u) : c := by
  unfold ASSERT at h
  split at h
  · assumption
  · exact (error_ne_ok h).elim

theorem ASSERT_of {c : Prop} [Decidable c] (h : c) : ASSERT c = .ok () := by
  unfold ASSERT
  rw [if_pos h]

theorem ASSERT_of_not {c : Prop} [Decidable c] (h : ¬ c) : ASSERT c = .error .assertion := by
  unfold ASSERT
  rw [if_neg h]

theorem fromLittleEndian_lt (bs : List Byte) : fromLittleEndian bs < 256 ^ bs.length := by
  induction bs with
  | nil => simp [fromLittleEndian]
  | cons b bs ih =>
    simp only [fromLittleEndian, List.length_cons, pow_succ]
    have hb := b.isLt
    omega

theorem slice_length (bs : List Byte) (off n : Nat) :
    (slice bs off n).length = min n (bs.length - off) := by
  simp [slice]

theorem slice_take (bs : List Byte) (m off n : Nat) (h : off + n ≤ m) :
    slice (bs.take m) off n = slice bs off n := by
  unfold slice
  rw [List.drop_take, List.take_take]
  congr 1
  omega

theorem slice_slice (bs : List Byte) (o m a n : Nat) (h : a + n ≤ m) :
    slice (slice bs o m) a n = slice bs (o + a) n := by
  unfold slice
  rw [List.drop_take, List.take_take, List.drop_drop]
  congr 1
  omega

theorem rawEntry_lt (w : Nat) (B : List Byte) (i : Nat) (hw : w ≤ 8) :
    rawEntry w B i < 2 ^ 64 := by
  unfold rawEntry
  have h1 := fromLittleEndian_lt (slice B (w * i) w)
  have h2 : (slice B (w * i) w).length ≤ 8 := by
    rw [slice_length]; omega
  calc fromLittleEndian (slice B (w * i) w) < 256 ^ (slice B (w * i) w).length := h1
    _ ≤ 256 ^ 8 := Nat.pow_le_pow_right (by norm_num) h2
    _ = 2 ^ 64 := by norm_num

theorem Buffer.as_ok {w : Nat} {b : Buffer} {off v : Nat} (h : Buffer.as w b off = .ok v) :
    off < b.length ∧ off + w ≤ b.length ∧ v = fromLittleEndian (slice b off w) := by
  unfold Buffer.as at h
  split at h
  · rename_i hc
    exact ⟨hc.1, hc.2, (Except.ok.inj h).symm⟩
  · exact (error_ne_ok h).elim

theorem Reader.read_uint_ok {w : Nat} {r : Reader} {off v : Nat}
    (h : r.read_uint w off = .ok v) :
    off < r.size ∧ off + w ≤ r.size ∧ v = fromLittleEndian (slice r.bytes off w) := by
  unfold Reader.read_uint at h
  split at h
  · rename_i hc
    exact ⟨hc.1, hc.2, (Except.ok.inj h).symm⟩
  · exact (error_ne_ok h).elim

theorem Reader.get_buffer_ok {r : Reader} {off n : Nat} {b : Buffer}
    (h : r.get_buffer off n = .ok b) :
    off + n ≤ r.size ∧ b = slice r.bytes off n := by
  unfold Reader.get_buffer at h
  split at h
  · rename_i hc
    exact ⟨hc, (Except.ok.inj h).symm⟩
  · exact (error_ne_ok h).elim

theorem Reader.sub_reader_ok {r : Reader} {off n : Nat} {s : Reader}
    (h : r.sub_reader off n = .ok s) :
    off + n ≤ r.size ∧ s = { offset := r.offset + off, bytes := slice r.bytes off n } := by
  unfold Reader.sub_reader at h
  split at h
  · rename_i hc
    exact ⟨hc, (Except.ok.inj h).symm⟩
  · exact (error_ne_ok h).elim

theorem loopCount_eq (n : Nat) (h1 : 1 ≤ n) (h2 : n < 2 ^ 64) : loopCount n = n - 1 := by
  unfold loopCount
  omega

theorem loopCount_zero : loopCount 0 = 2 ^ 64 - 1 := by
  unfold loopCount
  norm_num

/-- A sequence whose neighbours are ordered is ordered throughout. -/
theorem steps_mono (f : Nat → Nat) (n : Nat) (h : ∀ i, i + 1 < n → f i ≤ f (i + 1)) :
    ∀ j i, i ≤ j → j < n → f i ≤ f j := by
  intro j
  induction j with
  | zero =>
    intro i hi _
    have : i = 0 := by omega
    rw [this]
  | succ k ih =>
    intro i hi hk
    rcases Nat.lt_or_ge i (k + 1) with hlt | hge
    · exact Nat.le_trans (ih i (by omega) (by omega)) (h k hk)
    · have : i = k + 1 := by omega
      rw [this]

/-- What a successful run of the loop of `read_header` has read and stored. -/
theorem Cluster.read_header_loop_ok (w : Nat) (buffer : Buffer) (rsz F : Nat) :
    ∀ (cnt offset j : Nat) (acc res : List Nat),
      Cluster.read_header_loop w buffer rsz F cnt offset (w * j) acc = .ok res →
      res = acc ++ (List.range cnt).map (fun i => (rawEntry w buffer (j + i) + 2 ^ 64 - F) % 2 ^ 64)
      ∧ (∀ i, i < cnt → rawEntry w buffer (j + i) ≤ rsz ∧ w * (j + i) + w ≤ buffer.length)
      ∧ (0 < cnt → offset ≤ rawEntry w buffer j)
      ∧ (∀ i, i + 1 < cnt → rawEntry w buffer (j + i) ≤ rawEntry w buffer (j + i + 1)) := by
  intro cnt
  induction cnt with
  | zero =>
    intro offset j acc res h
    have h0 : acc = res := pure_ok h
    subst h0
    simp
  | succ n ih =>
    intro offset j acc res h
    rw [Cluster.read_header_loop] at h
    obtain ⟨v, has, h⟩ := bind_ok h
    obtain ⟨u1, ha1, h⟩ := bind_ok h
    obtain ⟨u2, ha2, h⟩ := bind_ok h
    have hge := ASSERT_ok ha1
    have hle := ASSERT_ok ha2
    obtain ⟨h1, h2, hv⟩ := Buffer.as_ok has
    have hv2 : v = rawEntry w buffer j := hv
    have hcur : w * j + w = w * (j + 1) := by ring
    rw [hcur] at h
    obtain ⟨r1, r2, r3, r4⟩ := ih v (j + 1) _ res h
    refine ⟨?_, ?_, ?_, ?_⟩
    · rw [r1, List.range_succ_eq_map, List.append_assoc]
      simp only [List.map_cons, List.map_map, List.singleton_append, hv2, Nat.add_zero]
      congr 2
      apply List.map_congr_left
      intro i _
      simp only [Function.comp, Nat.succ_eq_add_one]
      have e : j + 1 + i = j + (i + 1) := by omega
      rw [e]
    · intro i hi
      cases i with
      | zero =>
        simp only [Nat.add_zero]
        rw [← hv2]
        exact ⟨hle, h2⟩
      | succ k =>
        have := r2 k (by omega)
        have e : j + (k + 1) = j + 1 + k := by omega
        rw [e]; exact this
    · intro _
      rw [← hv2]; exact hge
    · intro i hi
      cases i with
      | zero =>
        have := r3 (by omega)
        simp only [Nat.add_zero]
        rw [← hv2]; exact this
      | succ k =>
        have := r4 k (by omega)
        have e : j + (k + 1) = j + 1 + k := by omega
        rw [e]; exact this

/-- The three steps of `read_header`, read off a successful result. -/
theorem Cluster.read_header_steps {w : Nat} {rd : Reader} {offs : List Nat} {da : Nat}
    (h : Cluster.read_header w rd = .ok (offs, da)) :
    rd.read_uint w 0 = .ok da ∧
    ∃ buffer, rd.get_buffer 0 da = .ok buffer ∧
      Cluster.read_header_loop w buffer rd.size da (loopCount (da / w)) da w [0] = .ok offs := by
  unfold Cluster.read_header at h
  obtain ⟨F, hr, h⟩ := bind_ok h
  obtain ⟨buffer, hb, h⟩ := bind_ok h
  obtain ⟨offsets, hl, h⟩ := bind_ok h
  have hp := Prod.mk.inj (pure_ok h)
  rw [← hp.2, ← hp.1]
  exact ⟨hr, buffer, hb, hl⟩

/-- What a successful `read_header` has read and stored: the table holds
`F / w` raw entries, the first being `F`; they are ordered, lie between `F`
and the size of the reader, and the stored offsets are the raw entries minus
`F`. -/
theorem Cluster.read_header_ok {w : Nat} {rd : Reader} {offs : List Nat} {F : Nat}
    (hw0 : 0 < w) (hw8 : w ≤ 8) (h : Cluster.read_header w rd = .ok (offs, F)) :
    F = rawEntry w rd.bytes 0 ∧ w ≤ F ∧ F ≤ rd.size ∧
    offs = (List.range (F / w)).map (fun i => rawEntry w rd.bytes i - F) ∧
    (∀ i, i < F / w → F ≤ rawEntry w rd.bytes i ∧ rawEntry w rd.bytes i ≤ rd.size) ∧
    (∀ i, i + 1 < F / w → rawEntry w rd.bytes i ≤ rawEntry w rd.bytes (i + 1)) := by
  obtain ⟨hr, buffer, hb, hl⟩ := Cluster.read_header_steps h
  have hF : F = rawEntry w rd.bytes 0 := by
    have := (Reader.read_uint_ok hr).2.2
    rw [this, rawEntry, Nat.mul_zero]
  have hF64 : F < 2 ^ 64 := by rw [hF]; exact rawEntry_lt w rd.bytes 0 hw8
  obtain ⟨hFsz, hbuf⟩ := Reader.get_buffer_ok hb
  rw [Nat.zero_add] at hFsz
  have hbuf2 : buffer = rd.bytes.take F := by rw [hbuf]; simp [slice]
  have hblen : buffer.length ≤ F := by rw [hbuf2]; simp
  have hl3 : Cluster.read_header_loop w buffer rd.size F (loopCount (F / w)) F (w * 1) [0]
      = .ok offs := by rw [Nat.mul_one]; exact hl
  obtain ⟨r1, r2, r3, r4⟩ :=
    Cluster.read_header_loop_ok w buffer rd.size F (loopCount (F / w)) F 1 [0] offs hl3
  -- the table holds at least its first entry
  have hwF : w ≤ F := by
    by_contra hlt
    have hz : F / w = 0 := Nat.div_eq_of_lt (by omega)
    rw [hz, loopCount_zero] at r2
    have := (r2 0 (by norm_num)).2
    omega
  have hn1 : 1 ≤ F / w := (Nat.one_le_div_iff hw0).mpr hwF
  have hn2 : F / w < 2 ^ 64 := Nat.lt_of_le_of_lt (Nat.div_le_self F w) hF64
  rw [loopCount_eq _ hn1 hn2] at r1 r2 r3 r4
  -- entries read from the buffer are the entries of the body
  have hraw : ∀ i, i < F / w - 1 → rawEntry w buffer (1 + i) = rawEntry w rd.bytes (1 + i) := by
    intro i hi
    have := (r2 i hi).2
    unfold rawEntry
    rw [hbuf2, slice_take _ _ _ _ (by omega)]
  have hmono : ∀ i, i + 1 < F / w → rawEntry w rd.bytes i ≤ rawEntry w rd.bytes (i + 1) := by
    intro i hi
    cases i with
    | zero =>
      have := r3 (by omega)
      rw [hraw 0 (by omega)] at this
      rw [← hF]; simpa using this
    | succ k =>
      have := r4 k (by omega)
      rw [hraw k (by omega), show 1 + k + 1 = 1 + (k + 1) by omega,
        hraw (k + 1) (by omega)] at this
      rw [show k + 1 = 1 + k by omega, show 1 + k + 1 = 1 + (k + 1) by omega]
      exact this
  have hbound : ∀ i, i < F / w →
      F ≤ rawEntry w rd.bytes i ∧ rawEntry w rd.bytes i ≤ rd.size := by
    intro i hi
    constructor
    · have := steps_mono (fun i => rawEntry w rd.bytes i) (F / w) hmono i 0 (by omega) hi
      have e : rawEntry w rd.bytes 0 = F := hF.symm
      simp only [e] at this
      exact this
    · cases i with
      | zero => rw [← hF]; exact hFsz
      | succ k =>
        have := (r2 k (by omega)).1
        rw [hraw k (by omega)] at this
        rw [show k + 1 = 1 + k by omega]; exact this
  refine ⟨hF, hwF, hFsz, ?_, hbound, hmono⟩
  rw [r1]
  have hsplit : F / w = (F / w - 1) + 1 := by omega
  have hrange : List.range (F / w) = 0 :: (List.range (F / w - 1)).map Nat.succ := by
    conv_lhs => rw [hsplit]
    exact List.range_succ_eq_map _
  rw [hrange]
  simp only [List.map_cons, List.map_map, List.singleton_append]
  have e0 : rawEntry w rd.bytes 0 - F = 0 := by rw [← hF]; exact Nat.sub_self F
  rw [e0]
  refine congrArg (List.cons 0) ?_
  apply List.map_congr_left
  intro i hi
  rw [List.mem_range] at hi
  simp only [Function.comp, Nat.succ_eq_add_one]
  rw [hraw i hi, show 1 + i = i + 1 by omega]
  have h1 := (hbound (i + 1) (by omega)).1
  have h2 := rawEntry_lt w rd.bytes (i + 1) hw8
  omega

/-- The entries of a list given by a function on an initial segment. -/
theorem getD_map_range (g : Nat → Nat) (n i : Nat) (h : i < n) :
    ((List.range n).map g).getD i 0 = g i := by
  rw [List.getD_eq_getElem?_getD, List.getElem?_map, List.getElem?_range h]
  rfl

theorem getLastD_map_range (g : Nat → Nat) (n : Nat) (h : 0 < n) :
    ((List.range n).map g).getLastD 0 = g (n - 1) := by
  have hsplit : n = (n - 1) + 1 := by omega
  conv_lhs => rw [hsplit, List.range_succ]
  simp

/-- What a successful construction of an uncompressed cluster has established;
`w` is the offset width, `F` the first raw entry and `n = F / w` the number
of table entries. -/
theorem Cluster.new_ok {rd : Reader} {ext : Bool} {c : Cluster}
    (h : Cluster.new rd ext = .ok c) :
    c.isExtended = ext ∧
    c.startOffset = rawEntry (sizeofOffset ext) rd.bytes 0 ∧
    sizeofOffset ext ≤ c.startOffset ∧
    c.offsets = (List.range (c.startOffset / sizeofOffset ext)).map
      (fun i => rawEntry (sizeofOffset ext) rd.bytes i - c.startOffset) ∧
    (∀ i, i < c.startOffset / sizeofOffset ext →
      c.startOffset ≤ rawEntry (sizeofOffset ext) rd.bytes i ∧
      rawEntry (sizeofOffset ext) rd.bytes i ≤ rd.size) ∧
    (∀ i j, i ≤ j → j < c.startOffset / sizeofOffset ext →
      rawEntry (sizeofOffset ext) rd.bytes i ≤ rawEntry (sizeofOffset ext) rd.bytes j) ∧
    c.reader = { offset := rd.offset + c.startOffset,
                 bytes := slice rd.bytes c.startOffset (c.offsets.getLastD 0) } ∧
    c.startOffset + c.offsets.getLastD 0 ≤ rd.size := by
  have hw0 : 0 < sizeofOffset ext := by unfold sizeofOffset; split <;> norm_num
  have hw8 : sizeofOffset ext ≤ 8 := by unfold sizeofOffset; split <;> norm_num
  unfold Cluster.new at h
  obtain ⟨hdr, hh, h⟩ := bind_ok h
  obtain ⟨reader, hs, h⟩ := bind_ok h
  obtain ⟨u, _, h⟩ := bind_ok h
  have hc := pure_ok h
  obtain ⟨offs, F⟩ := hdr
  obtain ⟨hF, hwF, hFsz, hoffs, hbound, hmono⟩ := Cluster.read_header_ok hw0 hw8 hh
  obtain ⟨hsz, hrd⟩ := Reader.sub_reader_ok hs
  subst hc
  exact ⟨rfl, hF, hwF, hoffs, hbound,
    fun i j hij hj => steps_mono _ _ hmono j i hij hj, hrd, hsz⟩

theorem sizeofOffset_pos (ext : Bool) : 0 < sizeofOffset ext := by
  unfold sizeofOffset; split <;> norm_num

theorem sizeofOffset_le (ext : Bool) : sizeofOffset ext ≤ 8 := by
  unfold sizeofOffset; split <;> norm_num

/-- The blobs of a successfully constructed uncompressed cluster, in terms of
the raw table of the cluster body. -/
theorem Cluster.blob_ok {rd : Reader} {ext : Bool} {c : Cluster}
    (h : Cluster.new rd ext = .ok c) (i : Nat) (hi : i < c.count) :
    c.count = c.startOffset / sizeofOffset ext - 1 ∧
    c.offsets.getD i 0 = rawEntry (sizeofOffset ext) rd.bytes i - c.startOffset ∧
    c.offsets.getD (i + 1) 0 = rawEntry (sizeofOffset ext) rd.bytes (i + 1) - c.startOffset ∧
    c.startOffset ≤ rawEntry (sizeofOffset ext) rd.bytes i ∧
    rawEntry (sizeofOffset ext) rd.bytes i ≤ rawEntry (sizeofOffset ext) rd.bytes (i + 1) ∧
    rawEntry (sizeofOffset ext) rd.bytes (i + 1) ≤ rd.size ∧
    c.offsets.getD (i + 1) 0 ≤ c.offsets.getLastD 0 ∧
    c.getBlobSize i = rawEntry (sizeofOffset ext) rd.bytes (i + 1) -
      rawEntry (sizeofOffset ext) rd.bytes i ∧
    c.getBlob i = .ok (slice rd.bytes (rawEntry (sizeofOffset ext) rd.bytes i)
      (rawEntry (sizeofOffset ext) rd.bytes (i + 1) - rawEntry (sizeofOffset ext) rd.bytes i)) := by
  obtain ⟨_, hF, hwF, hoffs, hbound, hmono, hrd, hsz⟩ := Cluster.new_ok h
  have hw0 := sizeofOffset_pos ext
  have hw8 := sizeofOffset_le ext
  generalize hn : c.startOffset / sizeofOffset ext = n at hoffs hbound hmono
  have hn1 : 1 ≤ n := by rw [← hn]; exact (Nat.one_le_div_iff hw0).mpr hwF
  have hcount : c.count = n - 1 := by
    unfold Cluster.count countOf
    rw [hoffs]; simp
  rw [hcount] at hi
  have hgi : c.offsets.getD i 0 = rawEntry (sizeofOffset ext) rd.bytes i - c.startOffset := by
    conv_lhs => rw [hoffs]
    exact getD_map_range _ n i (by omega)
  have hgi1 : c.offsets.getD (i + 1) 0 =
      rawEntry (sizeofOffset ext) rd.bytes (i + 1) - c.startOffset := by
    conv_lhs => rw [hoffs]
    exact getD_map_range _ n (i + 1) (by omega)
  have hlast : c.offsets.getLastD 0 =
      rawEntry (sizeofOffset ext) rd.bytes (n - 1) - c.startOffset := by
    conv_lhs => rw [hoffs]
    exact getLastD_map_range _ n (by omega)
  have b0 := hbound i (by omega)
  have b1 := hbound (i + 1) (by omega)
  have m01 := hmono i (i + 1) (by omega) (by omega)
  have m1l := hmono (i + 1) (n - 1) (by omega) (by omega)
  have l1 := rawEntry_lt (sizeofOffset ext) rd.bytes (i + 1) hw8
  have hsize : c.getBlobSize i = rawEntry (sizeofOffset ext) rd.bytes (i + 1) -
      rawEntry (sizeofOffset ext) rd.bytes i := by
    unfold Cluster.getBlobSize blobSizeOf
    rw [hgi, hgi1]
    omega
  refine ⟨hcount, hgi, hgi1, b0.1, m01, b1.2, by rw [hgi1, hlast]; omega, hsize, ?_⟩
  unfold Cluster.getBlob
  rw [if_pos (by rw [hcount]; exact hi), hsize]
  have hmax : ¬ (rawEntry (sizeofOffset ext) rd.bytes (i + 1) -
      rawEntry (sizeofOffset ext) rd.bytes i > SIZE_MAX) := by
    unfold SIZE_MAX; omega
  rw [if_neg hmax, hgi, hrd]
  unfold Reader.get_buffer Reader.size
  have hlen : (slice rd.bytes c.startOffset (c.offsets.getLastD 0)).length =
      c.offsets.getLastD 0 := by
    rw [slice_length]
    unfold Reader.size at hsz
    omega
  simp only [hlen]
  rw [if_pos (by rw [hlast]; omega), slice_slice _ _ _ _ _ (by rw [hlast]; omega)]
  congr 2
  omega

theorem Reader.sub_reader_from_ok {r : Reader} {off : Nat} {s : Reader}
    (h : r.sub_reader_from off = .ok s) :
    off ≤ r.size ∧ s = { offset := r.offset + off, bytes := r.bytes.drop off } := by
  unfold Reader.sub_reader_from at h
  split at h
  · rename_i hc
    obtain ⟨_, hs⟩ := Reader.sub_reader_ok h
    refine ⟨hc, ?_⟩
    rw [hs]
    congr 1
    unfold slice Reader.size
    apply List.take_of_length_le
    simp
  · exact (error_ne_ok h).elim

/-- The steps of `getClusterReader`, read off a successful result. -/
theorem getClusterReader_ok {env : Codecs} {zr : Reader} {off : Nat}
    {r : CompressionType × Bool × Reader} (h : getClusterReader env zr off = .ok r) :
    ∃ b : Byte, zr.read off = .ok b ∧ r.1 = b.val &&& 0x0F ∧
      r.2.1 = ((b.val &&& 0x10) != 0) ∧
      getClusterReader_switch env zr off (b.val &&& 0x0F) = .ok r.2.2 := by
  unfold getClusterReader at h
  obtain ⟨b, hb, h⟩ := bind_ok h
  obtain ⟨reader, hsw, h⟩ := bind_ok h
  have hr := pure_ok h
  subst hr
  exact ⟨b, hb, rfl, rfl, hsw⟩

/-- An uncompressed cluster given by `Cluster::read` is the one constructed
over the body that follows the info byte, and the info byte has compression
nibble 0 or 1. -/
theorem Cluster.read_plain_ok {env : Codecs} {zr : Reader} {off : Nat} {c : Cluster}
    (h : Cluster.read env zr off = .ok (.plain c)) :
    ∃ b : Byte, zr.read off = .ok b ∧
      (b.val &&& 0x0F = zimcompDefault ∨ b.val &&& 0x0F = zimcompNone) ∧
      Cluster.new { offset := zr.offset + (off + 1), bytes := clusterBody zr off }
        ((b.val &&& 0x10) != 0) = .ok c := by
  unfold Cluster.read at h
  obtain ⟨r, hg, h⟩ := bind_ok h
  obtain ⟨b, hb, hcomp, hext, hsw⟩ := getClusterReader_ok hg
  split at h
  · rename_i hc
    obtain ⟨c1, hnew, h⟩ := bind_ok h
    have hc1 : c1 = c := ClusterHandle.plain.inj (pure_ok h)
    rw [hcomp] at hc
    unfold getClusterReader_switch at hsw
    rw [if_pos hc] at hsw
    obtain ⟨_, hrd⟩ := Reader.sub_reader_from_ok hsw
    rw [hrd, hext, hc1] at hnew
    exact ⟨b, hb, hc, hnew⟩
  · obtain ⟨c1, _, h⟩ := bind_ok h
    exact ClusterHandle.noConfusion (pure_ok h)

theorem IDataStream.readImpl_ok {ds : IDataStream} {n : Nat} {r : List Byte × IDataStream}
    (h : ds.readImpl n = .ok r) : n ≤ ds.length ∧ r.1 = ds.take n ∧ r.2 = ds.drop n := by
  unfold IDataStream.readImpl at h
  split at h
  · rename_i hc
    have := Except.ok.inj h
    subst this
    exact ⟨hc, rfl, rfl⟩
  · exact (error_ne_ok h).elim

theorem IDataStream.read_value {w : Nat} {ds : IDataStream} {r : Nat × IDataStream}
    (h : IDataStream.read w ds = .ok r) :
    w ≤ ds.length ∧ r.1 = fromLittleEndian (ds.take w) ∧ r.2 = ds.drop w := by
  unfold IDataStream.read at h
  obtain ⟨q, hq, h⟩ := bind_ok h
  obtain ⟨h1, h2, h3⟩ := IDataStream.readImpl_ok hq
  have := pure_ok h
  subst this
  exact ⟨h1, by rw [h2], h3⟩

/-- A successful run of the loop of `readHeader` appends one offset per
iteration. -/
theorem CompressedCluster.readHeader_loop_length (w startOffset : Nat) :
    ∀ (cnt offset : Nat) (offsets : List Nat) (ds : IDataStream)
      (res : List Nat × IDataStream),
      CompressedCluster.readHeader_loop w startOffset cnt offset offsets ds = .ok res →
      res.1.length = offsets.length + cnt := by
  intro cnt
  induction cnt with
  | zero =>
    intro offset offsets ds res h
    have := pure_ok h
    subst this
    rfl
  | succ n ih =>
    intro offset offsets ds res h
    rw [CompressedCluster.readHeader_loop] at h
    obtain ⟨r, _, h⟩ := bind_ok h
    obtain ⟨u, _, h⟩ := bind_ok h
    have := ih _ _ _ _ h
    rw [this, List.length_append]
    simp only [List.length_singleton]
    omega

/-- The steps of `readHeader`, read off a successful result. -/
theorem CompressedCluster.readHeader_ok {w : Nat} {ds : IDataStream}
    {res : Nat × List Nat × IDataStream}
    (h : CompressedCluster.readHeader w ds = .ok res) :
    w ≤ ds.length ∧ res.1 = fromLittleEndian (ds.take w) ∧
    CompressedCluster.readHeader_loop w res.1 (loopCount (res.1 / w)) res.1 [0] (ds.drop w) =
      .ok res.2 := by
  unfold CompressedCluster.readHeader at h
  obtain ⟨r, hr, h⟩ := bind_ok h
  obtain ⟨t, ht, h⟩ := bind_ok h
  obtain ⟨h1, h2, h3⟩ := IDataStream.read_value hr
  have := pure_ok h
  subst this
  rw [h3] at ht
  exact ⟨h1, h2, ht⟩

theorem fromLittleEndian_take_lt (w : Nat) (bs : List Byte) (hw : w ≤ 8) :
    fromLittleEndian (bs.take w) < 2 ^ 64 := by
  have h1 := fromLittleEndian_lt (bs.take w)
  have h2 : (bs.take w).length ≤ 8 := by
    rw [List.length_take]; omega
  calc fromLittleEndian (bs.take w) < 256 ^ (bs.take w).length := h1
    _ ≤ 256 ^ 8 := Nat.pow_le_pow_right (by norm_num) h2
    _ = 2 ^ 64 := by norm_num

theorem pairwise_le_map_range (g : Nat → Nat) (n : Nat)
    (h : ∀ i j, i ≤ j → j < n → g i ≤ g j) :
    ((List.range n).map g).Pairwise (fun a b => a ≤ b) := by
  rw [List.pairwise_map]
  refine List.Pairwise.imp_of_mem ?_ (List.pairwise_lt_range n)
  intro a b _ hb hab
  rw [List.mem_range] at hb
  exact h a b (Nat.le_of_lt hab) hb

/-- The total size of the first `k` blobs. -/
theorem sum_range_succ_map (g : Nat → Nat) (k : Nat) :
    ((List.range (k + 1)).map g).sum = ((List.range k).map g).sum + g k := by
  rw [List.range_succ, List.map_append, List.sum_append]
  simp

theorem Reader.read_ok {r : Reader} {off : Nat} {b : Byte} (h : r.read off = .ok b) :
    off < r.size := by
  unfold Reader.read at h
  unfold Reader.size
  cases hg : r.bytes.get? off with
  | none => rw [hg] at h; exact (error_ne_ok h).elim
  | some x =>
    by_contra hlt
    have : r.bytes.get? off = none := List.get?_eq_none.mpr (by omega)
    rw [this] at hg
    exact Option.noConfusion hg

theorem Reader.sub_reader_from_of_le {r : Reader} {off : Nat} (h : off ≤ r.size) :
    r.sub_reader_from off = .ok { offset := r.offset + off, bytes := r.bytes.drop off } := by
  unfold Reader.sub_reader_from Reader.sub_reader
  rw [if_pos h, if_pos (by omega)]
  congr 2
  unfold slice Reader.size
  apply List.take_of_length_le
  simp

/-- The low nibble of a byte, as the code computes it. -/
theorem land_0x0F (b : Byte) : b.val &&& 0x0F = b.val % 16 :=
  Nat.and_pow_two_sub_one_eq_mod b.val 4

/-- Bit `0x10` of a byte, as the code computes it. -/
theorem land_0x10 (b : Byte) : ((b.val &&& 0x10) != 0) = decide (b.val / 16 % 2 = 1) := by
  have h1 : b.val &&& 0x10 = (b.val.testBit 4).toNat * 2 ^ 4 := Nat.and_two_pow b.val 4
  have h2 : b.val.testBit 4 = decide (b.val / 2 ^ 4 % 2 = 1) := Nat.testBit_to_div_mod
  rw [h1, h2]
  have e : (2 : Nat) ^ 4 = 16 := by norm_num
  rw [e]
  by_cases hc : b.val / 16 % 2 = 1
  · simp [hc]
  · simp [hc]

/-- `Cluster::read` after the info byte has been read: the switch on the
compression nibble gives the reader, the nibble decides the class. -/
theorem Cluster.read_of_info {env : Codecs} {zr : Reader} {off : Nat} {b : Byte}
    (hb : zr.read off = .ok b) :
    Cluster.read env zr off =
      (getClusterReader_switch env zr off (b.val % 16) >>= fun reader =>
        if b.val % 16 = zimcompDefault ∨ b.val % 16 = zimcompNone then
          (Cluster.new reader (decide (b.val / 16 % 2 = 1)) >>= fun c =>
            pure (ClusterHandle.plain c))
        else
          (CompressedCluster.new reader (b.val % 16) (decide (b.val / 16 % 2 = 1)) >>=
            fun c => pure (ClusterHandle.compressed c))) := by
  unfold Cluster.read getClusterReader
  rw [bind_of_ok hb, land_0x0F, land_0x10]
  cases hsw : getClusterReader_switch env zr off (b.val % 16) with
  | error e => rfl
  | ok reader => rfl

theorem getClusterReader_switch_plain (env : Codecs) (zr : Reader) (off nib : Nat)
    (h : nib = 0 ∨ nib = 1) (hoff : off < zr.size) :
    getClusterReader_switch env zr off nib =
      .ok { offset := zr.offset + (off + 1), bytes := clusterBody zr off } := by
  unfold getClusterReader_switch zimcompDefault zimcompNone
  rw [if_pos (show nib = 1 ∨ nib = 0 by omega)]
  exact Reader.sub_reader_from_of_le (show off + 1 ≤ zr.size by omega)

theorem getClusterReader_switch_compressed (env : Codecs) (zr : Reader) (off nib : Nat)
    (h : nib = 4 ∨ nib = 5 ∨ (nib = 2 ∧ env.ENABLE_ZLIB = true)) :
    getClusterReader_switch env zr off nib =
      (env.uncompress nib (clusterBody zr off) >>= fun buffer => pure (BufferReader buffer)) := by
  unfold getClusterReader_switch getClusterBuffer clusterBody
  unfold zimcompDefault zimcompNone zimcompLzma zimcompZip zimcompZstd
  rw [if_neg (show ¬ (nib = 1 ∨ nib = 0) by omega),
    if_pos (show nib = 4 ∨ nib = 2 ∨ nib = 5 by omega)]
  rcases h with h | h | ⟨h, hz⟩
  · subst h; rfl
  · subst h; rfl
  · subst h
    rw [if_neg (show ¬ (2 = 4) by omega), if_pos rfl, if_pos hz]

theorem getClusterReader_switch_zip_disabled (env : Codecs) (zr : Reader) (off : Nat)
    (hz : env.ENABLE_ZLIB = false) :
    getClusterReader_switch env zr off 2 =
      .error (.runtime_error "zlib not enabled in this library") := by
  unfold getClusterReader_switch getClusterBuffer
  unfold zimcompDefault zimcompNone zimcompLzma zimcompZip zimcompZstd
  rw [if_neg (show ¬ ((2 : Nat) = 1 ∨ (2 : Nat) = 0) by omega),
    if_pos (show (2 : Nat) = 4 ∨ (2 : Nat) = 2 ∨ (2 : Nat) = 5 by omega),
    if_neg (show ¬ ((2 : Nat) = 4) by omega), if_pos rfl, hz]
  rfl

theorem getClusterReader_switch_bzip2 (env : Codecs) (zr : Reader) (off : Nat) :
    getClusterReader_switch env zr off 3 =
      .error (.runtime_error "bzip2 not enabled in this library") := by
  unfold getClusterReader_switch
  unfold zimcompDefault zimcompNone zimcompLzma zimcompZip zimcompZstd zimcompBzip2
  rw [if_neg (show ¬ ((3 : Nat) = 1 ∨ (3 : Nat) = 0) by omega),
    if_neg (show ¬ ((3 : Nat) = 4 ∨ (3 : Nat) = 2 ∨ (3 : Nat) = 5) by omega), if_pos rfl]

theorem getClusterReader_switch_invalid (env : Codecs) (zr : Reader) (off nib : Nat)
    (h : 6 ≤ nib) :
    getClusterReader_switch env zr off nib =
      .error (.ZimFileFormatError "Invalid compression flag") := by
  unfold getClusterReader_switch
  unfold zimcompDefault zimcompNone zimcompLzma zimcompZip zimcompZstd zimcompBzip2
  rw [if_neg (show ¬ (nib = 1 ∨ nib = 0) by omega),
    if_neg (show ¬ (nib = 4 ∨ nib = 2 ∨ nib = 5) by omega),
    if_neg (show ¬ (nib = 3) by omega)]

theorem CompressedCluster.new_fields {reader : Reader} {comp : CompressionType} {ext : Bool}
    {c : CompressedCluster} (h : CompressedCluster.new reader comp ext = .ok c) :
    c.compression_ = comp ∧ c.isExtended = ext ∧ comp > zimcompNone := by
  unfold CompressedCluster.new at h
  obtain ⟨u, ha, h⟩ := bind_ok h
  obtain ⟨hdr, _, h⟩ := bind_ok h
  obtain ⟨bl, _, h⟩ := bind_ok h
  have := pure_ok h
  subst this
  exact ⟨rfl, rfl, ASSERT_ok ha⟩

/-- The nibbles that `Cluster::read` rejects. -/
theorem Cluster.read_rejects_nibble_aux (env : Codecs) (zr : Reader) (off : Nat)
    (b : Byte) (hb : zr.read off = .ok b) :
    (b.val % 16 = 3 →
      Cluster.read env zr off = .error (.runtime_error "bzip2 not enabled in this library")) ∧
    (6 ≤ b.val % 16 →
      Cluster.read env zr off = .error (.ZimFileFormatError "Invalid compression flag")) := by
  constructor
  · intro h3
    rw [Cluster.read_of_info hb, h3, getClusterReader_switch_bzip2]
    rfl
  · intro h6
    rw [Cluster.read_of_info hb, getClusterReader_switch_invalid env zr off _ h6]
    rfl

/-- The blob offset that an uncompressed cluster reports lies inside the
cluster body. -/
theorem Cluster.getBlobOffset_le {rd : Reader} {ext : Bool} {c : Cluster}
    (h : Cluster.new rd ext = .ok c) {n v : Nat} (hv : c.getBlobOffset n = .ok v)
    (hsz : rd.size < 2 ^ 64) : v ≤ rd.size := by
  obtain ⟨_, hF, hwF, hoffs, hbound, _, _, _⟩ := Cluster.new_ok h
  unfold Cluster.getBlobOffset at hv
  cases hg : c.offsets.get? n with
  | none => rw [hg] at hv; exact (error_ne_ok hv).elim
  | some o =>
    rw [hg] at hv
    have hv2 : (c.startOffset + o) % 2 ^ 64 = v := Except.ok.inj hv
    have hlen : n < c.offsets.length := by
      by_contra hlt
      have : c.offsets.get? n = none := List.get?_eq_none.mpr (by omega)
      rw [this] at hg
      exact Option.noConfusion hg
    have hn : n < c.startOffset / sizeofOffset ext := by
      rw [hoffs] at hlen
      simpa using hlen
    have ho : c.offsets.getD n 0 = o := by
      rw [List.getD_eq_getElem?_getD, ← List.get?_eq_getElem?, hg]
      rfl
    have ho2 : c.offsets.getD n 0 =
        rawEntry (sizeofOffset ext) rd.bytes n - c.startOffset := by
      conv_lhs => rw [hoffs]
      exact getD_map_range _ _ n hn
    have hb := hbound n hn
    omega

/-! ## The constructor -/

theorem FileImpl.new_inv {env : Codecs} {rh : Buffer → Except Error Fileheader}
    {zf : List Byte} {f : FileImpl} (h : FileImpl.new env rh zf = .ok f) :
    ∃ checked mimeTypes,
      FileImpl.new_checked rh { offset := 0, bytes := zf } = .ok checked ∧
      FileImpl.new_mimeTypes { offset := 0, bytes := zf } checked.1 = .ok mimeTypes ∧
      f = { env := env, zimReader := { offset := 0, bytes := zf }, header := checked.1,
            urlPtrOffsetReader := checked.2.1, titleIndexReader := checked.2.2.1,
            clusterOffsetReader := checked.2.2.2, mimeTypes := mimeTypes } := by
  unfold FileImpl.new at h
  obtain ⟨checked, hc, h⟩ := bind_ok h
  obtain ⟨m, hm, h⟩ := bind_ok h
  exact ⟨checked, m, hc, hm, (pure_ok h).symm⟩

theorem FileImpl.new_of_checked {env : Codecs} {rh : Buffer → Except Error Fileheader}
    {zf : List Byte} {checked : Fileheader × Reader × Reader × Reader}
    (hc : FileImpl.new_checked rh { offset := 0, bytes := zf } = .ok checked) :
    FileImpl.new env rh zf =
      (FileImpl.new_mimeTypes { offset := 0, bytes := zf } checked.1 >>= fun mimeTypes =>
        pure { env := env, zimReader := { offset := 0, bytes := zf }, header := checked.1,
               urlPtrOffsetReader := checked.2.1, titleIndexReader := checked.2.2.1,
               clusterOffsetReader := checked.2.2.2, mimeTypes := mimeTypes }) := by
  unfold FileImpl.new
  rw [bind_of_ok hc]

theorem FileImpl.new_checked_ok {rh : Buffer → Except Error Fileheader} {zr : Reader}
    {checked : Fileheader × Reader × Reader × Reader}
    (h : FileImpl.new_checked rh zr = .ok checked) :
    Fileheader.size ≤ zr.size ∧ FileImpl.readHeader rh zr = .ok checked.1 ∧
    FileImpl.new_tables zr checked.1 = .ok checked.2 ∧
    FileImpl.new_lastOffset zr checked.1 checked.2.2.2 = .ok () ∧
    FileImpl.new_checksum zr checked.1 = .ok () := by
  unfold FileImpl.new_checked at h
  by_cases hs : zr.size < Fileheader.size
  · rw [if_pos hs] at h
    exact absurd h error_ne_ok
  · rw [if_neg hs] at h
    obtain ⟨header, hh, h⟩ := bind_ok h
    obtain ⟨tables, ht, h⟩ := bind_ok h
    obtain ⟨u1, hl, h⟩ := bind_ok h
    obtain ⟨u2, hk, h⟩ := bind_ok h
    have := pure_ok h
    subst this
    exact ⟨Nat.le_of_not_lt hs, hh, ht, hl, hk⟩

theorem FileImpl.new_checked_of {rh : Buffer → Except Error Fileheader} {zr : Reader}
    {header : Fileheader} {tables : Reader × Reader × Reader}
    (hs : Fileheader.size ≤ zr.size) (hh : FileImpl.readHeader rh zr = .ok header)
    (ht : FileImpl.new_tables zr header = .ok tables)
    (hl : FileImpl.new_lastOffset zr header tables.2.2 = .ok ()) :
    FileImpl.new_checked rh zr =
      (FileImpl.new_checksum zr header >>= fun _ => pure (header, tables)) := by
  unfold FileImpl.new_checked
  rw [if_neg (show ¬ (zr.size < Fileheader.size) from Nat.not_lt.mpr hs), bind_of_ok hh,
    bind_of_ok ht, bind_of_ok hl]

theorem FileImpl.new_lastOffset_ok {zr : Reader} {header : Fileheader} {c : Reader} {u : Unit}
    (h : FileImpl.new_lastOffset zr header c = .ok u) (h0 : header.clusterCount ≠ 0) :
    ∃ o, readOffset c ((header.clusterCount + 2 ^ 32 - 1) % 2 ^ 32) = .ok o ∧ o ≤ zr.size := by
  unfold FileImpl.new_lastOffset at h
  rw [if_neg h0] at h
  obtain ⟨o, ho, h⟩ := bind_ok h
  refine ⟨o, ho, ?_⟩
  by_cases hgt : o > zr.size
  · rw [if_pos hgt] at h
    exact absurd h error_ne_ok
  · exact Nat.le_of_not_lt hgt

theorem FileImpl.new_checksum_ok {zr : Reader} {header : Fileheader} {u : Unit}
    (h : FileImpl.new_checksum zr header = .ok u) (hc : header.hasChecksum = true) :
    header.checksumPos = (zr.size + 2 ^ 64 - 16) % 2 ^ 64 := by
  unfold FileImpl.new_checksum at h
  by_contra hne
  rw [if_pos ⟨hc, hne⟩] at h
  exact absurd h error_ne_ok

theorem FileImpl.readHeader_eq_of_new {env : Codecs} {rh : Buffer → Except Error Fileheader}
    {zf : List Byte} {f : FileImpl} (h : FileImpl.new env rh zf = .ok f) :
    FileImpl.readHeader rh { offset := 0, bytes := zf } = .ok f.header ∧
    Fileheader.size ≤ zf.length ∧
    FileImpl.new_checksum { offset := 0, bytes := zf } f.header = .ok () := by
  obtain ⟨checked, m, hc, -, rfl⟩ := FileImpl.new_inv h
  obtain ⟨hs, hh, -, -, hk⟩ := FileImpl.new_checked_ok hc
  exact ⟨hh, hs, hk⟩

/-! ## The MIME list -/

theorem strlen_append_zero (s rest : List Byte) (h0 : (0 : Byte) ∉ s) :
    strlen (s ++ 0 :: rest) = s.length := by
  unfold strlen
  induction s with
  | nil => simp
  | cons b t ih =>
    have hb : b ≠ 0 := fun e => h0 (by rw [e]; exact List.mem_cons_self _ _)
    have ht : (0 : Byte) ∉ t := fun h => h0 (List.mem_cons_of_mem _ h)
    simp [List.takeWhile_cons, hb, ih ht]

theorem strlen_of_not_mem (t : List Byte) (h0 : (0 : Byte) ∉ t) : strlen t = t.length := by
  have := strlen_append_zero t [] h0
  unfold strlen at this ⊢
  induction t with
  | nil => simp
  | cons b t ih =>
    have hb : b ≠ 0 := fun e => h0 (by rw [e]; exact List.mem_cons_self _ _)
    have ht : (0 : Byte) ∉ t := fun h => h0 (List.mem_cons_of_mem _ h)
    have h2 := strlen_append_zero t [] ht
    unfold strlen at h2
    simp [List.takeWhile_cons, hb, ih ht h2]

theorem FileImpl.parseMimeTypes_step (buffer pre s post : List Byte) (fuel : Nat)
    (acc : List (List Byte)) (hb : buffer = pre ++ (s ++ 0 :: post)) (hs : s ≠ [])
    (h0 : (0 : Byte) ∉ s) :
    FileImpl.parseMimeTypes buffer buffer.length (fuel + 1) pre.length acc =
      FileImpl.parseMimeTypes buffer buffer.length fuel (pre ++ (s ++ [0])).length
        (acc ++ [s]) := by
  have hdrop : buffer.drop pre.length = s ++ 0 :: post := by
    rw [hb, List.drop_left]
  have hlen : buffer.length = pre.length + (s.length + (post.length + 1)) := by
    rw [hb]; simp
  have hspos : 0 < s.length := List.length_pos.mpr hs
  rw [FileImpl.parseMimeTypes]
  rw [if_pos (show pre.length < buffer.length by omega), hdrop, strlen_append_zero s post h0,
    if_neg (show ¬ s.length = 0 by omega),
    if_neg (show ¬ (pre.length + s.length ≥ buffer.length) by omega)]
  have hslice : slice buffer pre.length s.length = s := by
    unfold slice
    rw [hdrop, List.take_left]
  rw [hslice]
  have : (pre ++ (s ++ [0])).length = pre.length + (s.length + 1) := by simp
  rw [this]

theorem FileImpl.parseMimeTypes_strings (buffer : List Byte) (strs : List (List Byte))
    (hstr : ∀ s ∈ strs, s ≠ [] ∧ (0 : Byte) ∉ s) :
    ∀ (pre tail : List Byte) (fuel : Nat) (acc : List (List Byte)),
      buffer = pre ++ (cstrings strs ++ tail) →
      FileImpl.parseMimeTypes buffer buffer.length (fuel + strs.length) pre.length acc =
        FileImpl.parseMimeTypes buffer buffer.length fuel (pre ++ cstrings strs).length
          (acc ++ strs) := by
  induction strs with
  | nil =>
    intro pre tail fuel acc _
    simp [cstrings]
  | cons s ss ih =>
    intro pre tail fuel acc hb
    have hs := hstr s (List.mem_cons_self _ _)
    have hb1 : buffer = pre ++ (s ++ 0 :: (cstrings ss ++ tail)) := by
      rw [hb]; simp [cstrings]
    have hb2 : buffer = (pre ++ (s ++ [0])) ++ (cstrings ss ++ tail) := by
      rw [hb]; simp [cstrings]
    have h1 := FileImpl.parseMimeTypes_step buffer pre s (cstrings ss ++ tail)
      (fuel + ss.length) acc hb1 hs.1 hs.2
    have h2 := ih (fun t ht => hstr t (List.mem_cons_of_mem _ ht)) (pre ++ (s ++ [0])) tail fuel
      (acc ++ [s]) hb2
    have e1 : fuel + (s :: ss).length = fuel + ss.length + 1 := by simp; omega
    have e2 : (pre ++ (s ++ [0]) ++ cstrings ss) = pre ++ cstrings (s :: ss) := by
      simp [cstrings]
    have e3 : acc ++ [s] ++ ss = acc ++ s :: ss := by simp
    rw [e1, h1, h2, e2, e3]

theorem cstrings_length_ge (strs : List (List Byte)) : strs.length ≤ (cstrings strs).length := by
  induction strs with
  | nil => simp
  | cons s ss ih => simp [cstrings]; omega

/-- The loop of the constructor on a buffer that holds the strings `strs`,
each with its NUL, and then `tail`. -/
theorem FileImpl.parseMimeTypes_eq (strs : List (List Byte)) (tail : List Byte)
    (hstr : ∀ s ∈ strs, s ≠ [] ∧ (0 : Byte) ∉ s) :
    FileImpl.parseMimeTypes (cstrings strs ++ tail) (cstrings strs ++ tail).length
        ((cstrings strs ++ tail).length + 1) 0 [] =
      FileImpl.parseMimeTypes (cstrings strs ++ tail) (cstrings strs ++ tail).length
        ((cstrings strs ++ tail).length + 1 - strs.length) (cstrings strs).length strs := by
  have h := FileImpl.parseMimeTypes_strings (cstrings strs ++ tail) strs hstr [] tail
    ((cstrings strs ++ tail).length + 1 - strs.length) [] (by simp)
  have hle := cstrings_length_ge strs
  have hl : (cstrings strs ++ tail).length = (cstrings strs).length + tail.length := by simp
  have e : (cstrings strs ++ tail).length + 1 - strs.length + strs.length =
      (cstrings strs ++ tail).length + 1 := by omega
  rw [e] at h
  simpa using h

theorem FileImpl.parseMimeTypes_terminated (strs : List (List Byte)) (rest : List Byte)
    (hstr : ∀ s ∈ strs, s ≠ [] ∧ (0 : Byte) ∉ s) :
    FileImpl.parseMimeTypes (cstrings strs ++ 0 :: rest) (cstrings strs ++ 0 :: rest).length
        ((cstrings strs ++ 0 :: rest).length + 1) 0 [] = .ok strs := by
  rw [FileImpl.parseMimeTypes_eq strs (0 :: rest) hstr]
  have hle := cstrings_length_ge strs
  have hl : (cstrings strs ++ 0 :: rest).length = (cstrings strs).length + (rest.length + 1) := by
    simp
  obtain ⟨k, hk⟩ : ∃ k, (cstrings strs ++ 0 :: rest).length + 1 - strs.length = k + 1 :=
    ⟨(cstrings strs ++ 0 :: rest).length - strs.length, by omega⟩
  rw [hk, FileImpl.parseMimeTypes,
    if_pos (show (cstrings strs).length < (cstrings strs ++ 0 :: rest).length by omega),
    List.drop_left]
  have : strlen (0 :: rest) = 0 := by simp [strlen]
  rw [if_pos this]
  rfl

theorem FileImpl.parseMimeTypes_exact (strs : List (List Byte))
    (hstr : ∀ s ∈ strs, s ≠ [] ∧ (0 : Byte) ∉ s) :
    FileImpl.parseMimeTypes (cstrings strs ++ []) (cstrings strs ++ []).length
        ((cstrings strs ++ []).length + 1) 0 [] = .ok strs := by
  rw [FileImpl.parseMimeTypes_eq strs [] hstr]
  have hle := cstrings_length_ge strs
  have hl : (cstrings strs ++ []).length = (cstrings strs).length := by simp
  obtain ⟨k, hk⟩ : ∃ k, (cstrings strs ++ []).length + 1 - strs.length = k + 1 :=
    ⟨(cstrings strs ++ []).length - strs.length, by omega⟩
  rw [hk, FileImpl.parseMimeTypes]
  exact if_neg (by omega)

theorem FileImpl.parseMimeTypes_unterminated (strs : List (List Byte)) (tail : List Byte)
    (hstr : ∀ s ∈ strs, s ≠ [] ∧ (0 : Byte) ∉ s) (ht : tail ≠ []) (h0 : (0 : Byte) ∉ tail) :
    FileImpl.parseMimeTypes (cstrings strs ++ tail) (cstrings strs ++ tail).length
        ((cstrings strs ++ tail).length + 1) 0 [] =
      .error (.ZimFileFormatError "Error getting mimelists.") := by
  rw [FileImpl.parseMimeTypes_eq strs tail hstr]
  have hle := cstrings_length_ge strs
  have hl : (cstrings strs ++ tail).length = (cstrings strs).length + tail.length := by simp
  have htpos : 0 < tail.length := List.length_pos.mpr ht
  obtain ⟨k, hk⟩ : ∃ k, (cstrings strs ++ tail).length + 1 - strs.length = k + 1 :=
    ⟨(cstrings strs ++ tail).length - strs.length, by omega⟩
  rw [hk, FileImpl.parseMimeTypes,
    if_pos (show (cstrings strs).length < (cstrings strs ++ tail).length by omega),
    List.drop_left, strlen_of_not_mem tail h0,
    if_neg (show ¬ tail.length = 0 by omega),
    if_pos (show (cstrings strs).length + tail.length ≥ (cstrings strs ++ tail).length by omega)]

theorem FileImpl.new_mimeTypes_eq (zf : List Byte) (header : Fileheader)
    (hle : header.mimeListPos ≤ min header.urlPtrPos 1024)
    (hin : min header.urlPtrPos 1024 ≤ zf.length) :
    FileImpl.new_mimeTypes { offset := 0, bytes := zf } header =
      FileImpl.parseMimeTypes (mimeRegion header zf) (mimeRegion header zf).length
        ((mimeRegion header zf).length + 1) 0 [] := by
  have h1024 : min header.urlPtrPos 1024 ≤ 1024 := Nat.min_le_right _ _
  have hsize : (min header.urlPtrPos 1024 + 2 ^ 64 - header.mimeListPos) % 2 ^ 64 =
      min header.urlPtrPos 1024 - header.mimeListPos := by omega
  have hlen : (mimeRegion header zf).length = min header.urlPtrPos 1024 - header.mimeListPos := by
    unfold mimeRegion
    rw [slice_length]
    omega
  have hb : Reader.get_buffer { offset := 0, bytes := zf } header.mimeListPos
      (min header.urlPtrPos 1024 - header.mimeListPos) = .ok (mimeRegion header zf) := by
    unfold Reader.get_buffer
    exact if_pos (show header.mimeListPos + (min header.urlPtrPos 1024 - header.mimeListPos) ≤
      Reader.size { offset := 0, bytes := zf } by
        show _ ≤ zf.length
        omega)
  unfold FileImpl.new_mimeTypes
  simp only [hsize]
  rw [bind_of_ok hb, hlen]

theorem FileImpl.getMimeType_of_get (f : FileImpl) (j : Nat) (s : List Byte)
    (h : f.mimeTypes.get? j = some s) : f.getMimeType j = .ok s := by
  have hj : j < f.mimeTypes.length := by
    rcases Nat.lt_or_ge j f.mimeTypes.length with hlt | hge
    · exact hlt
    · rw [List.get?_eq_none.mpr hge] at h
      cases h
  unfold FileImpl.getMimeType
  rw [if_neg (show ¬ j > f.mimeTypes.length by omega), h]

/-! ## Cluster order -/

theorem Reader.read_uint_of_le (w : Nat) (r : Reader) (off : Nat) (hw : 0 < w)
    (h : off + w ≤ r.size) :
    r.read_uint w off = .ok (fromLittleEndian (slice r.bytes off w)) := by
  unfold Reader.read_uint
  exact if_pos ⟨by omega, h⟩

theorem FileImpl.clusterOrderPair_eq (f : FileImpl) (e : Nat) (hsz : f.zimReader.size < 2 ^ 64)
    (hrec : recordReadable f e) :
    f.clusterOrderPair e = .ok (clusterOrderKey f e, e) := by
  obtain ⟨h1, h2, h3⟩ := hrec
  have ho : readOffset f.urlPtrOffsetReader e = .ok (recordOffset f e) := by
    unfold readOffset recordOffset
    exact Reader.read_uint_of_le 8 _ _ (by omega) h1
  have hm : f.zimReader.read_uint 2 (recordOffset f e) = .ok (recordMimeType f e) := by
    unfold recordMimeType
    exact Reader.read_uint_of_le 2 _ _ (by omega) h2
  unfold FileImpl.clusterOrderPair
  rw [bind_of_ok ho, bind_of_ok hm]
  unfold clusterOrderKey Dirent.redirectMimeType Dirent.linktargetMimeType
    Dirent.deletedMimeType
  by_cases hs : recordMimeType f e = 0xffff ∨ recordMimeType f e = 0xfffe ∨
      recordMimeType f e = 0xfffd
  · rw [if_pos hs, if_pos hs]
    rfl
  · rw [if_neg hs, if_neg hs]
    have h12 := h3 hs
    have hmod : (recordOffset f e + 8) % 2 ^ 64 = recordOffset f e + 8 := by omega
    have hc : f.zimReader.read_uint 4 ((recordOffset f e + 8) % 2 ^ 64) =
        .ok (fromLittleEndian (slice f.zimReader.bytes (recordOffset f e + 8) 4)) := by
      rw [hmod]
      exact Reader.read_uint_of_le 4 _ _ (by omega) (by omega)
    rw [bind_of_ok hc]
    rfl

theorem FileImpl.clusterOrderPairs_eq (f : FileImpl) (hsz : f.zimReader.size < 2 ^ 64) :
    ∀ (k i : Nat) (acc : List (Nat × Nat)),
      (∀ e, i ≤ e → e < i + k → recordReadable f e) →
      FileImpl.clusterOrderPairs f k i acc =
        .ok (acc ++ (List.range' i k).map (fun e => (clusterOrderKey f e, e))) := by
  intro k
  induction k with
  | zero =>
    intro i acc _
    simp [FileImpl.clusterOrderPairs, pure, Except.pure]
  | succ k ih =>
    intro i acc h
    rw [FileImpl.clusterOrderPairs,
      bind_of_ok (FileImpl.clusterOrderPair_eq f i hsz (h i (Nat.le_refl _) (by omega))),
      ih (i + 1) _ (fun e h1 h2 => h e (by omega) (by omega))]
    simp [List.range'_succ]

theorem FileImpl.articleListByCluster_eq (f : FileImpl) (hsz : f.zimReader.size < 2 ^ 64)
    (hrec : ∀ e < f.getCountArticles, recordReadable f e) :
    f.articleListByCluster =
      .ok (((List.range f.getCountArticles).map
        (fun e => (clusterOrderKey f e, e))).insertionSort pairLE) := by
  unfold FileImpl.articleListByCluster
  rw [bind_of_ok (FileImpl.clusterOrderPairs_eq f hsz f.getCountArticles 0 []
    (fun e _ h2 => hrec e (by omega)))]
  rw [List.nil_append, List.range_eq_range']
  rfl

/-! ## Search by title -/

theorem stringCompare_neg (a b : List Byte) : stringCompare a b < 0 ↔ a < b := by
  unfold stringCompare
  by_cases h : a < b
  · simp [h]
  · by_cases h2 : a = b
    · simp [h, h2]
    · simp [h, h2]

theorem stringCompare_pos (a b : List Byte) : stringCompare a b > 0 ↔ b < a := by
  unfold stringCompare
  by_cases h : a < b
  · simp [h, lt_asymm h]
  · by_cases h2 : a = b
    · simp [h2]
    · have : b < a := lt_of_le_of_ne (not_lt.mp h) (fun e => h2 e.symm)
      simp [h, h2, this]

theorem stringCompare_zero (a b : List Byte) : stringCompare a b = 0 ↔ a = b := by
  unfold stringCompare
  by_cases h : a < b
  · simp [h, ne_of_lt h]
  · by_cases h2 : a = b
    · simp [h2]
    · simp [h, h2]

theorem FileImpl.findxByTitle_loop_step (f : FileImpl) (ns : Byte) (title : List Byte)
    (fuel l u : Nat) (d : Dirent) (hgt : u - l > 1)
    (hd : f.getDirentByTitle (l + (u - l) / 2) = .ok d) (hns : d.getNamespace = ns) :
    FileImpl.findxByTitle_loop f ns title (fuel + 1) l u =
      if stringCompare title d.getTitle < 0 then
        FileImpl.findxByTitle_loop f ns title fuel l (l + (u - l) / 2)
      else if stringCompare title d.getTitle > 0 then
        FileImpl.findxByTitle_loop f ns title fuel (l + (u - l) / 2) u
      else pure (some (l + (u - l) / 2), l, u) := by
  rw [FileImpl.findxByTitle_loop, if_pos hgt, bind_of_ok hd]
  simp only [hns, lt_irrefl, gt_iff_lt, if_false]

theorem FileImpl.findxByTitle_loop_stop (f : FileImpl) (ns : Byte) (title : List Byte)
    (fuel l u : Nat) (hgt : ¬ u - l > 1) :
    FileImpl.findxByTitle_loop f ns title (fuel + 1) l u = .ok (none, l, u) := by
  rw [FileImpl.findxByTitle_loop, if_neg hgt]
  rfl

/-- The loop of `findxByTitle` on a window `[l, u)` inside a run `[a, b)` of
dirents of namespace `ns` with sorted titles: it returns, either with an
index whose title is `title`, or with a window of one index. -/
theorem FileImpl.findxByTitle_loop_spec (f : FileImpl) (ns : Byte) (title : List Byte)
    (ds : Nat → Dirent) (a b : Nat)
    (hd : ∀ i, a ≤ i → i < b → f.getDirentByTitle i = .ok (ds i))
    (hns : ∀ i, a ≤ i → i < b → (ds i).getNamespace = ns)
    (hs : ∀ i j, a ≤ i → i ≤ j → j < b → (ds i).getTitle ≤ (ds j).getTitle) :
    ∀ fuel l u, a ≤ l → l < u → u ≤ b → u - l ≤ fuel →
      ∃ r, FileImpl.findxByTitle_loop f ns title fuel l u = .ok r ∧
        ((∃ p, r.1 = some p ∧ l ≤ p ∧ p < u ∧ (ds p).getTitle = title) ∨
         (r.1 = none ∧ l ≤ r.2.1 ∧ r.2.2 = r.2.1 + 1 ∧ r.2.2 ≤ u ∧
           (r.2.1 ≠ l → (ds r.2.1).getTitle < title) ∧
           ∀ i, r.2.2 ≤ i → i < u → title < (ds i).getTitle)) := by
  intro fuel
  induction fuel with
  | zero =>
    intro l u _ hlu _ hf
    omega
  | succ fuel ih =>
    intro l u hal hlu hub hf
    by_cases hgt : u - l > 1
    · have hp1 : l < l + (u - l) / 2 := by omega
      have hp2 : l + (u - l) / 2 < u := by omega
      rw [FileImpl.findxByTitle_loop_step f ns title fuel l u (ds (l + (u - l) / 2)) hgt
        (hd _ (by omega) (by omega)) (hns _ (by omega) (by omega))]
      by_cases hneg : stringCompare title (ds (l + (u - l) / 2)).getTitle < 0
      · rw [if_pos hneg]
        have hlt := (stringCompare_neg _ _).mp hneg
        obtain ⟨r, hr, hpost⟩ := ih l (l + (u - l) / 2) hal hp1 (by omega) (by omega)
        refine ⟨r, hr, ?_⟩
        rcases hpost with ⟨p, h1, h2, h3, h4⟩ | ⟨h1, h2, h3, h4, h5, h6⟩
        · exact Or.inl ⟨p, h1, h2, by omega, h4⟩
        · refine Or.inr ⟨h1, h2, h3, by omega, h5, ?_⟩
          intro i hi1 hi2
          by_cases hip : i < l + (u - l) / 2
          · exact h6 i hi1 hip
          · exact lt_of_lt_of_le hlt (hs _ i (by omega) (by omega) (by omega))
      · rw [if_neg hneg]
        by_cases hpos : stringCompare title (ds (l + (u - l) / 2)).getTitle > 0
        · rw [if_pos hpos]
          have hlt := (stringCompare_pos _ _).mp hpos
          obtain ⟨r, hr, hpost⟩ := ih (l + (u - l) / 2) u (by omega) hp2 hub (by omega)
          refine ⟨r, hr, ?_⟩
          rcases hpost with ⟨p, h1, h2, h3, h4⟩ | ⟨h1, h2, h3, h4, h5, h6⟩
          · exact Or.inl ⟨p, h1, by omega, h3, h4⟩
          · refine Or.inr ⟨h1, by omega, h3, h4, ?_, h6⟩
            intro _
            by_cases hrp : r.2.1 = l + (u - l) / 2
            · rw [hrp]
              exact hlt
            · exact h5 hrp
        · rw [if_neg hpos]
          have hz : stringCompare title (ds (l + (u - l) / 2)).getTitle = 0 := by omega
          have heq := (stringCompare_zero _ _).mp hz
          exact ⟨_, rfl, Or.inl ⟨l + (u - l) / 2, rfl, by omega, hp2, heq.symm⟩⟩
    · rw [FileImpl.findxByTitle_loop_stop f ns title fuel l u hgt]
      refine ⟨_, rfl, Or.inr ⟨rfl, Nat.le_refl _, ?_, ?_, ?_, ?_⟩⟩
      · show u = l + 1
        omega
      · exact Nat.le_refl _
      · intro h
        exact absurd rfl h
      · intro i hi1 hi2
        have : u ≤ i := hi1
        omega

/-- What `findxByTitle` returns when the namespace offsets `l < u` delimit a
run of dirents of namespace `ns` with sorted titles: an index of the run with
the title, or the insertion point next to an index `m` of the run. -/
theorem FileImpl.findxByTitle_cases (f : FileImpl) (ns : Byte) (title : List Byte)
    (ds : Nat → Dirent) (l u : Nat)
    (hd : ∀ i, l ≤ i → i < u → f.getDirentByTitle i = .ok (ds i))
    (hns : ∀ i, l ≤ i → i < u → (ds i).getNamespace = ns)
    (hs : ∀ i j, l ≤ i → i ≤ j → j < u → (ds i).getTitle ≤ (ds j).getTitle)
    (hl : f.getNamespaceBeginOffset ns = .ok l) (hu : f.getNamespaceEndOffset ns = .ok u)
    (hlu : l < u) :
    (∃ p, f.findxByTitle ns title = .ok (true, p) ∧ l ≤ p ∧ p < u ∧
      (ds p).getTitle = title) ∨
    (∃ m, l ≤ m ∧ m < u ∧
      f.findxByTitle ns title = .ok (false, if title < (ds m).getTitle then m else m + 1) ∧
      (ds m).getTitle ≠ title ∧ (m ≠ l → (ds m).getTitle < title) ∧
      ∀ i, m + 1 ≤ i → i < u → title < (ds i).getTitle) := by
  obtain ⟨r, hr, hpost⟩ := FileImpl.findxByTitle_loop_spec f ns title ds l u hd hns hs
    (u - l) l u (Nat.le_refl _) hlu (Nat.le_refl _) (Nat.le_refl _)
  unfold FileImpl.findxByTitle
  rw [bind_of_ok hl, bind_of_ok hu, if_neg (show ¬ l = u by omega), bind_of_ok hr]
  obtain ⟨r1, r2, r3⟩ := r
  rcases hpost with ⟨p, h1, h2, h3, h4⟩ | ⟨h1, h2, h3, h4, h5, h6⟩
  · simp only at h1
    subst h1
    exact Or.inl ⟨p, rfl, h2, h3, h4⟩
  · simp only at h1 h2 h3 h4 h5 h6
    subst h1
    subst h3
    simp only []
    rw [bind_of_ok (hd r2 h2 (by omega))]
    by_cases hz : stringCompare title (ds r2).getTitle = 0
    · rw [if_pos hz]
      exact Or.inl ⟨r2, rfl, h2, by omega, ((stringCompare_zero _ _).mp hz).symm⟩
    · rw [if_neg hz]
      refine Or.inr ⟨r2, h2, by omega, ?_, ?_, h5, h6⟩
      · by_cases hlt : title < (ds r2).getTitle
        · rw [if_pos hlt, if_pos ((stringCompare_neg _ _).mpr hlt)]
          rfl
        · rw [if_neg hlt, if_neg (fun h => hlt ((stringCompare_neg _ _).mp h))]
          rfl
      · intro h
        exact hz ((stringCompare_zero _ _).mpr h.symm)

theorem FileImpl.findxByTitle_no_namespace (f : FileImpl) (ns : Byte) (title : List Byte)
    (l : Nat) (hl : f.getNamespaceBeginOffset ns = .ok l)
    (hu : f.getNamespaceEndOffset ns = .ok l) :
    f.findxByTitle ns title = .ok (false, 0) := by
  unfold FileImpl.findxByTitle
  rw [bind_of_ok hl, bind_of_ok hu, if_pos rfl]
  rfl

theorem titles_sorted_in_run (n : Nat) (ns : Byte) (ds : Nat → Dirent) (l u : Nat)
    (hsorted : ∀ j, j < n → ∀ i, i ≤ j → keyLE (titleKey (ds i)) (titleKey (ds j)))
    (huN : u ≤ n)
    (hrun : ∀ i, i < n → ((ds i).getNamespace = ns ↔ l ≤ i ∧ i < u)) :
    ∀ i j, l ≤ i → i ≤ j → j < u → (ds i).getTitle ≤ (ds j).getTitle := by
  intro i j hi hij hj
  have hni := (hrun i (by omega)).mpr ⟨hi, by omega⟩
  have hnj := (hrun j (by omega)).mpr ⟨by omega, hj⟩
  rcases hsorted j (by omega) i hij with h | ⟨_, h⟩
  · have h' : (ds i).getNamespace < (ds j).getNamespace := h
    rw [hni, hnj] at h'
    exact absurd h' (lt_irrefl _)
  · exact h

theorem namespace_lt_before_run (n : Nat) (ns : Byte) (ds : Nat → Dirent) (l u : Nat)
    (hsorted : ∀ j, j < n → ∀ i, i ≤ j → keyLE (titleKey (ds i)) (titleKey (ds j)))
    (hlu : l < u) (huN : u ≤ n)
    (hrun : ∀ i, i < n → ((ds i).getNamespace = ns ↔ l ≤ i ∧ i < u)) :
    ∀ i, i < l → (ds i).getNamespace < ns := by
  intro i hi
  have hnl := (hrun l (by omega)).mpr ⟨Nat.le_refl _, hlu⟩
  rcases hsorted l (by omega) i (by omega) with h | ⟨h, _⟩
  · have h' : (ds i).getNamespace < (ds l).getNamespace := h
    rw [hnl] at h'
    exact h'
  · have h' : (ds i).getNamespace = (ds l).getNamespace := h
    rw [hnl] at h'
    have := (hrun i (by omega)).mp h'
    omega

theorem namespace_gt_after_run (n : Nat) (ns : Byte) (ds : Nat → Dirent) (l u : Nat)
    (hsorted : ∀ j, j < n → ∀ i, i ≤ j → keyLE (titleKey (ds i)) (titleKey (ds j)))
    (hlu : l < u)
    (hrun : ∀ i, i < n → ((ds i).getNamespace = ns ↔ l ≤ i ∧ i < u)) :
    ∀ i, u ≤ i → i < n → ns < (ds i).getNamespace := by
  intro i hi hin
  have hnl := (hrun l (by omega)).mpr ⟨Nat.le_refl _, hlu⟩
  rcases hsorted i hin l (by omega) with h | ⟨h, _⟩
  · have h' : (ds l).getNamespace < (ds i).getNamespace := h
    rw [hnl] at h'
    exact h'
  · have h' : (ds l).getNamespace = (ds i).getNamespace := h
    rw [hnl] at h'
    have := (hrun i hin).mp h'.symm
    omega

theorem Reader.sub_reader_of_can_read (r : Reader) (off n : Nat)
    (h : r.can_read off n = true) :
    r.sub_reader off n = .ok { offset := r.offset + off, bytes := slice r.bytes off n } := by
  unfold Reader.can_read at h
  unfold Reader.sub_reader
  exact if_pos (of_decide_eq_true h)

theorem FileImpl.new_tables_error {zr : Reader} {header : Fileheader} {e : Error}
    (h : FileImpl.new_tables zr header = .error e) : ∃ msg, e = .ZimFileFormatError msg := by
  unfold FileImpl.new_tables at h
  by_cases h1 : zr.can_read header.urlPtrPos ((header.articleCount * 8) % 2 ^ 32) = true
  · rw [if_neg (not_not.mpr h1), bind_of_ok (Reader.sub_reader_of_can_read _ _ _ h1)] at h
    by_cases h2 : zr.can_read header.titleIdxPos ((header.articleCount * 4) % 2 ^ 32) = true
    · rw [if_neg (not_not.mpr h2), bind_of_ok (Reader.sub_reader_of_can_read _ _ _ h2)] at h
      by_cases h3 : zr.can_read header.clusterPtrPos ((header.clusterCount * 8) % 2 ^ 32) = true
      · rw [if_neg (not_not.mpr h3), bind_of_ok (Reader.sub_reader_of_can_read _ _ _ h3)] at h
        cases h
      · rw [if_pos h3] at h
        exact ⟨_, (Except.error.inj h).symm⟩
    · rw [if_pos h2] at h
      exact ⟨_, (Except.error.inj h).symm⟩
  · rw [if_pos h1] at h
    exact ⟨_, (Except.error.inj h).symm⟩

theorem FileImpl.new_tables_cluster {zr : Reader} {header : Fileheader}
    {tables : Reader × Reader × Reader} (h : FileImpl.new_tables zr header = .ok tables) :
    header.clusterPtrPos + (header.clusterCount * 8) % 2 ^ 32 ≤ zr.size ∧
    tables.2.2.bytes =
      slice zr.bytes header.clusterPtrPos ((header.clusterCount * 8) % 2 ^ 32) := by
  unfold FileImpl.new_tables at h
  by_cases h1 : zr.can_read header.urlPtrPos ((header.articleCount * 8) % 2 ^ 32) = true
  · rw [if_neg (not_not.mpr h1), bind_of_ok (Reader.sub_reader_of_can_read _ _ _ h1)] at h
    by_cases h2 : zr.can_read header.titleIdxPos ((header.articleCount * 4) % 2 ^ 32) = true
    · rw [if_neg (not_not.mpr h2), bind_of_ok (Reader.sub_reader_of_can_read _ _ _ h2)] at h
      by_cases h3 : zr.can_read header.clusterPtrPos ((header.clusterCount * 8) % 2 ^ 32) = true
      · rw [if_neg (not_not.mpr h3), bind_of_ok (Reader.sub_reader_of_can_read _ _ _ h3)] at h
        have := pure_ok h
        subst this
        unfold Reader.can_read at h3
        exact ⟨of_decide_eq_true h3, rfl⟩
      · rw [if_pos h3] at h
        exact absurd h error_ne_ok
    · rw [if_pos h2] at h
      exact absurd h error_ne_ok
  · rw [if_pos h1] at h
    exact absurd h error_ne_ok

theorem FileImpl.new_lastOffset_error {zr : Reader} {header : Fileheader}
    {tables : Reader × Reader × Reader} {e : Error}
    (ht : FileImpl.new_tables zr header = .ok tables)
    (hcount : header.clusterCount * 8 < 2 ^ 32)
    (h : FileImpl.new_lastOffset zr header tables.2.2 = .error e) :
    ∃ msg, e = .ZimFileFormatError msg := by
  obtain ⟨hin, hbytes⟩ := FileImpl.new_tables_cluster ht
  unfold FileImpl.new_lastOffset at h
  by_cases h0 : header.clusterCount = 0
  · rw [if_pos h0] at h
    cases h
  · rw [if_neg h0] at h
    have hmod : (header.clusterCount * 8) % 2 ^ 32 = header.clusterCount * 8 :=
      Nat.mod_eq_of_lt hcount
    have hidx : (header.clusterCount + 2 ^ 32 - 1) % 2 ^ 32 = header.clusterCount - 1 := by
      omega
    have hsize : tables.2.2.size = header.clusterCount * 8 := by
      unfold Reader.size
      rw [hbytes, slice_length, hmod]
      have : header.clusterPtrPos + header.clusterCount * 8 ≤ zr.bytes.length := by
        rw [hmod] at hin
        exact hin
      omega
    have hread : readOffset tables.2.2 ((header.clusterCount + 2 ^ 32 - 1) % 2 ^ 32) =
        .ok (fromLittleEndian (slice tables.2.2.bytes (8 * (header.clusterCount - 1)) 8)) := by
      rw [hidx]
      unfold readOffset
      exact Reader.read_uint_of_le 8 _ _ (by omega) (by omega)
    rw [bind_of_ok hread] at h
    split at h
    · exact ⟨_, (Except.error.inj h).symm⟩
    · cases h

theorem FileImpl.readHeader_error {rh : Buffer → Except Error Fileheader} {zr : Reader}
    {e : Error} (h : FileImpl.readHeader rh zr = .error e) :
    ∃ msg, e = .ZimFileFormatError msg := by
  unfold FileImpl.readHeader at h
  split at h
  · exact ⟨_, (Except.error.inj h).symm⟩
  · split at h
    · cases h
    · exact ⟨_, (Except.error.inj h).symm⟩
    · exact ⟨_, (Except.error.inj h).symm⟩

/-! ## The checksum -/

theorem Buffer.at_of_lt (b : Buffer) (i : Nat) (h : i < b.length) :
    Buffer.at b i = .ok (b.getD i 0) := by
  unfold Buffer.at
  rw [List.getD_eq_getElem?_getD, List.get?_eq_getElem?, List.getElem?_eq_getElem h]
  rfl

theorem slice_succ (b : List Byte) (i k : Nat) (h : i < b.length) :
    slice b i (k + 1) = b.getD i 0 :: slice b (i + 1) k := by
  unfold slice
  rw [List.drop_eq_getElem_cons h, List.take_succ_cons, List.getD_eq_getElem?_getD,
    List.getElem?_eq_getElem h]
  rfl

theorem FileImpl.getChecksum_loop_eq (chksum : Buffer) :
    ∀ (k i : Nat) (acc : List Byte), i + k ≤ chksum.length →
      FileImpl.getChecksum_loop chksum k i acc = .ok (acc ++ hexEncode (slice chksum i k)) := by
  intro k
  induction k with
  | zero =>
    intro i acc _
    simp [FileImpl.getChecksum_loop, slice, hexEncode, pure, Except.pure]
  | succ k ih =>
    intro i acc h
    rw [FileImpl.getChecksum_loop, bind_of_ok (Buffer.at_of_lt chksum i (by omega)),
      ih (i + 1) _ (by omega), slice_succ chksum i k (by omega)]
    simp only [hexEncode, Nat.shiftRight_eq_div_pow, land_0x0F]
    simp

theorem hexEncode_length (bs : List Byte) : (hexEncode bs).length = 2 * bs.length := by
  induction bs with
  | nil => rfl
  | cons v vs ih => simp [hexEncode, ih]; omega

theorem hex_getD_mem (n : Nat) (h : n < 16) : hex.getD n 0 ∈ hex := by
  have : ∀ n, n < 16 → hex.getD n 0 ∈ hex := by decide
  exact this n h

theorem hexEncode_mem (bs : List Byte) : ∀ c ∈ hexEncode bs, c ∈ hex := by
  induction bs with
  | nil => intro c hc; cases hc
  | cons v vs ih =>
    intro c hc
    simp only [hexEncode, List.mem_cons] at hc
    rcases hc with rfl | rfl | hc
    · exact hex_getD_mem _ (by omega)
    · exact hex_getD_mem _ (by omega)
    · exact ih c hc

theorem hexEncode_getD (bs : List Byte) :
    ∀ i, i < bs.length →
      (hexEncode bs).getD (2 * i) 0 = hex.getD ((bs.getD i 0).val / 16) 0 ∧
      (hexEncode bs).getD (2 * i + 1) 0 = hex.getD ((bs.getD i 0).val % 16) 0 := by
  induction bs with
  | nil => intro i hi; simp at hi
  | cons v vs ih =>
    intro i hi
    cases i with
    | zero => simp [hexEncode]
    | succ i =>
      have := ih i (by simpa using hi)
      have e1 : 2 * (i + 1) = (2 * i) + 1 + 1 := by omega
      rw [e1]
      simpa [hexEncode] using this

theorem hexDigitValue_hex (n : Nat) (h : n < 16) : hexDigitValue (hex.getD n 0) = some n := by
  have : ∀ n, n < 16 → hexDigitValue (hex.getD n 0) = some n := by decide
  exact this n h

theorem hexDecode_hexEncode (bs : List Byte) : hexDecode (hexEncode bs) = some bs := by
  induction bs with
  | nil => rfl
  | cons v vs ih =>
    simp only [hexEncode, hexDecode, hexDigitValue_hex _ (show v.val / 16 < 16 by omega),
      hexDigitValue_hex _ (show v.val % 16 < 16 by omega), ih]
    congr 2
    apply Fin.ext
    simp only
    omega

/-! ## Buffer views -/

theorem SubBuffer.new_eq (b : Buffer) (o s : Nat) (hb : b.length < 2 ^ 64)
    (h : o + s ≤ b.length) :
    SubBuffer.new b o s = .ok { size_ := s, _data := b.data o } := by
  have h1 : o ≤ Buffer.size b := by unfold Buffer.size; omega
  have h2 : (o + s) % 2 ^ 64 ≤ Buffer.size b := by unfold Buffer.size; omega
  unfold SubBuffer.new
  rw [bind_of_ok (ASSERT_of h1), bind_of_ok (ASSERT_of h2)]
  rfl

theorem SubBuffer.new_view_eq (v : SubBuffer) (o s : Nat) (hv : v.size_ < 2 ^ 64)
    (h : o + s ≤ v.size_) :
    SubBuffer.new_view v o s = .ok { size_ := s, _data := v._data.drop o } := by
  have h1 : o ≤ SubBuffer.size v := by unfold SubBuffer.size; omega
  have h2 : (o + s) % 2 ^ 64 ≤ SubBuffer.size v := by unfold SubBuffer.size; omega
  unfold SubBuffer.new_view
  rw [bind_of_ok (ASSERT_of h1), bind_of_ok (ASSERT_of h2)]
  rfl

theorem SubBuffer.at_eq (b : Buffer) (o s i : Nat) (hi : i < s) :
    SubBuffer.at { size_ := s, _data := b.data o } i = Buffer.at b (o + i) := by
  unfold SubBuffer.at SubBuffer.size SubBuffer.data SubBuffer.dataImpl Buffer.data Buffer.at
  rw [if_pos hi, List.drop_drop, List.head?_drop, List.get?_eq_getElem?]

theorem slice_get_lt (b : List Byte) (o s i : Nat) (hi : i < s) :
    (slice b o s).get? i = b.get? (o + i) := by
  unfold slice
  rw [List.get?_eq_getElem?, List.get?_eq_getElem?, List.getElem?_take_of_lt hi,
    List.getElem?_drop]

/-! ## Verification of the checksum -/

theorem FileImpl.verify_part_eq {σ : Type} (md5 : MD5 σ) (cp : Nat) :
    ∀ (bytes : List Byte) (ctx : σ) (cur : Nat), cur ≤ cp →
      FileImpl.verify_part md5 cp ctx cur bytes =
        ((bytes.take (cp - cur)).foldl md5.zim_MD5Update ctx, cur + min (cp - cur) bytes.length) := by
  intro bytes
  induction bytes with
  | nil =>
    intro ctx cur _
    simp [FileImpl.verify_part]
  | cons ch rest ih =>
    intro ctx cur hle
    rw [FileImpl.verify_part]
    by_cases hlt : cur < cp
    · rw [if_pos hlt, ih _ (cur + 1) (by omega)]
      obtain ⟨k, hk⟩ : ∃ k, cp - cur = k + 1 := ⟨cp - cur - 1, by omega⟩
      have hk2 : cp - (cur + 1) = k := by omega
      rw [hk, hk2, List.take_succ_cons, List.foldl_cons, List.length_cons]
      congr 1
      omega
    · rw [if_neg hlt]
      have h0 : cp - cur = 0 := by omega
      rw [h0]
      simp

theorem FileImpl.verify_parts_eq {σ : Type} (md5 : MD5 σ) (cp : Nat) :
    ∀ (parts : List PartStream) (ctx : σ) (cur : Nat), cur ≤ cp →
      (∀ p ∈ parts, p.bad = false) →
      FileImpl.verify_parts md5 cp ctx cur parts =
        some (((concatParts parts).take (cp - cur)).foldl md5.zim_MD5Update ctx,
          cur + min (cp - cur) (concatParts parts).length) := by
  intro parts
  induction parts with
  | nil =>
    intro ctx cur _ _
    simp [FileImpl.verify_parts, concatParts]
  | cons part parts ih =>
    intro ctx cur hle hgood
    have hb : part.bad = false := hgood part (List.mem_cons_self _ _)
    rw [FileImpl.verify_parts, FileImpl.verify_part_eq md5 cp part.bytes ctx cur hle]
    simp only [hb, Bool.false_eq_true, and_false, if_false]
    by_cases hr : cur + min (cp - cur) part.bytes.length = cp
    · rw [if_pos hr]
      have hmin : cp - cur ≤ part.bytes.length := by omega
      simp only [concatParts, List.length_append]
      rw [List.take_append_of_le_length hmin]
      congr 2
      omega
    · rw [if_neg hr]
      have hlt : part.bytes.length < cp - cur := by omega
      rw [ih _ _ (by omega) (fun p hp => hgood p (List.mem_cons_of_mem _ hp))]
      simp only [concatParts, List.length_append]
      have htake : List.take (cp - cur) part.bytes = part.bytes :=
        List.take_of_length_le (by omega)
      have hmin : min (cp - cur) part.bytes.length = part.bytes.length := by omega
      rw [htake, hmin, List.take_append_eq_append_take, htake, List.foldl_append]
      have e : cp - (cur + part.bytes.length) = cp - cur - part.bytes.length := by omega
      rw [e]
      congr 2
      omega

/-! ## Namespaces -/

theorem firstNamespace_spec (f : FileImpl) (p : Byte → Bool) (ds : Nat → Dirent) :
    ∀ (k i : Nat), (∀ m, i ≤ m → m < i + k → f.getDirent m = .ok (ds m)) →
      ∃ j, firstNamespace f p k i = .ok j ∧ i ≤ j ∧ j ≤ i + k ∧
        (∀ m, i ≤ m → m < j → p (ds m).getNamespace = false) ∧
        (j < i + k → p (ds j).getNamespace = true) := by
  intro k
  induction k with
  | zero =>
    intro i _
    exact ⟨i, rfl, Nat.le_refl _, Nat.le_refl _, fun m h1 h2 => by omega, fun h => by omega⟩
  | succ k ih =>
    intro i hd
    rw [firstNamespace, bind_of_ok (hd i (Nat.le_refl _) (by omega))]
    cases hp : p (ds i).getNamespace with
    | true =>
      refine ⟨i, ?_, Nat.le_refl _, by omega, fun m h1 h2 => by omega, fun _ => hp⟩
      simp [hp, pure, Except.pure]
    | false =>
      obtain ⟨j, hj, h1, h2, h3, h4⟩ := ih (i + 1) (fun m hm1 hm2 => hd m (by omega) (by omega))
      refine ⟨j, ?_, by omega, by omega, ?_, fun h => h4 (by omega)⟩
      · simp [hp, hj]
      · intro m hm1 hm2
        by_cases hmi : m = i
        · rw [hmi]
          exact hp
        · exact h3 m (by omega) hm2

theorem FileImpl.getNamespaceEndOffset_sorted (f : FileImpl) (ds : Nat → Dirent)
    (hd : ∀ i, i < f.getCountArticles → f.getDirent i = .ok (ds i))
    (hsorted : ∀ j, j < f.getCountArticles → ∀ i, i ≤ j →
      (ds i).getNamespace ≤ (ds j).getNamespace)
    (a : Nat) (ha : a < f.getCountArticles) :
    ∃ j, f.getNamespaceEndOffset (ds a).getNamespace = .ok j ∧ a < j ∧
      j ≤ f.getCountArticles ∧
      (∀ m, m < j → (ds m).getNamespace ≤ (ds a).getNamespace) ∧
      (∀ m, j ≤ m → m < f.getCountArticles → (ds a).getNamespace < (ds m).getNamespace) := by
  obtain ⟨j, hj, -, h2, h3, h4⟩ := firstNamespace_spec f
    (fun n => decide ((ds a).getNamespace < n)) ds f.getCountArticles 0
    (fun m _ hm => hd m (by omega))
  rw [Nat.zero_add] at h2 h4
  have hlow : ∀ m, m < j → (ds m).getNamespace ≤ (ds a).getNamespace := by
    intro m hm
    have := h3 m (Nat.zero_le _) hm
    exact not_lt.mp (of_decide_eq_false this)
  have haj : a < j := by
    by_contra hle
    have hjN : j < f.getCountArticles := by omega
    have h1 : (ds a).getNamespace < (ds j).getNamespace := of_decide_eq_true (h4 hjN)
    have h2 := hsorted a ha j (by omega)
    exact absurd (lt_of_lt_of_le h1 h2) (lt_irrefl _)
  refine ⟨j, hj, haj, h2, hlow, ?_⟩
  intro m hm1 hm2
  have h1 : (ds a).getNamespace < (ds j).getNamespace := of_decide_eq_true (h4 (by omega))
  exact lt_of_lt_of_le h1 (hsorted m hm2 j hm1)

theorem FileImpl.getNamespaces_loop_spec (f : FileImpl) (ds : Nat → Dirent)
    (hd : ∀ i, i < f.getCountArticles → f.getDirent i = .ok (ds i))
    (hsorted : ∀ j, j < f.getCountArticles → ∀ i, i ≤ j →
      (ds i).getNamespace ≤ (ds j).getNamespace) :
    ∀ (n a : Nat), a < f.getCountArticles → f.getCountArticles - a ≤ n →
      ∃ rest : List Byte,
        (∀ fuel acc, f.getCountArticles - a ≤ fuel →
          FileImpl.getNamespaces_loop f fuel (ds a) acc = .ok (some (acc ++ rest))) ∧
        rest.Pairwise (· < ·) ∧
        (∀ c, c ∈ rest ↔
          ∃ i, i < f.getCountArticles ∧ (ds i).getNamespace = c ∧ (ds a).getNamespace < c) := by
  intro n
  induction n with
  | zero =>
    intro a ha hn
    omega
  | succ n ih =>
    intro a ha hn
    obtain ⟨j, hj, haj, hjN, hlow, hhigh⟩ :=
      FileImpl.getNamespaceEndOffset_sorted f ds hd hsorted a ha
    by_cases hlt : j < f.getCountArticles
    · obtain ⟨rest, hrest, hpw, hmem⟩ := ih j hlt (by omega)
      have hjgt : (ds a).getNamespace < (ds j).getNamespace := hhigh j (Nat.le_refl _) hlt
      refine ⟨(ds j).getNamespace :: rest, ?_, ?_, ?_⟩
      · intro fuel acc hfuel
        obtain ⟨fuel', rfl⟩ : ∃ fuel', fuel = fuel' + 1 := ⟨fuel - 1, by omega⟩
        rw [FileImpl.getNamespaces_loop, bind_of_ok hj, if_pos hlt, bind_of_ok (hd j hlt),
          hrest fuel' _ (by omega)]
        simp
      · rw [List.pairwise_cons]
        exact ⟨fun c hc => ((hmem c).mp hc).choose_spec.2.2, hpw⟩
      · intro c
        rw [List.mem_cons]
        constructor
        · rintro (rfl | hc)
          · exact ⟨j, hlt, rfl, hjgt⟩
          · obtain ⟨i, hi, hic, hgt⟩ := (hmem c).mp hc
            exact ⟨i, hi, hic, lt_trans hjgt hgt⟩
        · rintro ⟨i, hi, hic, hgt⟩
          have hji : j ≤ i := by
            by_contra hij
            have := hlow i (by omega)
            rw [hic] at this
            exact absurd (lt_of_lt_of_le hgt this) (lt_irrefl _)
          have hle := hsorted i hi j hji
          rw [hic] at hle
          rcases eq_or_lt_of_le hle with heq | hlt2
          · exact Or.inl heq.symm
          · exact Or.inr ((hmem c).mpr ⟨i, hi, hic, hlt2⟩)
    · refine ⟨[], ?_, List.Pairwise.nil, ?_⟩
      · intro fuel acc hfuel
        obtain ⟨fuel', rfl⟩ : ∃ fuel', fuel = fuel' + 1 := ⟨fuel - 1, by omega⟩
        rw [FileImpl.getNamespaces_loop, bind_of_ok hj, if_neg hlt]
        simp [pure, Except.pure]
      · intro c
        constructor
        · intro hc
          cases hc
        · rintro ⟨i, hi, hic, hgt⟩
          have := hlow i (by omega)
          rw [hic] at this
          exact absurd (lt_of_lt_of_le hgt this) (lt_irrefl _)

/-! ## DecodedDataStream -/

theorem resize_length (v : List Byte) (n : Nat) : (resize v n).length = n := by
  unfold resize
  simp
  omega

theorem DecodedDataStream.readNextChunk_ok {σ : Type} {s s' : DecodedDataStream σ}
    (h : s.readNextChunk = .ok s') :
    min BUF_SIZE s.inputBytesLeft_ ≤ s.encodedDataStream_.length ∧
    s'.encodedDataStream_ = s.encodedDataStream_.drop (min BUF_SIZE s.inputBytesLeft_) ∧
    s'.inputBytesLeft_ = s.inputBytesLeft_ - min BUF_SIZE s.inputBytesLeft_ ∧
    s'.encodedDataBuf_ =
      (if s.inputBytesLeft_ - min BUF_SIZE s.inputBytesLeft_ = 0 then
        resize (s.encodedDataStream_.take (min BUF_SIZE s.inputBytesLeft_) ++
          s.encodedDataBuf_.drop (min BUF_SIZE s.inputBytesLeft_))
          (min BUF_SIZE s.inputBytesLeft_)
      else s.encodedDataStream_.take (min BUF_SIZE s.inputBytesLeft_) ++
          s.encodedDataBuf_.drop (min BUF_SIZE s.inputBytesLeft_)) ∧
    s'.decoderState_.next_in = s'.encodedDataBuf_ ∧
    s'.decoderState_.avail_in = s'.encodedDataBuf_.length ∧
    s'.decoderState_.next_out = s.decoderState_.next_out ∧
    s'.decoderState_.avail_out = s.decoderState_.avail_out ∧
    s'.decoderState_.codec = s.decoderState_.codec := by
  unfold DecodedDataStream.readNextChunk at h
  obtain ⟨r, hr, h⟩ := bind_ok h
  obtain ⟨h1, h2, h3⟩ := IDataStream.readImpl_ok hr
  have := pure_ok h
  subst this
  obtain ⟨r1, r2⟩ := r
  simp only at h2 h3
  subst h2 h3
  exact ⟨h1, rfl, rfl, rfl, rfl, rfl, rfl, rfl, rfl⟩

theorem DecodedDataStream.readNextChunk_of_le {σ : Type} (s : DecodedDataStream σ)
    (h : min BUF_SIZE s.inputBytesLeft_ ≤ s.encodedDataStream_.length) :
    ∃ s', s.readNextChunk = .ok s' := by
  have hr : s.encodedDataStream_.readImpl (min BUF_SIZE s.inputBytesLeft_) =
      .ok (s.encodedDataStream_.take (min BUF_SIZE s.inputBytesLeft_),
        s.encodedDataStream_.drop (min BUF_SIZE s.inputBytesLeft_)) := by
    unfold IDataStream.readImpl
    exact if_pos h
  unfold DecodedDataStream.readNextChunk
  rw [bind_of_ok hr]
  exact ⟨_, rfl⟩

theorem DecodedDataStream.readNextChunk_buf_length {σ : Type} {s s' : DecodedDataStream σ}
    (h : s.readNextChunk = .ok s')
    (hbuf : s.encodedDataBuf_.length = BUF_SIZE ∨ s.inputBytesLeft_ = 0) :
    s'.encodedDataBuf_.length = min BUF_SIZE s.inputBytesLeft_ ∧
    s'.encodedDataBuf_ = s.encodedDataStream_.take (min BUF_SIZE s.inputBytesLeft_) ∧
    (s'.encodedDataBuf_.length = BUF_SIZE ∨ s'.inputBytesLeft_ = 0) := by
  obtain ⟨h1, -, h3, h4, -⟩ := DecodedDataStream.readNextChunk_ok h
  have htake : (s.encodedDataStream_.take (min BUF_SIZE s.inputBytesLeft_)).length =
      min BUF_SIZE s.inputBytesLeft_ := by
    rw [List.length_take]
    omega
  by_cases h0 : s.inputBytesLeft_ - min BUF_SIZE s.inputBytesLeft_ = 0
  · rw [if_pos h0] at h4
    have hres : s'.encodedDataBuf_ = s.encodedDataStream_.take (min BUF_SIZE s.inputBytesLeft_) := by
      rw [h4]
      unfold resize
      rw [List.take_append_of_le_length (by rw [htake]), List.take_of_length_le (by rw [htake])]
      simp
      omega
    refine ⟨by rw [hres, htake], hres, Or.inr (by rw [h3]; exact h0)⟩
  · rw [if_neg h0] at h4
    have hfull : min BUF_SIZE s.inputBytesLeft_ = BUF_SIZE := by omega
    have hlen : s.encodedDataBuf_.length = BUF_SIZE := by
      rcases hbuf with hb | hb
      · exact hb
      · omega
    have hdrop : s.encodedDataBuf_.drop (min BUF_SIZE s.inputBytesLeft_) = [] := by
      rw [List.drop_eq_nil_iff]
      omega
    have hres : s'.encodedDataBuf_ = s.encodedDataStream_.take (min BUF_SIZE s.inputBytesLeft_) := by
      rw [h4, hdrop, List.append_nil]
    refine ⟨by rw [hres, htake], hres, Or.inl (by rw [hres, htake, hfull])⟩

theorem DecodedDataStream.readNextChunk_accounted {σ : Type} (inputData : IDataStream)
    (inputSize : Nat) {s s' : DecodedDataStream σ}
    (hacc : DecodedDataStream.Accounted inputData inputSize s)
    (h : s.readNextChunk = .ok s') :
    DecodedDataStream.Accounted inputData inputSize s' ∧
    s'.pulled inputData = s.pulled inputData + min BUF_SIZE s.inputBytesLeft_ ∧
    s'.inputBytesLeft_ = s.inputBytesLeft_ - min BUF_SIZE s.inputBytesLeft_ ∧
    s'.decoderState_.avail_in = min BUF_SIZE s.inputBytesLeft_ := by
  obtain ⟨a1, a2, a3, a4⟩ := hacc
  obtain ⟨h1, h2, h3, -, -, h6, -⟩ := DecodedDataStream.readNextChunk_ok h
  obtain ⟨b1, -, b3⟩ := DecodedDataStream.readNextChunk_buf_length h a4
  have hup : s.encodedDataStream_.length = inputData.length - s.pulled inputData := by
    rw [a3, List.length_drop]
  have hlen' : s'.encodedDataStream_.length =
      s.encodedDataStream_.length - min BUF_SIZE s.inputBytesLeft_ := by
    rw [h2, List.length_drop]
  have hp : s'.pulled inputData = s.pulled inputData + min BUF_SIZE s.inputBytesLeft_ := by
    unfold DecodedDataStream.pulled at a2 hup ⊢
    rw [hlen']
    omega
  refine ⟨⟨?_, ?_, ?_, b3⟩, hp, h3, by rw [h6, b1]⟩
  · rw [hp, h3]
    omega
  · rw [hp]
    omega
  · rw [hp, h2, a3, List.drop_drop]

theorem DecodedDataStream.decodeMoreBytes_eq {σ : Type} (dec : Decoder σ)
    (s : DecodedDataStream σ) :
    DecodedDataStream.decodeMoreBytes dec s =
      ((if s.decoderState_.avail_in = 0 ∧ s.inputBytesLeft_ ≠ 0 then s.readNextChunk
        else pure s) >>= fun s1 =>
        pure ((dec.stream_run_decode s1.decoderState_ s.stepOf).1,
          { s1 with decoderState_ := (dec.stream_run_decode s1.decoderState_ s.stepOf).2 })) := by
  unfold DecodedDataStream.decodeMoreBytes DecodedDataStream.stepOf
  by_cases h1 : s.decoderState_.avail_in = 0
  · by_cases h2 : s.inputBytesLeft_ = 0
    · simp [h1, h2]
    · simp only [h1, h2, if_true, if_false, true_and, and_false, ne_eq, not_false_eq_true]
      cases hr : s.readNextChunk with
      | error e => rfl
      | ok s1 => rfl
  · simp [h1]

theorem DecodedDataStream.decodeMoreBytes_accounted {σ : Type} (dec : Decoder σ)
    (inputData : IDataStream) (inputSize : Nat) {s s' : DecodedDataStream σ}
    {status : CompStatus}
    (hacc : DecodedDataStream.Accounted inputData inputSize s)
    (h : DecodedDataStream.decodeMoreBytes dec s = .ok (status, s')) :
    DecodedDataStream.Accounted inputData inputSize s' := by
  rw [DecodedDataStream.decodeMoreBytes_eq] at h
  obtain ⟨s1, h1, h⟩ := bind_ok h
  have hs' := pure_ok h
  have hacc1 : DecodedDataStream.Accounted inputData inputSize s1 := by
    by_cases hc : s.decoderState_.avail_in = 0 ∧ s.inputBytesLeft_ ≠ 0
    · rw [if_pos hc] at h1
      exact (DecodedDataStream.readNextChunk_accounted inputData inputSize hacc h1).1
    · rw [if_neg hc] at h1
      rw [← pure_ok h1]
      exact hacc
  have e : s' = { s1 with decoderState_ := (dec.stream_run_decode s1.decoderState_ s.stepOf).2 } :=
    (congrArg Prod.snd hs').symm
  rw [e]
  exact hacc1

theorem DecodedDataStream.readImpl_loop_accounted {σ : Type} (dec : Decoder σ)
    (inputData : IDataStream) (inputSize : Nat) :
    ∀ (fuel : Nat) (s s' : DecodedDataStream σ),
      DecodedDataStream.Accounted inputData inputSize s →
      DecodedDataStream.readImpl_loop dec fuel s = .ok (some s') →
      DecodedDataStream.Accounted inputData inputSize s' := by
  intro fuel
  induction fuel with
  | zero =>
    intro s s' hacc h
    rw [DecodedDataStream.readImpl_loop] at h
    by_cases h0 : s.decoderState_.avail_out ≠ 0
    · rw [if_pos h0] at h
      cases pure_ok h
    · rw [if_neg h0] at h
      have := pure_ok h
      injection this with this
      rw [← this]
      exact hacc
  | succ fuel ih =>
    intro s s' hacc h
    rw [DecodedDataStream.readImpl_loop] at h
    by_cases h0 : s.decoderState_.avail_out ≠ 0
    · rw [if_pos h0] at h
      obtain ⟨r, hr, h⟩ := bind_ok h
      exact ih r.2 s' (DecodedDataStream.decodeMoreBytes_accounted dec inputData inputSize hacc
        (show DecodedDataStream.decodeMoreBytes dec s = .ok (r.1, r.2) from hr)) h
    · rw [if_neg h0] at h
      have := pure_ok h
      injection this with this
      rw [← this]
      exact hacc

theorem slice_append_slice (D : List Byte) (p a b : Nat) :
    slice D p a ++ slice D (p + a) b = slice D p (a + b) := by
  unfold slice
  rw [← List.drop_drop, List.take_add]

theorem slice_prefix_append (comp rest : List Byte) (c n : Nat) (h : c + n ≤ comp.length) :
    ((comp ++ rest).drop c).take n = slice comp c n := by
  unfold slice
  rw [List.drop_append_of_le_length (by omega), List.take_append_of_le_length]
  rw [List.length_drop]
  omega

theorem DecodedDataStream.new_decoding {σ : Type} (dec : Decoder σ) (comp rest D : List Byte)
    (R : σ → Nat → Nat → Prop) (hdec : dec.DecodesTo comp D R)
    (uninitialized : DecoderState σ) :
    ∃ s, DecodedDataStream.new dec uninitialized (comp ++ rest) comp.length = .ok s ∧
      DecodedDataStream.Decoding comp rest D R s 0 0 := by
  obtain ⟨s1, h1⟩ := DecodedDataStream.readNextChunk_of_le
    ({ encodedDataStream_ := comp ++ rest, inputBytesLeft_ := comp.length,
       decoderState_ := uninitialized, encodedDataBuf_ := List.replicate BUF_SIZE 0 } :
      DecodedDataStream σ)
    (by simp only [List.length_append]; omega)
  obtain ⟨-, k2, k3, -, -, -, -, -, -⟩ := DecodedDataStream.readNextChunk_ok h1
  obtain ⟨b1, b2, b3⟩ := DecodedDataStream.readNextChunk_buf_length h1
    (Or.inl (List.length_replicate _ _))
  simp only at k2 k3 b1 b2 b3
  unfold DecodedDataStream.new
  rw [bind_of_ok h1]
  refine ⟨_, rfl, ?_⟩
  constructor
  · exact hdec.init _ _
  · simp only [b1, Nat.zero_add]
    omega
  · simp only [b1, Nat.zero_add]
    exact k2
  · simp only [b1, Nat.zero_add]
    exact k3
  · exact Nat.le_refl _
  · simp only [b1]
    rw [b2, List.take_take, Nat.min_self]
    have := slice_prefix_append comp rest 0 (min BUF_SIZE comp.length) (by omega)
    rw [List.drop_zero] at this
    exact this
  · exact b3
  · exact Nat.zero_le _

theorem DecodedDataStream.readNextChunk_decoding {σ : Type} {comp rest D : List Byte}
    {R : σ → Nat → Nat → Prop} {s : DecodedDataStream σ} {c p : Nat}
    (hs : DecodedDataStream.Decoding comp rest D R s c p)
    (h0 : s.decoderState_.avail_in = 0) (hl : s.inputBytesLeft_ ≠ 0) :
    ∃ s1, s.readNextChunk = .ok s1 ∧ DecodedDataStream.Decoding comp rest D R s1 c p ∧
      0 < s1.decoderState_.avail_in ∧
      s1.decoderState_.avail_out = s.decoderState_.avail_out ∧
      s1.decoderState_.next_out = s.decoderState_.next_out := by
  have hleft := hs.left
  have hcons := hs.consumed
  have hup := hs.upstream
  rw [h0, Nat.add_zero] at hleft hcons hup
  have hlen : s.encodedDataStream_.length = comp.length + rest.length - c := by
    rw [hup, List.length_drop, List.length_append]
  obtain ⟨s1, h1⟩ := DecodedDataStream.readNextChunk_of_le s (by omega)
  obtain ⟨-, k2, k3, -, k5, k6, k7, k8, k9⟩ := DecodedDataStream.readNextChunk_ok h1
  obtain ⟨b1, b2, b3⟩ := DecodedDataStream.readNextChunk_buf_length h1 hs.buf
  have hav : s1.decoderState_.avail_in = min BUF_SIZE s.inputBytesLeft_ := by rw [k6, b1]
  have hpos : 0 < min BUF_SIZE s.inputBytesLeft_ := by
    unfold BUF_SIZE
    omega
  refine ⟨s1, h1, ?_, by omega, k8, k7⟩
  constructor
  · rw [k9]
    exact hs.codec
  · rw [hav]
    omega
  · rw [hav, k2, hup, List.drop_drop]
  · rw [hav, k3]
    omega
  · rw [k6, k5]
  · rw [hav, k5, b2, List.take_take, Nat.min_self, hup]
    exact slice_prefix_append comp rest c _ (by omega)
  · exact b3
  · exact hs.produced

theorem DecodedDataStream.decodeMoreBytes_decoding {σ : Type} (dec : Decoder σ)
    {comp rest D : List Byte} {R : σ → Nat → Nat → Prop} (hdec : dec.DecodesTo comp D R)
    {s : DecodedDataStream σ} {c p : Nat}
    (hs : DecodedDataStream.Decoding comp rest D R s c p) :
    ∃ status s' dc dp, DecodedDataStream.decodeMoreBytes dec s = .ok (status, s') ∧
      DecodedDataStream.Decoding comp rest D R s' (c + dc) (p + dp) ∧
      c + dc ≤ comp.length ∧ dp ≤ s.decoderState_.avail_out ∧
      s'.decoderState_.avail_out = s.decoderState_.avail_out - dp ∧
      s'.decoderState_.next_out = s.decoderState_.next_out ++ slice D p dp ∧
      (0 < s.decoderState_.avail_out → p < D.length → 0 < dc + dp) := by
  -- the state `s1` on which the decoder runs, and the step
  have key : ∃ s1, (if s.decoderState_.avail_in = 0 ∧ s.inputBytesLeft_ ≠ 0 then s.readNextChunk
        else pure s) = .ok s1 ∧ DecodedDataStream.Decoding comp rest D R s1 c p ∧
      s1.decoderState_.avail_out = s.decoderState_.avail_out ∧
      s1.decoderState_.next_out = s.decoderState_.next_out ∧
      (s.stepOf = CompStep.FINISH → c + s1.decoderState_.avail_in = comp.length) ∧
      (0 < s1.decoderState_.avail_in ∨ s.stepOf = CompStep.FINISH) := by
    by_cases ha : s.decoderState_.avail_in = 0
    · by_cases hl : s.inputBytesLeft_ = 0
      · refine ⟨s, ?_, hs, rfl, rfl, ?_, Or.inr ?_⟩
        · rw [if_neg (by simp [hl])]
          rfl
        · intro _
          have := hs.left
          have := hs.consumed
          omega
        · unfold DecodedDataStream.stepOf
          rw [if_pos ⟨ha, hl⟩]
      · obtain ⟨s1, h1, hd1, hpos, ho, hn⟩ :=
          DecodedDataStream.readNextChunk_decoding hs ha hl
        refine ⟨s1, ?_, hd1, ho, hn, ?_, Or.inl hpos⟩
        · rw [if_pos ⟨ha, hl⟩]
          exact h1
        · intro hf
          unfold DecodedDataStream.stepOf at hf
          rw [if_neg (by simp [hl])] at hf
          cases hf
    · refine ⟨s, ?_, hs, rfl, rfl, ?_, Or.inl (by omega)⟩
      · rw [if_neg (by simp [ha])]
        rfl
      · intro hf
        unfold DecodedDataStream.stepOf at hf
        rw [if_neg (by simp [ha])] at hf
        cases hf
  obtain ⟨s1, h1, hd1, ho, hn, hfin, hprog⟩ := key
  obtain ⟨dc, dp, r1, r2, r3, r4, r5, r6, r7, r8, r9⟩ :=
    hdec.run s1.decoderState_ s.stepOf c p hd1.codec hd1.avail hd1.input hd1.consumed hfin
  refine ⟨(dec.stream_run_decode s1.decoderState_ s.stepOf).1,
    { s1 with decoderState_ := (dec.stream_run_decode s1.decoderState_ s.stepOf).2 },
    dc, dp, ?_, ?_, ?_, ?_, ?_, ?_, ?_⟩
  · rw [DecodedDataStream.decodeMoreBytes_eq, bind_of_ok h1]
    rfl
  · have hc1 := hd1.consumed
    have hu1 := hd1.upstream
    have hl1 := hd1.left
    have hi1 := hd1.input
    have ha1 := hd1.avail
    constructor
    · exact r8
    · simp only [r5]
      omega
    · simp only [r5]
      rw [hu1]
      congr 1
      omega
    · simp only [r5]
      rw [hl1]
      congr 1
      omega
    · simp only [r4, r5, List.length_drop]
      omega
    · simp only [r4, r5]
      have e1 : List.take (s1.decoderState_.avail_in - dc) (List.drop dc s1.decoderState_.next_in)
          = List.drop dc (List.take s1.decoderState_.avail_in s1.decoderState_.next_in) := by
        rw [List.drop_take]
      rw [e1, hi1]
      unfold slice
      rw [List.drop_take, List.drop_drop]
    · exact hd1.buf
    · exact r3
  · have := hd1.consumed
    omega
  · rw [← ho]
    exact r2
  · simp only [r7, ho]
  · simp only [r6, hn]
  · intro h1 h2
    exact r9 (by rw [ho]; exact h1) h2 hprog

/-- The loop of `readImpl` ends when the bytes asked for are there to
produce: it writes the next `avail_out` bytes of `D`. -/
theorem DecodedDataStream.readImpl_loop_decoding {σ : Type} (dec : Decoder σ)
    {comp rest D : List Byte} {R : σ → Nat → Nat → Prop} (hdec : dec.DecodesTo comp D R) :
    ∀ (fuel : Nat) (s : DecodedDataStream σ) (c p : Nat),
      DecodedDataStream.Decoding comp rest D R s c p →
      p + s.decoderState_.avail_out ≤ D.length →
      (comp.length - c) + s.decoderState_.avail_out ≤ fuel →
      ∃ s' c', DecodedDataStream.readImpl_loop dec fuel s = .ok (some s') ∧
        DecodedDataStream.Decoding comp rest D R s' c' (p + s.decoderState_.avail_out) ∧
        s'.decoderState_.next_out =
          s.decoderState_.next_out ++ slice D p s.decoderState_.avail_out := by
  intro fuel
  induction fuel with
  | zero =>
    intro s c p hs _ hfuel
    have h0 : s.decoderState_.avail_out = 0 := by omega
    refine ⟨s, c, ?_, ?_, ?_⟩
    · rw [DecodedDataStream.readImpl_loop, if_neg (by simp [h0])]
      rfl
    · rw [h0]
      exact hs
    · rw [h0]
      simp [slice]
  | succ fuel ih =>
    intro s c p hs hp hfuel
    by_cases h0 : s.decoderState_.avail_out = 0
    · refine ⟨s, c, ?_, ?_, ?_⟩
      · rw [DecodedDataStream.readImpl_loop, if_neg (by simp [h0])]
        rfl
      · rw [h0]
        exact hs
      · rw [h0]
        simp [slice]
    · obtain ⟨status, s1, dc, dp, hd, hs1, hc, hdp, ho, hn, hprog⟩ :=
        DecodedDataStream.decodeMoreBytes_decoding dec hdec hs
      have hpos := hprog (by omega) (by omega)
      obtain ⟨s', c', hl, hs', hn'⟩ := ih s1 (c + dc) (p + dp) hs1
        (by rw [ho]; omega) (by rw [ho]; omega)
      refine ⟨s', c', ?_, ?_, ?_⟩
      · rw [DecodedDataStream.readImpl_loop, if_pos h0, bind_of_ok hd]
        exact hl
      · have e : p + dp + s1.decoderState_.avail_out = p + s.decoderState_.avail_out := by
          rw [ho]
          omega
        rw [← e]
        exact hs'
      · rw [hn', hn, ho, List.append_assoc, slice_append_slice]
        congr 2
        omega

/-- The loop of `readImpl` does not end when more bytes are asked for than
are left to produce. -/
theorem DecodedDataStream.readImpl_loop_never {σ : Type} (dec : Decoder σ)
    {comp rest D : List Byte} {R : σ → Nat → Nat → Prop} (hdec : dec.DecodesTo comp D R) :
    ∀ (fuel : Nat) (s : DecodedDataStream σ) (c p : Nat),
      DecodedDataStream.Decoding comp rest D R s c p →
      D.length < p + s.decoderState_.avail_out →
      DecodedDataStream.readImpl_loop dec fuel s = .ok none := by
  intro fuel
  induction fuel with
  | zero =>
    intro s c p hs hp
    have := hs.produced
    rw [DecodedDataStream.readImpl_loop, if_pos (by omega)]
    rfl
  | succ fuel ih =>
    intro s c p hs hp
    have := hs.produced
    obtain ⟨status, s1, dc, dp, hd, hs1, -, hdp, ho, -, -⟩ :=
      DecodedDataStream.decodeMoreBytes_decoding dec hdec hs
    rw [DecodedDataStream.readImpl_loop, if_pos (by omega), bind_of_ok hd]
    exact ih s1 (c + dc) (p + dp) hs1 (by rw [ho]; omega)

theorem DecodedDataStream.Decoding.set_out {σ : Type} {comp rest D : List Byte}
    {R : σ → Nat → Nat → Prop} {s : DecodedDataStream σ} {c p : Nat}
    (hs : DecodedDataStream.Decoding comp rest D R s c p) (out : List Byte) (n : Nat) :
    DecodedDataStream.Decoding comp rest D R
      { s with decoderState_ := { s.decoderState_ with next_out := out, avail_out := n } }
      c p :=
  ⟨hs.codec, hs.consumed, hs.upstream, hs.left, hs.avail, hs.input, hs.buf, hs.produced⟩

theorem DecodedDataStream.readBlob_decoding {σ : Type} (dec : Decoder σ)
    {comp rest D : List Byte} {R : σ → Nat → Nat → Prop} (hdec : dec.DecodesTo comp D R)
    (fuel : Nat) (s : DecodedDataStream σ) (c p n : Nat)
    (hs : DecodedDataStream.Decoding comp rest D R s c p) (hp : p + n ≤ D.length)
    (hfuel : comp.length + D.length ≤ fuel) :
    ∃ s' c', DecodedDataStream.readBlob dec fuel s n = .ok (some (slice D p n, s')) ∧
      DecodedDataStream.Decoding comp rest D R s' c' (p + n) := by
  obtain ⟨s', c', hl, hs', hn⟩ := DecodedDataStream.readImpl_loop_decoding dec hdec fuel
    { s with decoderState_ := { s.decoderState_ with next_out := [], avail_out := n } } c p
    (hs.set_out [] n) hp (by
      show comp.length - c + n ≤ fuel
      omega)
  refine ⟨s', c', ?_, hs'⟩
  unfold DecodedDataStream.readBlob DecodedDataStream.readImpl
  rw [bind_of_ok hl]
  simp only [Option.map_some', pure, Except.pure]
  rw [hn]
  rfl

theorem DecodedDataStream.readBlob_never {σ : Type} (dec : Decoder σ)
    {comp rest D : List Byte} {R : σ → Nat → Nat → Prop} (hdec : dec.DecodesTo comp D R)
    (fuel : Nat) (s : DecodedDataStream σ) (c p n : Nat)
    (hs : DecodedDataStream.Decoding comp rest D R s c p) (hp : D.length < p + n) :
    DecodedDataStream.readBlob dec fuel s n = .ok none := by
  unfold DecodedDataStream.readBlob DecodedDataStream.readImpl
  rw [bind_of_ok (DecodedDataStream.readImpl_loop_never dec hdec fuel _ c p
    (hs.set_out [] n) hp)]
  rfl

theorem consecutiveSlices_drop (D : List Byte) (p n : Nat) (ns : List Nat) :
    consecutiveSlices (D.drop p) (n :: ns) =
      slice D p n :: consecutiveSlices (D.drop (p + n)) ns := by
  simp only [consecutiveSlices, slice]
  rw [List.drop_drop]

theorem DecodedDataStream.readBlobs_decoding {σ : Type} (dec : Decoder σ)
    {comp rest D : List Byte} {R : σ → Nat → Nat → Prop} (hdec : dec.DecodesTo comp D R)
    (fuel : Nat) (hfuel : comp.length + D.length ≤ fuel) :
    ∀ (ns : List Nat) (s : DecodedDataStream σ) (c p : Nat),
      DecodedDataStream.Decoding comp rest D R s c p → p + ns.sum ≤ D.length →
      ∃ s' c', DecodedDataStream.readBlobs dec fuel s ns =
          .ok (some (consecutiveSlices (D.drop p) ns, s')) ∧
        DecodedDataStream.Decoding comp rest D R s' c' (p + ns.sum) := by
  intro ns
  induction ns with
  | nil =>
    intro s c p hs _
    exact ⟨s, c, rfl, by simpa using hs⟩
  | cons n ns ih =>
    intro s c p hs hp
    rw [List.sum_cons] at hp
    obtain ⟨s1, c1, h1, hs1⟩ := DecodedDataStream.readBlob_decoding dec hdec fuel s c p n hs
      (by omega) hfuel
    obtain ⟨s', c', h2, hs'⟩ := ih s1 c1 (p + n) hs1 (by omega)
    refine ⟨s', c', ?_, ?_⟩
    · rw [DecodedDataStream.readBlobs, bind_of_ok h1]
      simp only
      rw [bind_of_ok h2, consecutiveSlices_drop]
      rfl
    · rw [List.sum_cons, ← Nat.add_assoc]
      exact hs'

theorem storedDecoder_decodesTo (D : List Byte) :
    storedDecoder.DecodesTo D D (fun _ c p => c = p) := by
  constructor
  · intro st raw
    rfl
  · intro st step c p hR hav hin hc hfin
    have hcp : c = p := hR
    subst hcp
    refine ⟨min st.avail_in st.avail_out, min st.avail_in st.avail_out, Nat.min_le_left _ _,
      Nat.min_le_right _ _, ?_, rfl, rfl, ?_, rfl, rfl, ?_⟩
    · have := Nat.min_le_left st.avail_in st.avail_out
      omega
    · show st.next_out ++ st.next_in.take (min st.avail_in st.avail_out) =
        st.next_out ++ slice D c (min st.avail_in st.avail_out)
      have e : st.next_in.take (min st.avail_in st.avail_out) =
          (st.next_in.take st.avail_in).take (min st.avail_in st.avail_out) := by
        rw [List.take_take]
        congr 1
        omega
      rw [e, hin]
      unfold slice
      rw [List.take_take]
      congr 2
      omega
    · intro ho hp hprog
      rcases hprog with h | h
      · omega
      · have := hfin h
        omega

theorem SubBuffer.new_ok_iff (parent : Buffer) (offset size : Nat) :
    (∃ b, SubBuffer.new parent offset size = .ok b) ↔
      offset ≤ parent.size ∧ (offset + size) % 2 ^ 64 ≤ parent.size := by
  constructor
  · rintro ⟨b, hb⟩
    unfold SubBuffer.new at hb
    obtain ⟨_, h1, hb⟩ := bind_ok hb
    obtain ⟨_, h2, _⟩ := bind_ok hb
    exact ⟨ASSERT_ok h1, ASSERT_ok h2⟩
  · rintro ⟨h1, h2⟩
    refine ⟨{ size_ := size, _data := parent.data offset }, ?_⟩
    unfold SubBuffer.new
    rw [bind_of_ok (ASSERT_of h1), bind_of_ok (ASSERT_of h2)]
    rfl

theorem IDataStream.read_four (a b c d : Byte) (rest : IDataStream) :
    IDataStream.read 4 (a :: b :: c :: d :: rest) = .ok (fromLittleEndian [a, b, c, d], rest) := by
  unfold IDataStream.read IDataStream.readImpl
  rw [if_pos (by simp)]
  rfl

theorem IDataStream.read_nil (w : Nat) (hw : 0 < w) :
    IDataStream.read w [] = .error .assertion := by
  unfold IDataStream.read IDataStream.readImpl
  rw [if_neg (by simp; omega)]
  rfl

theorem CompressedCluster.readHeader_loop_succ (w startOffset cnt offset : Nat)
    (offsets : List Nat) (ds : IDataStream) :
    CompressedCluster.readHeader_loop w startOffset (cnt + 1) offset offsets ds =
      (IDataStream.read w ds >>= fun r =>
        ASSERT (r.1 ≥ offset) >>= fun _ =>
          CompressedCluster.readHeader_loop w startOffset cnt r.1
            (offsets ++ [(r.1 + 2 ^ 64 - startOffset) % 2 ^ 64]) r.2) := by
  rw [CompressedCluster.readHeader_loop]

theorem CompressedCluster.readHeader_loop_two (n : Nat) (rest : IDataStream) :
    CompressedCluster.readHeader_loop 4 0 (n + 1 + 1) 0 [0]
        (5 :: 0 :: 0 :: 0 :: 9 :: 0 :: 0 :: 0 :: rest) =
      CompressedCluster.readHeader_loop 4 0 n 9 [0, 5, 9] rest := by
  have e5 : fromLittleEndian [(5 : Byte), 0, 0, 0] = 5 := by decide
  have e9 : fromLittleEndian [(9 : Byte), 0, 0, 0] = 9 := by decide
  rw [CompressedCluster.readHeader_loop_succ, bind_of_ok (IDataStream.read_four 5 0 0 0 _)]
  simp only [e5]
  rw [bind_of_ok (ASSERT_of (show (5 : Nat) ≥ 0 by decide))]
  rw [CompressedCluster.readHeader_loop_succ, bind_of_ok (IDataStream.read_four 9 0 0 0 _)]
  simp only [e9]
  rw [bind_of_ok (ASSERT_of (show (9 : Nat) ≥ 5 by decide))]
  have a1 : (5 + 2 ^ 64 - 0) % 2 ^ 64 = 5 := by norm_num
  have a2 : (9 + 2 ^ 64 - 0) % 2 ^ 64 = 9 := by norm_num
  rw [a1, a2]
  rfl

/-- When every `getDirent(i)` returns and the dirents are sorted by namespace,
the loop of `getNamespaces` ends within `N` rounds with the strictly increasing
string of the namespaces present. -/
theorem FileImpl.getNamespaces_of_readable (f : FileImpl) (ds : Nat → Dirent)
    (hN : 0 < f.getCountArticles)
    (hd : ∀ i, i < f.getCountArticles → f.getDirent i = .ok (ds i))
    (hsorted : ∀ j, j < f.getCountArticles → ∀ i, i ≤ j →
      (ds i).getNamespace ≤ (ds j).getNamespace) :
    ∃ s : List Byte,
      (∀ fuel, f.getCountArticles ≤ fuel → f.getNamespaces fuel = .ok (some s)) ∧
      s.Pairwise (· < ·) ∧ s.Nodup ∧
      (∀ c, c ∈ s ↔ ∃ i, i < f.getCountArticles ∧ (ds i).getNamespace = c) := by
  obtain ⟨rest, hrest, hpw, hmem⟩ :=
    FileImpl.getNamespaces_loop_spec f ds hd hsorted f.getCountArticles 0 hN (by omega)
  have hpw' : ((ds 0).getNamespace :: rest).Pairwise (· < ·) := by
    rw [List.pairwise_cons]
    exact ⟨fun c hc => ((hmem c).mp hc).choose_spec.2.2, hpw⟩
  refine ⟨(ds 0).getNamespace :: rest, ?_, hpw', ?_, ?_⟩
  · intro fuel hfuel
    unfold FileImpl.getNamespaces
    rw [bind_of_ok (hd 0 hN), hrest fuel _ (by omega)]
    rfl
  · exact hpw'.imp (fun h => ne_of_lt h)
  · intro c
    rw [List.mem_cons]
    constructor
    · rintro (rfl | hc)
      · exact ⟨0, hN, rfl⟩
      · obtain ⟨i, hi, hic, -⟩ := (hmem c).mp hc
        exact ⟨i, hi, hic⟩
    · rintro ⟨i, hi, hic⟩
      have hle := hsorted i hi 0 (Nat.zero_le _)
      rw [hic] at hle
      rcases eq_or_lt_of_le hle with heq | hlt
      · exact Or.inl heq.symm
      · exact Or.inr ((hmem c).mpr ⟨i, hi, hic, hlt⟩)

/-- The check of the checksum position in the constructor: a constructed
archive with a checksum has it at `fileSize - 16`; a header with the checksum
elsewhere never gives an archive, gives "Checksum position is not valid" when
the check is reached, and gives some `ZimFileFormatError` when the 32-bit
product `clusterCount * 8` does not wrap. -/
theorem FileImpl.new_checksum_cases (env : Codecs)
    (rh : Buffer → Except Error Fileheader) (zf : List Byte) (hsz : zf.length < 2 ^ 64) :
    (∀ f, FileImpl.new env rh zf = .ok f → f.header.hasChecksum = true →
      16 ≤ zf.length ∧ f.header.checksumPos = zf.length - 16) ∧
    (∀ header tables, Fileheader.size ≤ zf.length →
      FileImpl.readHeader rh { offset := 0, bytes := zf } = .ok header →
      FileImpl.new_tables { offset := 0, bytes := zf } header = .ok tables →
      FileImpl.new_lastOffset { offset := 0, bytes := zf } header tables.2.2 = .ok () →
      header.hasChecksum = true → header.checksumPos ≠ zf.length - 16 →
      FileImpl.new env rh zf = .error (.ZimFileFormatError "Checksum position is not valid")) ∧
    (∀ header, FileImpl.readHeader rh { offset := 0, bytes := zf } = .ok header →
      header.clusterCount * 8 < 2 ^ 32 →
      header.hasChecksum = true → header.checksumPos ≠ zf.length - 16 →
      ∃ msg, FileImpl.new env rh zf = .error (.ZimFileFormatError msg)) ∧
    (∀ header, FileImpl.readHeader rh { offset := 0, bytes := zf } = .ok header →
      header.hasChecksum = true → header.checksumPos ≠ zf.length - 16 →
      ∃ e, FileImpl.new env rh zf = .error e) := by
  have key : ∀ f, FileImpl.new env rh zf = .ok f → f.header.hasChecksum = true →
      16 ≤ zf.length ∧ f.header.checksumPos = zf.length - 16 := by
    intro f hf hc
    obtain ⟨-, hs, hk⟩ := FileImpl.readHeader_eq_of_new hf
    have hpos := FileImpl.new_checksum_ok hk hc
    have hs' : 80 ≤ zf.length := hs
    have hsize : Reader.size { offset := 0, bytes := zf } = zf.length := rfl
    rw [hsize] at hpos
    refine ⟨by omega, ?_⟩
    rw [hpos]
    omega
  have reached : ∀ header tables, Fileheader.size ≤ zf.length →
      FileImpl.readHeader rh { offset := 0, bytes := zf } = .ok header →
      FileImpl.new_tables { offset := 0, bytes := zf } header = .ok tables →
      FileImpl.new_lastOffset { offset := 0, bytes := zf } header tables.2.2 = .ok () →
      header.hasChecksum = true → header.checksumPos ≠ zf.length - 16 →
      FileImpl.new env rh zf =
        .error (.ZimFileFormatError "Checksum position is not valid") := by
    intro header tables hs hh ht hl hc hne
    have hs' : 80 ≤ zf.length := hs
    have hk : FileImpl.new_checksum { offset := 0, bytes := zf } header =
        .error (.ZimFileFormatError "Checksum position is not valid") := by
      unfold FileImpl.new_checksum
      refine if_pos ⟨hc, ?_⟩
      have hsize : Reader.size { offset := 0, bytes := zf } = zf.length := rfl
      rw [hsize]
      omega
    unfold FileImpl.new
    rw [FileImpl.new_checked_of
      (show Fileheader.size ≤ Reader.size { offset := 0, bytes := zf } from hs) hh ht hl,
      bind_of_error hk, bind_of_error rfl]
  refine ⟨key, reached, ?_, ?_⟩
  · intro header hh hcount hc hne
    by_cases hs : Fileheader.size ≤ zf.length
    · cases ht : FileImpl.new_tables { offset := 0, bytes := zf } header with
      | error e =>
        obtain ⟨msg, rfl⟩ := FileImpl.new_tables_error ht
        refine ⟨msg, ?_⟩
        unfold FileImpl.new FileImpl.new_checked
        rw [if_neg (show ¬ (Reader.size { offset := 0, bytes := zf } < Fileheader.size) from
          Nat.not_lt.mpr hs), bind_of_ok hh, bind_of_error ht, bind_of_error rfl]
      | ok tables =>
        cases hl : FileImpl.new_lastOffset { offset := 0, bytes := zf } header tables.2.2 with
        | error e =>
          obtain ⟨msg, rfl⟩ := FileImpl.new_lastOffset_error ht hcount hl
          refine ⟨msg, ?_⟩
          unfold FileImpl.new FileImpl.new_checked
          rw [if_neg (show ¬ (Reader.size { offset := 0, bytes := zf } < Fileheader.size) from
            Nat.not_lt.mpr hs), bind_of_ok hh, bind_of_ok ht, bind_of_error hl,
            bind_of_error rfl]
        | ok u =>
          exact ⟨_, reached header tables hs hh ht hl hc hne⟩
    · refine ⟨"zim-file is too small to contain a header", ?_⟩
      unfold FileImpl.new FileImpl.new_checked
      rw [if_pos (show Reader.size { offset := 0, bytes := zf } < Fileheader.size from
        Nat.lt_of_not_le hs), bind_of_error rfl]
  · intro header hh hc hne
    cases hnew : FileImpl.new env rh zf with
    | error e => exact ⟨e, rfl⟩
    | ok f =>
      exfalso
      obtain ⟨hh', -, -⟩ := FileImpl.readHeader_eq_of_new hnew
      rw [hh] at hh'
      have heq : header = f.header := by injection hh'
      subst heq
      exact hne (key f hnew hc).2

/-! ## The claims -/

set_option maxRecDepth 100000

/-- C1: for an uncompressed cluster that `Cluster::read` parses from the body
`B` (the bytes after the info byte) with raw table entries `r_0 = F, r_1, ...`,
and every blob index `i` below the blob count: the data region starts `F`
bytes into the body, `offsets[i] = r_i - F`, and `getBlob(i)` returns exactly
the bytes `B[r_i, r_{i+1})`. -/
theorem Cluster.getBlob_eq_body_slice (env : Codecs) (zr : Reader) (off : Nat) (c : Cluster)
    (h : Cluster.read env zr off = .ok (.plain c)) (i : Nat) (hi : i < c.count) :
    c.startOffset = rawEntry (sizeofOffset c.isExtended) (clusterBody zr off) 0 ∧
    c.reader.bytes = slice (clusterBody zr off) c.startOffset (c.offsets.getLastD 0) ∧
    c.offsets.getD i 0 =
      rawEntry (sizeofOffset c.isExtended) (clusterBody zr off) i - c.startOffset ∧
    c.offsets.getD (i + 1) 0 =
      rawEntry (sizeofOffset c.isExtended) (clusterBody zr off) (i + 1) - c.startOffset ∧
    c.startOffset ≤ rawEntry (sizeofOffset c.isExtended) (clusterBody zr off) i ∧
    rawEntry (sizeofOffset c.isExtended) (clusterBody zr off) i ≤
      rawEntry (sizeofOffset c.isExtended) (clusterBody zr off) (i + 1) ∧
    rawEntry (sizeofOffset c.isExtended) (clusterBody zr off) (i + 1) ≤
      (clusterBody zr off).length ∧
    c.getBlob i = .ok (slice (clusterBody zr off)
      (rawEntry (sizeofOffset c.isExtended) (clusterBody zr off) i)
      (rawEntry (sizeofOffset c.isExtended) (clusterBody zr off) (i + 1) -
        rawEntry (sizeofOffset c.isExtended) (clusterBody zr off) i)) := by
  obtain ⟨b, _, _, hnew⟩ := Cluster.read_plain_ok h
  obtain ⟨hext, hF, _, _, _, _, hrd, _⟩ := Cluster.new_ok hnew
  obtain ⟨_, g0, g1, b0, m01, b1, _, _, hblob⟩ := Cluster.blob_ok hnew i hi
  rw [hext]
  refine ⟨hF, ?_, g0, g1, b0, m01, b1, hblob⟩
  rw [hrd]

/-- C1 at the example file: blob 1 of the example cluster is the body slice
`[14, 17)`, the bytes `abc`. -/
theorem Cluster.getBlob_eq_body_slice_witness :
    Cluster.read (idCodecs true) exampleFile 0 = .ok (.plain exampleCluster) ∧
    1 < exampleCluster.count ∧
    exampleCluster.getBlob 1 = .ok (slice (clusterBody exampleFile 0)
      (rawEntry (sizeofOffset exampleCluster.isExtended) (clusterBody exampleFile 0) 1)
      (rawEntry (sizeofOffset exampleCluster.isExtended) (clusterBody exampleFile 0) (1 + 1) -
        rawEntry (sizeofOffset exampleCluster.isExtended) (clusterBody exampleFile 0) 1)) ∧
    slice (clusterBody exampleFile 0)
      (rawEntry (sizeofOffset exampleCluster.isExtended) (clusterBody exampleFile 0) 1)
      (rawEntry (sizeofOffset exampleCluster.isExtended) (clusterBody exampleFile 0) (1 + 1) -
        rawEntry (sizeofOffset exampleCluster.isExtended) (clusterBody exampleFile 0) 1)
      = [97, 98, 99] :=
  ⟨by decide, by decide,
    (Cluster.getBlob_eq_body_slice (idCodecs true) exampleFile 0 exampleCluster
      (by decide) 1 (by decide)).2.2.2.2.2.2.2,
    by decide⟩

/-- C2: for a cluster header whose first offset `F` is at least one offset
width `w` (8 when extended, 4 otherwise), header parsing stores exactly
`F / w` offsets, so the blob count is `F / w - 1`; this holds for
`Cluster::read_header` and for `CompressedCluster::readHeader`. -/
theorem header_stores_F_div_w_offsets (isExtended : Bool) :
    (∀ (reader : Reader) (offsets : List Nat) (F : Nat),
      Cluster.read_header (sizeofOffset isExtended) reader = .ok (offsets, F) →
      sizeofOffset isExtended ≤ F →
      F = rawEntry (sizeofOffset isExtended) reader.bytes 0 ∧
      offsets.length = F / sizeofOffset isExtended ∧
      countOf offsets = F / sizeofOffset isExtended - 1) ∧
    (∀ (ds ds1 : IDataStream) (offsets : List Nat) (F : Nat),
      CompressedCluster.readHeader (sizeofOffset isExtended) ds = .ok (F, offsets, ds1) →
      sizeofOffset isExtended ≤ F →
      F = rawEntry (sizeofOffset isExtended) ds 0 ∧
      offsets.length = F / sizeofOffset isExtended ∧
      countOf offsets = F / sizeofOffset isExtended - 1) := by
  have hw0 := sizeofOffset_pos isExtended
  have hw8 := sizeofOffset_le isExtended
  constructor
  · intro reader offsets F h _
    obtain ⟨hF, _, _, hoffs, _, _⟩ := Cluster.read_header_ok hw0 hw8 h
    have hlen : offsets.length = F / sizeofOffset isExtended := by
      rw [hoffs]; simp
    exact ⟨hF, hlen, by unfold countOf; rw [hlen]⟩
  · intro ds ds1 offsets F h hwF
    obtain ⟨_, hF, hl⟩ := CompressedCluster.readHeader_ok h
    have hF1 : F = fromLittleEndian (ds.take (sizeofOffset isExtended)) := hF
    have hF64 : F < 2 ^ 64 := by
      rw [hF1]; exact fromLittleEndian_take_lt _ _ hw8
    have hn1 : 1 ≤ F / sizeofOffset isExtended := (Nat.one_le_div_iff hw0).mpr hwF
    have hn2 : F / sizeofOffset isExtended < 2 ^ 64 :=
      Nat.lt_of_le_of_lt (Nat.div_le_self _ _) hF64
    have hlen := CompressedCluster.readHeader_loop_length _ _ _ _ _ _ _ hl
    have hlen2 : offsets.length = [0].length + loopCount (F / sizeofOffset isExtended) := hlen
    rw [loopCount_eq _ hn1 hn2] at hlen2
    have hlen3 : offsets.length = F / sizeofOffset isExtended := by
      rw [hlen2]; simp only [List.length_singleton]; omega
    refine ⟨?_, hlen3, by unfold countOf; rw [hlen3]⟩
    rw [hF1]
    unfold rawEntry slice
    simp

/-- C2 at the example headers: the table `12, 14, 17` in 32-bit entries gives
three stored offsets in both parsers. -/
theorem header_stores_F_div_w_offsets_witness :
    (Cluster.read_header (sizeofOffset false) exampleBody = .ok ([0, 2, 5], 12) ∧
      sizeofOffset false ≤ 12 ∧ [0, 2, 5].length = 12 / sizeofOffset false) ∧
    (CompressedCluster.readHeader (sizeofOffset false) exampleBody.bytes =
        .ok (12, [0, 2, 5], [104, 105, 97, 98, 99]) ∧
      sizeofOffset false ≤ 12 ∧ [0, 2, 5].length = 12 / sizeofOffset false) :=
  ⟨⟨by decide, by decide,
      ((header_stores_F_div_w_offsets false).1 exampleBody [0, 2, 5] 12
        (by decide) (by decide)).2.1⟩,
    ⟨by decide, by decide,
      ((header_stores_F_div_w_offsets false).2 exampleBody.bytes [104, 105, 97, 98, 99]
        [0, 2, 5] 12 (by decide) (by decide)).2.1⟩⟩

/-- C3: when header parsing of an uncompressed cluster succeeds, the stored
offsets start at 0, are non-decreasing, and the last one is at most the number
of bytes available after the offset table; a header whose table breaks
monotonicity or holds an entry beyond the reader size is rejected. -/
theorem Cluster.read_header_invariant (isExtended : Bool) (reader : Reader) :
    (∀ (offsets : List Nat) (F : Nat),
      Cluster.read_header (sizeofOffset isExtended) reader = .ok (offsets, F) →
      offsets.head? = some 0 ∧
      offsets.Pairwise (fun a b => a ≤ b) ∧
      offsets.getLastD 0 ≤ reader.size - F) ∧
    (∀ i, i + 1 < rawEntry (sizeofOffset isExtended) reader.bytes 0 / sizeofOffset isExtended →
      (rawEntry (sizeofOffset isExtended) reader.bytes (i + 1) <
          rawEntry (sizeofOffset isExtended) reader.bytes i ∨
        reader.size < rawEntry (sizeofOffset isExtended) reader.bytes (i + 1)) →
      ∃ e, Cluster.read_header (sizeofOffset isExtended) reader = .error e) := by
  have hw0 := sizeofOffset_pos isExtended
  have hw8 := sizeofOffset_le isExtended
  constructor
  · intro offsets F h
    obtain ⟨hF, hwF, hFsz, hoffs, hbound, hmono⟩ := Cluster.read_header_ok hw0 hw8 h
    have hn1 : 1 ≤ F / sizeofOffset isExtended := (Nat.one_le_div_iff hw0).mpr hwF
    have hall := steps_mono _ _ hmono
    refine ⟨?_, ?_, ?_⟩
    · rw [hoffs]
      have hsplit : F / sizeofOffset isExtended = (F / sizeofOffset isExtended - 1) + 1 := by
        omega
      rw [hsplit, List.range_succ_eq_map]
      simp only [List.map_cons, List.head?_cons]
      rw [← hF, Nat.sub_self]
    · rw [hoffs]
      apply pairwise_le_map_range
      intro i j hij hj
      exact Nat.sub_le_sub_right (hall j i hij hj) F
    · rw [hoffs, getLastD_map_range _ _ (by omega)]
      have := (hbound (F / sizeofOffset isExtended - 1) (by omega)).2
      omega
  · intro i hi hbad
    cases hres : Cluster.read_header (sizeofOffset isExtended) reader with
    | error e => exact ⟨e, rfl⟩
    | ok r =>
      exfalso
      obtain ⟨offsets, F⟩ := r
      obtain ⟨hF, _, _, _, hbound, hmono⟩ := Cluster.read_header_ok hw0 hw8 hres
      rw [← hF] at hi
      have h1 := hmono i hi
      have h2 := (hbound (i + 1) hi).2
      omega

/-- C3 at the example body, and at a body whose second entry (13) is below the
first (14 after the leading 12): the first is parsed, the second rejected. -/
theorem Cluster.read_header_invariant_witness :
    (Cluster.read_header (sizeofOffset false) exampleBody = .ok ([0, 2, 5], 12) ∧
      [0, 2, 5].getLastD 0 ≤ exampleBody.size - 12) ∧
    (1 + 1 < rawEntry (sizeofOffset false) nonMonotoneBody.bytes 0 / sizeofOffset false ∧
      rawEntry (sizeofOffset false) nonMonotoneBody.bytes (1 + 1) <
        rawEntry (sizeofOffset false) nonMonotoneBody.bytes 1 ∧
      ∃ e, Cluster.read_header (sizeofOffset false) nonMonotoneBody = .error e) :=
  ⟨⟨by decide,
      ((Cluster.read_header_invariant false exampleBody).1 [0, 2, 5] 12 (by decide)).2.2⟩,
    ⟨by decide, by decide,
      (Cluster.read_header_invariant false nonMonotoneBody).2 1 (by decide)
        (Or.inl (by decide))⟩⟩

/-- C4: in a successfully constructed uncompressed cluster the blob ranges
tile the data region: the first offset is 0, each blob ends where the next
starts, and the blob sizes add up to the size of the data sub-reader, which is
`offsets.back()`. -/
theorem Cluster.blobs_tile_data_region (rd : Reader) (ext : Bool) (c : Cluster)
    (h : Cluster.new rd ext = .ok c) :
    c.offsets.getD 0 0 = 0 ∧
    (∀ i, i < c.count → c.offsets.getD i 0 + c.getBlobSize i = c.offsets.getD (i + 1) 0) ∧
    ((List.range c.count).map c.getBlobSize).sum = c.reader.size ∧
    c.reader.size = c.offsets.getLastD 0 := by
  obtain ⟨_, hF, hwF, hoffs, hbound, hmono, hrd, hsz⟩ := Cluster.new_ok h
  have hw0 := sizeofOffset_pos ext
  have hn1 : 1 ≤ c.startOffset / sizeofOffset ext := (Nat.one_le_div_iff hw0).mpr hwF
  have h0 : c.offsets.getD 0 0 = 0 := by
    conv_lhs => rw [hoffs]
    rw [getD_map_range _ _ 0 (by omega), ← hF, Nat.sub_self]
  have hstep : ∀ i, i < c.count →
      c.offsets.getD i 0 + c.getBlobSize i = c.offsets.getD (i + 1) 0 := by
    intro i hi
    obtain ⟨_, g0, g1, b0, m01, _, _, hsize, _⟩ := Cluster.blob_ok h i hi
    rw [g0, g1, hsize]
    omega
  have hsum : ∀ k, k ≤ c.count →
      ((List.range k).map c.getBlobSize).sum = c.offsets.getD k 0 := by
    intro k
    induction k with
    | zero => intro _; rw [h0]; rfl
    | succ k ih =>
      intro hk
      rw [sum_range_succ_map, ih (by omega), hstep k (by omega)]
  have hsize : c.reader.size = c.offsets.getLastD 0 := by
    rw [hrd]
    unfold Reader.size at hsz ⊢
    simp only [slice_length]
    omega
  have hcount : c.count = c.startOffset / sizeofOffset ext - 1 := by
    unfold Cluster.count countOf
    rw [hoffs]; simp
  have hlast : c.offsets.getLastD 0 = c.offsets.getD c.count 0 := by
    rw [hcount]
    conv_lhs => rw [hoffs]
    conv_rhs => rw [hoffs]
    rw [getLastD_map_range _ _ (by omega), getD_map_range _ _ _ (by omega)]
  exact ⟨h0, hstep, by rw [hsum c.count (Nat.le_refl _), hsize, hlast], hsize⟩

/-- C4 at the example cluster: the blobs of sizes 2 and 3 fill the five data
bytes. -/
theorem Cluster.blobs_tile_data_region_witness :
    Cluster.new exampleBody false = .ok exampleCluster ∧
    ((List.range exampleCluster.count).map exampleCluster.getBlobSize).sum =
      exampleCluster.reader.size ∧
    exampleCluster.reader.size = 5 :=
  ⟨by decide,
    (Cluster.blobs_tile_data_region exampleBody false exampleCluster (by decide)).2.2.1,
    by decide⟩

/-- C5: in an uncompressed cluster, for a blob index below the blob count and
every offset `off` and length `n`: `getBlob(i, off, n)` returns the bytes
`getBlob(i)[off : off + min(n, blobSize - off)]` when `off <= blobSize` and an
empty blob when `off > blobSize`; `getBlob(i, 0, blobSize)` equals
`getBlob(i)`. -/
theorem Cluster.getBlobAt_eq_slice_of_getBlob (rd : Reader) (ext : Bool) (c : Cluster)
    (h : Cluster.new rd ext = .ok c) (i : Nat) (hi : i < c.count) (off n : Nat) :
    ∃ blob, c.getBlob i = .ok blob ∧ blob.length = c.getBlobSize i ∧
      (off ≤ c.getBlobSize i →
        c.getBlobAt i off n = .ok (slice blob off (min n (c.getBlobSize i - off)))) ∧
      (c.getBlobSize i < off → c.getBlobAt i off n = .ok []) ∧
      c.getBlobAt i 0 (c.getBlobSize i) = .ok blob := by
  obtain ⟨_, hF, hwF, hoffs, hbound, hmono, hrd, hsz⟩ := Cluster.new_ok h
  obtain ⟨_, g0, g1, b0, m01, b1, hl, hsize, hblob⟩ := Cluster.blob_ok h i hi
  have hw8 := sizeofOffset_le ext
  have l1 := rawEntry_lt (sizeofOffset ext) rd.bytes (i + 1) hw8
  have hlen : (slice rd.bytes (rawEntry (sizeofOffset ext) rd.bytes i)
      (rawEntry (sizeofOffset ext) rd.bytes (i + 1) -
        rawEntry (sizeofOffset ext) rd.bytes i)).length = c.getBlobSize i := by
    rw [slice_length, hsize]
    unfold Reader.size at b1
    omega
  have hrsz : c.reader.size = c.offsets.getLastD 0 := by
    rw [hrd]
    unfold Reader.size at hsz ⊢
    simp only [slice_length]
    omega
  -- the general case, for an offset inside the blob
  have hin : ∀ o m, o ≤ c.getBlobSize i →
      c.getBlobAt i o m = .ok (slice (slice rd.bytes (rawEntry (sizeofOffset ext) rd.bytes i)
        (rawEntry (sizeofOffset ext) rd.bytes (i + 1) -
          rawEntry (sizeofOffset ext) rd.bytes i)) o (min m (c.getBlobSize i - o))) := by
    intro o m ho
    unfold Cluster.getBlobAt
    rw [if_pos hi, if_neg (by omega)]
    have e1 : (c.getBlobSize i + 2 ^ 64 - o) % 2 ^ 64 = c.getBlobSize i - o := by
      rw [hsize] at ho ⊢
      omega
    rw [e1]
    have hmax : ¬ (min m (c.getBlobSize i - o) > SIZE_MAX) := by
      unfold SIZE_MAX
      rw [hsize]
      omega
    rw [if_neg hmax]
    have e2 : (o + c.offsets.getD i 0) % 2 ^ 64 =
        rawEntry (sizeofOffset ext) rd.bytes i - c.startOffset + o := by
      rw [g0]
      rw [hsize] at ho
      omega
    rw [e2]
    unfold Reader.get_buffer
    have hfit : rawEntry (sizeofOffset ext) rd.bytes i - c.startOffset + o +
        min m (c.getBlobSize i - o) ≤ c.offsets.getLastD 0 := by
      rw [g1] at hl
      rw [hsize] at ho ⊢
      omega
    rw [if_pos (by rw [hrsz]; exact hfit), hrd]
    simp only
    rw [slice_slice _ _ _ _ _ hfit, slice_slice _ _ _ _ _ (by rw [hsize]; omega)]
    congr 2
    omega
  refine ⟨_, hblob, hlen, fun ho => hin off n ho, ?_, ?_⟩
  · intro hgt
    unfold Cluster.getBlobAt
    rw [if_pos hi, if_pos hgt]
    rfl
  · rw [hin 0 (c.getBlobSize i) (Nat.zero_le _)]
    congr 1
    unfold slice
    rw [List.drop_zero, Nat.sub_zero, Nat.min_self]
    apply List.take_of_length_le
    exact Nat.le_of_eq hlen

/-- C5 at the example cluster: `getBlob(1, 1, 5)` is `bc`, the tail of `abc`
clamped to the two remaining bytes. -/
theorem Cluster.getBlobAt_eq_slice_of_getBlob_witness :
    Cluster.new exampleBody false = .ok exampleCluster ∧ 1 < exampleCluster.count ∧
    (∃ blob, exampleCluster.getBlob 1 = .ok blob ∧
      blob.length = exampleCluster.getBlobSize 1 ∧
      (1 ≤ exampleCluster.getBlobSize 1 →
        exampleCluster.getBlobAt 1 1 5 =
          .ok (slice blob 1 (min 5 (exampleCluster.getBlobSize 1 - 1)))) ∧
      (exampleCluster.getBlobSize 1 < 1 → exampleCluster.getBlobAt 1 1 5 = .ok []) ∧
      exampleCluster.getBlobAt 1 0 (exampleCluster.getBlobSize 1) = .ok blob) ∧
    exampleCluster.getBlobAt 1 1 5 = .ok [98, 99] :=
  ⟨by decide, by decide,
    Cluster.getBlobAt_eq_slice_of_getBlob exampleBody false exampleCluster (by decide) 1
      (by decide) 1 5,
    by decide⟩

/-- C6 (the code at the failing inputs): in the compressed cluster with the
blobs `alpha` and `beta`, `getBlob(1, 1, 2)` is `et`, but `getBlob(1, 1, 10)`
is not clamped to the three remaining bytes: the assertion
`offset_ + size_ <= blob_.size()` fails; and `getBlob(1, 4, 0)`, with
`off = blobSize`, fails the assertion `offset_ < blob_.size()`. -/
theorem CompressedCluster.getBlobAt_not_clamped :
    CompressedCluster.new (BufferReader alphaBetaBody) zimcompLzma false =
      .ok alphaBetaCluster ∧
    alphaBetaCluster.getBlob 1 = .ok [98, 101, 116, 97] ∧
    alphaBetaCluster.getBlobSize 1 = 4 ∧
    alphaBetaCluster.getBlobAt 1 1 2 = .ok [101, 116] ∧
    alphaBetaCluster.getBlobAt 1 1 10 = .error .assertion ∧
    alphaBetaCluster.getBlobAt 1 4 0 = .error .assertion := by
  decide

/-- C7 (the code at the failing input): over the body with one zero-length
blob, the uncompressed cluster has one blob and `getBlob(0)` returns the empty
blob, while the compressed cluster built over the same decoded bytes has one
blob and `getBlob(0)` fails the assertion `offset_ < blob_.size()`. -/
theorem CompressedCluster.getBlob_fails_on_empty_blob :
    (Cluster.new (BufferReader emptyBlobBody) false >>= fun c => pure c.count) = .ok 1 ∧
    (Cluster.new (BufferReader emptyBlobBody) false >>= fun c => c.getBlob 0) = .ok [] ∧
    (CompressedCluster.new (BufferReader emptyBlobBody) zimcompLzma false >>=
      fun c => pure c.count) = .ok 1 ∧
    (CompressedCluster.new (BufferReader emptyBlobBody) zimcompLzma false >>=
      fun c => c.getBlob 0) = .error .assertion := by
  decide

/-- C8, the claim as stated fails: in a build without zlib, the info byte 2
(low nibble 2) over a stream that decodes to a well-formed cluster body does
not give a `CompressedCluster`; `Cluster::read` fails with the runtime error
"zlib not enabled in this library". -/
theorem Cluster.read_zip_without_zlib :
    zipFile.read 0 = .ok 2 ∧ (2 : Byte).val &&& 0x0F = 2 ∧
    (CompressedCluster.new (BufferReader (clusterBody zipFile 0)) zimcompZip false >>=
      fun c => pure c.count) = .ok 2 ∧
    Cluster.read (idCodecs false) zipFile 0 =
      .error (.runtime_error "zlib not enabled in this library") ∧
    ¬ ∃ c, Cluster.read (idCodecs false) zipFile 0 = .ok (.compressed c) := by
  refine ⟨by decide, by decide, by decide, by decide, ?_⟩
  rintro ⟨c, hc⟩
  have h : Cluster.read (idCodecs false) zipFile 0 =
      .error (.runtime_error "zlib not enabled in this library") := by decide
  rw [h] at hc
  exact error_ne_ok hc

/-- C8 as amended: for the info byte `b` at the cluster offset, with
compression nibble `b % 16` and extended flag bit `0x10` (bits `0x20-0x80` are
ignored), `Cluster::read` constructs an uncompressed `Cluster` over the reader
that starts at `offset + 1` when the nibble is 0 or 1; it decodes the stream
at `offset + 1` and constructs a `CompressedCluster` over the decoded bytes
when the nibble is 4 or 5, or is 2 in a build with zlib; with nibble 2 in a
build without zlib it fails with "zlib not enabled in this library".  Every
cluster it returns is uncompressed exactly for the nibbles 0 and 1 and
compressed exactly for 4, 5 and (with zlib) 2, records the nibble as its
compression, and uses 64-bit offsets exactly when the extended bit is set. -/
theorem Cluster.read_dispatch (env : Codecs) (zr : Reader) (off : Nat) (b : Byte)
    (hb : zr.read off = .ok b) :
    ((b.val % 16 = 0 ∨ b.val % 16 = 1) →
      Cluster.read env zr off =
        (Cluster.new { offset := zr.offset + (off + 1), bytes := clusterBody zr off }
          (decide (b.val / 16 % 2 = 1)) >>= fun c => pure (ClusterHandle.plain c))) ∧
    ((b.val % 16 = 4 ∨ b.val % 16 = 5 ∨ (b.val % 16 = 2 ∧ env.ENABLE_ZLIB = true)) →
      Cluster.read env zr off =
        (env.uncompress (b.val % 16) (clusterBody zr off) >>= fun buffer =>
          CompressedCluster.new (BufferReader buffer) (b.val % 16)
            (decide (b.val / 16 % 2 = 1)) >>= fun c => pure (ClusterHandle.compressed c))) ∧
    ((b.val % 16 = 2 ∧ env.ENABLE_ZLIB = false) →
      Cluster.read env zr off =
        .error (.runtime_error "zlib not enabled in this library")) ∧
    (∀ h, Cluster.read env zr off = .ok h →
      (h.isCompressed = false ↔ (b.val % 16 = 0 ∨ b.val % 16 = 1)) ∧
      (h.isCompressed = true ↔
        (b.val % 16 = 4 ∨ b.val % 16 = 5 ∨ (b.val % 16 = 2 ∧ env.ENABLE_ZLIB = true))) ∧
      (∀ c, h = .plain c →
        c.isExtended = decide (b.val / 16 % 2 = 1) ∧
        c.startOffset = rawEntry (if b.val / 16 % 2 = 1 then 8 else 4) (clusterBody zr off) 0) ∧
      (∀ c, h = .compressed c →
        c.isCompressed = true ∧ c.getCompression = b.val % 16 ∧
        c.isExtended = decide (b.val / 16 % 2 = 1))) := by
  have hoff := Reader.read_ok hb
  have hplain : (b.val % 16 = 0 ∨ b.val % 16 = 1) →
      Cluster.read env zr off =
        (Cluster.new { offset := zr.offset + (off + 1), bytes := clusterBody zr off }
          (decide (b.val / 16 % 2 = 1)) >>= fun c => pure (ClusterHandle.plain c)) := by
    intro h01
    rw [Cluster.read_of_info hb, getClusterReader_switch_plain env zr off _ h01 hoff]
    unfold zimcompDefault zimcompNone
    rw [bind_of_ok rfl, if_pos (show b.val % 16 = 1 ∨ b.val % 16 = 0 by omega)]
  have hcomp : (b.val % 16 = 4 ∨ b.val % 16 = 5 ∨ (b.val % 16 = 2 ∧ env.ENABLE_ZLIB = true)) →
      Cluster.read env zr off =
        (env.uncompress (b.val % 16) (clusterBody zr off) >>= fun buffer =>
          CompressedCluster.new (BufferReader buffer) (b.val % 16)
            (decide (b.val / 16 % 2 = 1)) >>= fun c => pure (ClusterHandle.compressed c)) := by
    intro h
    have hne : ¬ (b.val % 16 = 1 ∨ b.val % 16 = 0) := by omega
    rw [Cluster.read_of_info hb, getClusterReader_switch_compressed env zr off _ h]
    unfold zimcompDefault zimcompNone
    cases hu : env.uncompress (b.val % 16) (clusterBody zr off) with
    | error e => rfl
    | ok buffer =>
      simp only [if_neg hne]
      rfl
  have hzip : (b.val % 16 = 2 ∧ env.ENABLE_ZLIB = false) →
      Cluster.read env zr off =
        .error (.runtime_error "zlib not enabled in this library") := by
    intro h
    rw [Cluster.read_of_info hb, h.1, getClusterReader_switch_zip_disabled env zr off h.2]
    rfl
  refine ⟨hplain, hcomp, hzip, ?_⟩
  intro h hread
  have hrej := Cluster.read_rejects_nibble_aux env zr off b hb
  -- the five kinds of nibble
  have hcases : (b.val % 16 = 0 ∨ b.val % 16 = 1) ∨
      (b.val % 16 = 4 ∨ b.val % 16 = 5 ∨ (b.val % 16 = 2 ∧ env.ENABLE_ZLIB = true)) ∨
      (b.val % 16 = 2 ∧ env.ENABLE_ZLIB = false) ∨ b.val % 16 = 3 ∨ 6 ≤ b.val % 16 := by
    have hlt : b.val % 16 < 16 := Nat.mod_lt _ (by norm_num)
    have hseven : b.val % 16 = 0 ∨ b.val % 16 = 1 ∨ b.val % 16 = 2 ∨ b.val % 16 = 3 ∨
        b.val % 16 = 4 ∨ b.val % 16 = 5 ∨ 6 ≤ b.val % 16 := by omega
    rcases hseven with h | h | h | h | h | h | h
    · exact Or.inl (Or.inl h)
    · exact Or.inl (Or.inr h)
    · by_cases hz : env.ENABLE_ZLIB = true
      · exact Or.inr (Or.inl (Or.inr (Or.inr ⟨h, hz⟩)))
      · exact Or.inr (Or.inr (Or.inl ⟨h, Bool.eq_false_iff.mpr hz⟩))
    · exact Or.inr (Or.inr (Or.inr (Or.inl h)))
    · exact Or.inr (Or.inl (Or.inl h))
    · exact Or.inr (Or.inl (Or.inr (Or.inl h)))
    · exact Or.inr (Or.inr (Or.inr (Or.inr h)))
  rcases hcases with h01 | hc | hz | h3 | h6
  · rw [hplain h01] at hread
    obtain ⟨c, hnew, hp⟩ := bind_ok hread
    have hh := pure_ok hp
    subst hh
    obtain ⟨hext, hF, _⟩ := Cluster.new_ok hnew
    refine ⟨⟨fun _ => h01, fun _ => rfl⟩, ⟨fun hf => ?_, fun hf => ?_⟩, ?_, ?_⟩
    · exact Bool.noConfusion hf
    · rcases hf with h4 | h5 | ⟨h2, _⟩ <;> omega
    · intro c1 hc1
      have e := ClusterHandle.plain.inj hc1
      subst e
      refine ⟨hext, ?_⟩
      rw [hF]
      unfold sizeofOffset
      by_cases hbit : b.val / 16 % 2 = 1
      · simp [hbit]
      · simp [hbit]
    · intro c1 hc1
      exact ClusterHandle.noConfusion hc1
  · rw [hcomp hc] at hread
    obtain ⟨buffer, _, hread⟩ := bind_ok hread
    obtain ⟨c, hnew, hp⟩ := bind_ok hread
    have hh := pure_ok hp
    subst hh
    obtain ⟨hcompn, hext, _⟩ := CompressedCluster.new_fields hnew
    refine ⟨⟨fun hf => ?_, fun hf => ?_⟩, ⟨fun _ => hc, fun _ => rfl⟩, ?_, ?_⟩
    · exact Bool.noConfusion hf
    · rcases hc with h4 | h5 | ⟨h2, _⟩ <;> omega
    · intro c1 hc1
      exact ClusterHandle.noConfusion hc1
    · intro c1 hc1
      have e := ClusterHandle.compressed.inj hc1
      subst e
      exact ⟨rfl, hcompn, hext⟩
  · rw [hzip hz] at hread
    exact (error_ne_ok hread).elim
  · rw [hrej.1 h3] at hread
    exact (error_ne_ok hread).elim
  · rw [hrej.2 h6] at hread
    exact (error_ne_ok hread).elim

/-- C8 as amended, at the example file (info byte 0: an uncompressed cluster
with 32-bit offsets) and at the zip file in a build with zlib. -/
theorem Cluster.read_dispatch_witness :
    (exampleFile.read 0 = .ok 0 ∧ ((0 : Byte).val % 16 = 0 ∨ (0 : Byte).val % 16 = 1) ∧
      Cluster.read (idCodecs true) exampleFile 0 =
        (Cluster.new { offset := exampleFile.offset + (0 + 1),
                       bytes := clusterBody exampleFile 0 }
          (decide ((0 : Byte).val / 16 % 2 = 1)) >>= fun c => pure (ClusterHandle.plain c)) ∧
      Cluster.read (idCodecs true) exampleFile 0 = .ok (.plain exampleCluster)) ∧
    (zipFile.read 0 = .ok 2 ∧
      Cluster.read (idCodecs true) zipFile 0 =
        .ok (.compressed { alphaBetaCluster with compression_ := zimcompZip }) ∧
      (∀ c, ClusterHandle.compressed { alphaBetaCluster with compression_ := zimcompZip } =
          .compressed c →
        c.isCompressed = true ∧ c.getCompression = (2 : Byte).val % 16 ∧
        c.isExtended = decide ((2 : Byte).val / 16 % 2 = 1))) :=
  ⟨⟨by decide, by decide,
      (Cluster.read_dispatch (idCodecs true) exampleFile 0 0 (by decide)).1 (by decide),
      by decide⟩,
    ⟨by decide, by decide,
      ((Cluster.read_dispatch (idCodecs true) zipFile 0 2 (by decide)).2.2.2 _
        (by decide)).2.2.2⟩⟩
/-- C9: an info byte whose low nibble is 3 (bzip2), whatever its upper bits,
makes `Cluster::read` fail with the runtime error "bzip2 not enabled in this
library" (the unsupported-compression error), and a low nibble in 6..15 makes
it fail with the file format error "Invalid compression flag"; the result does
not depend on what follows the info byte, no offset table is read. -/
theorem Cluster.read_rejects_unsupported_nibble (env : Codecs) (zr : Reader) (off : Nat)
    (b : Byte) (hb : zr.read off = .ok b) :
    (b.val % 16 = 3 →
      Cluster.read env zr off = .error (.runtime_error "bzip2 not enabled in this library")) ∧
    (6 ≤ b.val % 16 →
      Cluster.read env zr off = .error (.ZimFileFormatError "Invalid compression flag")) := by
  exact Cluster.read_rejects_nibble_aux env zr off b hb

/-- C9 at a file that ends right after the info byte `0xF3`, and at one that
ends after the info byte `0x07`. -/
theorem Cluster.read_rejects_unsupported_nibble_witness :
    (bzip2File.read 0 = .ok 0xF3 ∧ (0xF3 : Byte).val % 16 = 3 ∧
      Cluster.read (idCodecs true) bzip2File 0 =
        .error (.runtime_error "bzip2 not enabled in this library")) ∧
    (badFlagFile.read 0 = .ok 0x07 ∧ 6 ≤ (0x07 : Byte).val % 16 ∧
      Cluster.read (idCodecs true) badFlagFile 0 =
        .error (.ZimFileFormatError "Invalid compression flag")) :=
  ⟨⟨by decide, by decide,
      (Cluster.read_rejects_unsupported_nibble (idCodecs true) bzip2File 0 0xF3
        (by decide)).1 (by decide)⟩,
    ⟨by decide, by decide,
      (Cluster.read_rejects_unsupported_nibble (idCodecs true) badFlagFile 0 0x07
        (by decide)).2 (by decide)⟩⟩

/-- C10: for a cluster index below the cluster count, `getBlobOffset(ci, bi)`
returns 0 when cluster `ci` is compressed, without using the cluster's own
`getBlobOffset` (which fails on a compressed cluster), and otherwise returns
`getClusterOffset(ci) + 1 + cluster.getBlobOffset(bi)`; in a file shorter than
2^64 bytes the 64-bit sum does not wrap. -/
theorem FileImpl.getBlobOffset_spec (f : FileImpl) (ci bi : Nat)
    (hci : ci < f.getCountClusters) :
    (∀ c, f.getCluster ci = .ok c → c.isCompressed = true →
      f.getBlobOffset ci bi = .ok 0 ∧
      c.getBlobOffset bi = .error
        (.logic_error "CompressedCluster::getBlobOffset() should never be called")) ∧
    (∀ c, f.getCluster ci = .ok c → c.isCompressed = false →
      ∀ co v, f.getClusterOffset ci = .ok co → c.getBlobOffset bi = .ok v →
        f.getBlobOffset ci bi = .ok (((co + 1) % 2 ^ 64 + v) % 2 ^ 64) ∧
        (f.zimReader.size < 2 ^ 64 → f.getBlobOffset ci bi = .ok (co + 1 + v))) := by
  constructor
  · intro c hc hcomp
    constructor
    · unfold FileImpl.getBlobOffset
      rw [bind_of_ok hc, if_pos hcomp]
      rfl
    · cases c with
      | plain p => exact Bool.noConfusion hcomp
      | compressed q => rfl
  · intro c hc hcomp co v hco hv
    have hres : f.getBlobOffset ci bi = .ok (((co + 1) % 2 ^ 64 + v) % 2 ^ 64) := by
      unfold FileImpl.getBlobOffset
      rw [bind_of_ok hc, if_neg (by rw [hcomp]; exact Bool.false_ne_true), bind_of_ok hco,
        bind_of_ok hv]
      rfl
    refine ⟨hres, fun hsz => ?_⟩
    rw [hres]
    cases c with
    | compressed q => exact Bool.noConfusion hcomp
    | plain p =>
      unfold FileImpl.getCluster at hc
      rw [if_neg (by omega)] at hc
      unfold FileImpl.readCluster at hc
      rw [bind_of_ok hco] at hc
      obtain ⟨b, hb, _, hnew⟩ := Cluster.read_plain_ok hc
      have hoff := Reader.read_ok hb
      have hbody : (Reader.mk (f.zimReader.offset + (co + 1))
          (clusterBody f.zimReader co)).size = f.zimReader.size - (co + 1) := by
        unfold Reader.size clusterBody
        simp
      have hle := Cluster.getBlobOffset_le hnew hv (by rw [hbody]; omega)
      rw [hbody] at hle
      congr 1
      omega

/-- C10 at the example archive (uncompressed cluster at offset 8: blob 1 is at
`8 + 1 + 14`) and at the zip archive (compressed cluster: 0). -/
theorem FileImpl.getBlobOffset_spec_witness :
    (0 < exampleArchive.getCountClusters ∧
      exampleArchive.getCluster 0 = .ok (.plain exampleArchiveCluster) ∧
      exampleArchive.getClusterOffset 0 = .ok 8 ∧
      exampleArchive.zimReader.size < 2 ^ 64 ∧
      exampleArchive.getBlobOffset 0 1 = .ok (8 + 1 + 14)) ∧
    (0 < zipArchive.getCountClusters ∧
      zipArchive.getCluster 0 = .ok (.compressed zipCluster) ∧
      zipArchive.getBlobOffset 0 1 = .ok 0) :=
  ⟨⟨by decide, by decide, by decide, by decide,
      ((FileImpl.getBlobOffset_spec exampleArchive 0 1 (by decide)).2
        (.plain exampleArchiveCluster) (by decide) rfl 8 14
        (by decide) (by decide)).2 (by decide)⟩,
    ⟨by decide, by decide,
      ((FileImpl.getBlobOffset_spec zipArchive 0 1 (by decide)).1
        (.compressed zipCluster) (by decide) rfl).1⟩⟩

/-- C16: every indexed accessor rejects an index beyond the known counts.
For every file, whatever its pointer tables and caches hold, and every
`idx ≥ articleCount`, `getDirent(idx)`, `getDirentByTitle(idx)` and
`getIndexByTitle(idx)` fail with "article index out of range"; for every
`idx ≥ clusterCount`, `getCluster(idx)` fails with "cluster index out of
range".  The result does not depend on the readers of the file (no pointer
table is read), and the caches after the call are the caches before it. -/
theorem FileImpl.accessors_reject_out_of_range (f : FileImpl) (idx : Nat) (s : Caches) :
    (f.getCountArticles ≤ idx →
      f.getDirent_st idx s = (.error (.ZimFileFormatError "article index out of range"), s) ∧
      f.getDirentByTitle_st idx s =
        (.error (.ZimFileFormatError "article index out of range"), s) ∧
      f.getIndexByTitle idx = .error (.ZimFileFormatError "article index out of range")) ∧
    (f.getCountClusters ≤ idx →
      f.getCluster_st idx s = (.error (.ZimFileFormatError "cluster index out of range"), s)) := by
  refine ⟨fun h => ⟨?_, ?_, ?_⟩, fun h => ?_⟩
  · unfold FileImpl.getDirent_st
    rw [if_pos (show idx ≥ f.getCountArticles from h)]
  · unfold FileImpl.getDirentByTitle_st
    rw [if_pos (show idx ≥ f.getCountArticles from h)]
  · unfold FileImpl.getIndexByTitle
    rw [if_pos (show idx ≥ f.getCountArticles from h)]
  · unfold FileImpl.getCluster_st
    rw [if_pos (show idx ≥ f.getCountClusters from h)]

/-- C16, at a concrete input: the example archive has no entry and one
cluster, and index 1 is rejected by the four accessors. -/
theorem FileImpl.accessors_reject_out_of_range_witness :
    (exampleArchive.getDirent_st 1 (Caches.empty 4 4) =
        (.error (.ZimFileFormatError "article index out of range"), Caches.empty 4 4) ∧
      exampleArchive.getDirentByTitle_st 1 (Caches.empty 4 4) =
        (.error (.ZimFileFormatError "article index out of range"), Caches.empty 4 4) ∧
      exampleArchive.getIndexByTitle 1 =
        .error (.ZimFileFormatError "article index out of range")) ∧
    exampleArchive.getCluster_st 1 (Caches.empty 4 4) =
        (.error (.ZimFileFormatError "cluster index out of range"), Caches.empty 4 4) :=
  ⟨(FileImpl.accessors_reject_out_of_range exampleArchive 1 (Caches.empty 4 4)).1 (by decide),
   (FileImpl.accessors_reject_out_of_range exampleArchive 1 (Caches.empty 4 4)).2 (by decide)⟩

/-- C13: `findx(path)` splits the form `/ns/rest`.  Let `q` be the path after
removing one optional leading `/` (character 47).  If `q` is a character `c`
followed by `/` and `rest`, then `findx(path)` is `findx(c, rest)`; in every
other case, the empty path and the paths shorter than two characters
included, it returns `(false, 0)` whatever the two-argument search is. -/
theorem FileImpl.findx_splits_path
    (findx_ns_url : Byte → List Byte → Except Error (Bool × Nat)) (url q : List Byte)
    (hq : url = 47 :: q ∨ (url = q ∧ ∀ t, url ≠ 47 :: t)) :
    (∀ c rest, q = c :: 47 :: rest →
      FileImpl.findx findx_ns_url url = findx_ns_url c rest) ∧
    ((∀ c rest, q ≠ c :: 47 :: rest) →
      FileImpl.findx findx_ns_url url = .ok (false, 0)) := by
  rcases hq with rfl | ⟨rfl, hne⟩
  · refine ⟨?_, ?_⟩
    · rintro c rest rfl
      simp [FileImpl.findx]
    · intro h
      match q, h with
      | [], _ => simp [FileImpl.findx, pure, Except.pure]
      | [c], _ => simp [FileImpl.findx, pure, Except.pure]
      | c :: d :: rest, h =>
        have hd : d ≠ 47 := fun e => h c rest (by rw [e])
        simp [FileImpl.findx, pure, Except.pure, hd]
  · have h0 : url.getD 0 0 ≠ 47 := by
      match url, hne with
      | [], _ => simp
      | c :: t, hne =>
        have : c ≠ 47 := fun e => hne t (by rw [e])
        simpa using this
    refine ⟨?_, ?_⟩
    · rintro c rest rfl
      have hc : c ≠ 47 := fun e => hne _ (by rw [e])
      simp [FileImpl.findx, hc]
    · intro h
      match url, h, h0 with
      | [], _, _ => simp [FileImpl.findx, pure, Except.pure]
      | [c], _, h0 =>
        have hc : c ≠ 47 := by simpa using h0
        simp [FileImpl.findx, pure, Except.pure, hc]
      | c :: d :: rest, h, h0 =>
        have hc : c ≠ 47 := by simpa using h0
        have hd : d ≠ 47 := fun e => h c rest (by rw [e])
        simp [FileImpl.findx, pure, Except.pure, hc, hd]

/-- C13, at concrete inputs: `/A/greet` is searched as `('A', "greet")`. -/
theorem FileImpl.findx_splits_path_witness :
    FileImpl.findx (fun c rest => .ok (true, c.val + rest.length))
      [47, 65, 47, 103, 114, 101, 101, 116] = .ok (true, 65 + 5) :=
  (FileImpl.findx_splits_path (fun c rest => .ok (true, c.val + rest.length))
    [47, 65, 47, 103, 114, 101, 101, 116] [65, 47, 103, 114, 101, 101, 116]
    (Or.inl rfl)).1 65 [103, 114, 101, 101, 116] rfl

/-- C17, as stated, fails: the constructor accepts the 96 bytes of
`lastOffsetFile`, whose two clusters have the offsets 65535 and 80; only the
last one is checked, and `getClusterOffset(0)` is 65535, beyond the file. -/
theorem FileImpl.new_accepts_cluster_offset_past_end :
    FileImpl.new (idCodecs true) Fileheader.read lastOffsetFile = .ok lastOffsetArchive ∧
    lastOffsetFile.length = 96 ∧ 0 < lastOffsetArchive.getCountClusters ∧
    lastOffsetArchive.getClusterOffset 0 = .ok 65535 := by
  refine ⟨rfl, by decide, by decide, by decide⟩

/-- C17, amended: for every `FileImpl` whose construction succeeds and that
has a cluster, the offset of the last cluster lies within the file:
`getClusterOffset(clusterCount - 1)` returns an offset that is at most the
file size.  When the last offset read from the table is larger, the
constructor fails with "last cluster offset larger than file size; file
corrupt".  The cluster count is a 32-bit value. -/
theorem FileImpl.new_last_cluster_offset_in_file (env : Codecs)
    (rh : Buffer → Except Error Fileheader) (zf : List Byte) :
    (∀ f, FileImpl.new env rh zf = .ok f → f.getCountClusters ≠ 0 →
      f.getCountClusters < 2 ^ 32 →
      ∃ o, f.getClusterOffset (f.getCountClusters - 1) = .ok o ∧ o ≤ zf.length) ∧
    (∀ header tables o, Fileheader.size ≤ zf.length →
      FileImpl.readHeader rh { offset := 0, bytes := zf } = .ok header →
      FileImpl.new_tables { offset := 0, bytes := zf } header = .ok tables →
      header.clusterCount ≠ 0 → header.clusterCount < 2 ^ 32 →
      readOffset tables.2.2 (header.clusterCount - 1) = .ok o → zf.length < o →
      FileImpl.new env rh zf = .error
        (.ZimFileFormatError "last cluster offset larger than file size; file corrupt")) := by
  refine ⟨?_, ?_⟩
  · intro f hf h0 h32
    obtain ⟨checked, m, hc, -, rfl⟩ := FileImpl.new_inv hf
    obtain ⟨-, -, -, hl, -⟩ := FileImpl.new_checked_ok hc
    obtain ⟨o, ho, hle⟩ := FileImpl.new_lastOffset_ok hl h0
    have hidx : (checked.1.clusterCount + 2 ^ 32 - 1) % 2 ^ 32 = checked.1.clusterCount - 1 := by
      have h0' : checked.1.clusterCount ≠ 0 := h0
      have h32' : checked.1.clusterCount < 2 ^ 32 := h32
      omega
    rw [hidx] at ho
    exact ⟨o, ho, hle⟩
  · intro header tables o hs hh ht h0 h32 ho hgt
    have hidx : (header.clusterCount + 2 ^ 32 - 1) % 2 ^ 32 = header.clusterCount - 1 := by
      omega
    have hl : FileImpl.new_lastOffset { offset := 0, bytes := zf } header tables.2.2 =
        .error (.ZimFileFormatError "last cluster offset larger than file size; file corrupt") := by
      unfold FileImpl.new_lastOffset
      rw [if_neg h0, hidx, bind_of_ok ho]
      exact if_pos (show o > Reader.size { offset := 0, bytes := zf } from hgt)
    have hc : FileImpl.new_checked rh { offset := 0, bytes := zf } = .error
        (.ZimFileFormatError "last cluster offset larger than file size; file corrupt") := by
      unfold FileImpl.new_checked
      rw [if_neg (show ¬ (Reader.size { offset := 0, bytes := zf } < Fileheader.size) from
        Nat.not_lt.mpr hs), bind_of_ok hh, bind_of_ok ht, bind_of_error hl]
    unfold FileImpl.new
    rw [bind_of_error hc]

/-- C17, amended, at a concrete input: the last cluster of `lastOffsetFile`
is at offset 80, within its 96 bytes. -/
theorem FileImpl.new_last_cluster_offset_in_file_witness :
    ∃ o, lastOffsetArchive.getClusterOffset (lastOffsetArchive.getCountClusters - 1) = .ok o ∧
      o ≤ lastOffsetFile.length :=
  (FileImpl.new_last_cluster_offset_in_file (idCodecs true) Fileheader.read lastOffsetFile).1
    lastOffsetArchive rfl (by decide) (by decide)

/-- C18 fails on the code: the header of `wrapFile` declares a checksum at
offset 40 of a file of 96 bytes, not at `fileSize - 16 = 80`, and the
constructor fails with an assertion, not with a `ZimFileFormatError`.  The
header has `2^29` clusters, the 32-bit product `clusterCount * 8` wraps to 0,
so the test `can_read` of the cluster pointer table passes for an empty table,
and the read of the last cluster offset at `8 * (2^29 - 1)` lies outside that
table; the check of the checksum position is not reached.  The same header
without clusters gives "Checksum position is not valid".  For every file: a
constructed archive with a checksum has it at `fileSize - 16`; a header with a
checksum elsewhere never gives an archive, gives "Checksum position is not
valid" when the check is reached, and gives a `ZimFileFormatError` whenever
`clusterCount * 8` does not wrap. -/
theorem FileImpl.new_asserts_on_wrapped_cluster_table :
    wrapFile.length = 96 ∧
    FileImpl.readHeader Fileheader.read { offset := 0, bytes := wrapFile } = .ok wrapHeader ∧
    wrapHeader.hasChecksum = true ∧ wrapHeader.checksumPos ≠ wrapFile.length - 16 ∧
    (wrapHeader.clusterCount * 8) % 2 ^ 32 = 0 ∧
    FileImpl.new_tables { offset := 0, bytes := wrapFile } wrapHeader =
      .ok (⟨80, []⟩, ⟨80, []⟩, ⟨80, []⟩) ∧
    readOffset ⟨80, []⟩ ((wrapHeader.clusterCount + 2 ^ 32 - 1) % 2 ^ 32) = .error .assertion ∧
    FileImpl.new (idCodecs true) Fileheader.read wrapFile = .error .assertion ∧
    FileImpl.new (idCodecs true) Fileheader.read misplacedFile =
      .error (.ZimFileFormatError "Checksum position is not valid") ∧
    FileImpl.new (idCodecs true) Fileheader.read checksumFile = .ok checksumArchive ∧
    checksumArchive.header.checksumPos = checksumFile.length - 16 ∧
    (∀ (env : Codecs) (rh : Buffer → Except Error Fileheader) (zf : List Byte),
      zf.length < 2 ^ 64 →
      (∀ f, FileImpl.new env rh zf = .ok f → f.header.hasChecksum = true →
        16 ≤ zf.length ∧ f.header.checksumPos = zf.length - 16) ∧
      (∀ header tables, Fileheader.size ≤ zf.length →
        FileImpl.readHeader rh { offset := 0, bytes := zf } = .ok header →
        FileImpl.new_tables { offset := 0, bytes := zf } header = .ok tables →
        FileImpl.new_lastOffset { offset := 0, bytes := zf } header tables.2.2 = .ok () →
        header.hasChecksum = true → header.checksumPos ≠ zf.length - 16 →
        FileImpl.new env rh zf =
          .error (.ZimFileFormatError "Checksum position is not valid")) ∧
      (∀ header, FileImpl.readHeader rh { offset := 0, bytes := zf } = .ok header →
        header.clusterCount * 8 < 2 ^ 32 →
        header.hasChecksum = true → header.checksumPos ≠ zf.length - 16 →
        ∃ msg, FileImpl.new env rh zf = .error (.ZimFileFormatError msg)) ∧
      (∀ header, FileImpl.readHeader rh { offset := 0, bytes := zf } = .ok header →
        header.hasChecksum = true → header.checksumPos ≠ zf.length - 16 →
        ∃ e, FileImpl.new env rh zf = .error e)) := by
  refine ⟨by decide, by decide, by decide, by decide, by decide, by decide, by decide, rfl, rfl,
    rfl, by decide, FileImpl.new_checksum_cases⟩

/-- C19: for every archive that passes the checks of the constructor before
the MIME list and whose MIME region `[mimeListPos, min(urlPtrPos, 1024))`
lies in the file and begins with `k ≥ 0` non-empty NUL-terminated strings
`s_1 .. s_k` followed by an empty string, construction succeeds and the MIME
table is exactly `[s_1, ..., s_k]`, whatever bytes `rest` follow the empty
string; `getMimeType(j)` is `s_{j+1}`. -/
theorem FileImpl.new_parses_mime_table (env : Codecs)
    (rh : Buffer → Except Error Fileheader) (zf : List Byte)
    (checked : Fileheader × Reader × Reader × Reader) (strs : List (List Byte))
    (rest : List Byte)
    (hc : FileImpl.new_checked rh { offset := 0, bytes := zf } = .ok checked)
    (hle : checked.1.mimeListPos ≤ min checked.1.urlPtrPos 1024)
    (hin : min checked.1.urlPtrPos 1024 ≤ zf.length)
    (hstr : ∀ s ∈ strs, s ≠ [] ∧ (0 : Byte) ∉ s)
    (hregion : mimeRegion checked.1 zf = cstrings strs ++ 0 :: rest) :
    ∃ f, FileImpl.new env rh zf = .ok f ∧ f.header = checked.1 ∧ f.mimeTypes = strs ∧
      ∀ j s, strs.get? j = some s → f.getMimeType j = .ok s := by
  have hm := FileImpl.new_mimeTypes_eq zf checked.1 hle hin
  rw [hregion, FileImpl.parseMimeTypes_terminated strs rest hstr] at hm
  refine ⟨(FileImpl.mk env ⟨0, zf⟩ checked.1 checked.2.2.1 checked.2.1 checked.2.2.2 strs), ?_, rfl, rfl, ?_⟩
  · rw [FileImpl.new_of_checked hc, bind_of_ok hm]
    rfl
  · intro j s hj
    exact FileImpl.getMimeType_of_get _ j s hj

/-- C19, at a concrete input: the MIME region of `mimeFile` holds `text/a`,
`b/c`, the empty string and five more bytes; the table is the two
strings. -/
theorem FileImpl.new_parses_mime_table_witness :
    ∃ f, FileImpl.new (idCodecs true) Fileheader.read mimeFile = .ok f ∧
      f.header = mimeHeader ∧
      f.mimeTypes = [[116, 101, 120, 116, 47, 97], [98, 47, 99]] ∧
      ∀ j s, [[116, 101, 120, 116, 47, 97], [98, 47, 99]].get? j = some s →
        f.getMimeType j = .ok s :=
  FileImpl.new_parses_mime_table (idCodecs true) Fileheader.read mimeFile
    (mimeHeader, ⟨96, []⟩, ⟨96, []⟩, ⟨96, []⟩) [[116, 101, 120, 116, 47, 97], [98, 47, 99]]
    [120, 0, 121, 122] (by decide) (by decide) (by decide) (by decide) (by decide)

/-- C20, as stated, fails: the MIME region of `unterminatedMimeFile` is the
string `a` with its NUL, without an empty string after it, and the
constructor accepts the file, with the MIME table `[a]`. -/
theorem FileImpl.new_accepts_mime_list_without_end :
    mimeRegion unterminatedMimeHeader unterminatedMimeFile = [97, 0] ∧
    FileImpl.new (idCodecs true) Fileheader.read unterminatedMimeFile =
      .ok unterminatedMimeArchive ∧
    unterminatedMimeArchive.mimeTypes = [[97]] := by
  refine ⟨by decide, rfl, rfl⟩

/-- C20, amended: take an archive that passes the checks of the constructor
before the MIME list and whose MIME region lies in the file and does not
contain the terminating empty string: it holds `k ≥ 0` non-empty
NUL-terminated strings and then a `tail` without NUL.  When `tail` is not
empty (the region ends inside a string), construction fails with the
`ZimFileFormatError` "Error getting mimelists."; when `tail` is empty (the
region ends right after the NUL of its last string, or is empty), construction
succeeds with the `k` strings as the MIME table. -/
theorem FileImpl.new_mime_list_without_end (env : Codecs)
    (rh : Buffer → Except Error Fileheader) (zf : List Byte)
    (checked : Fileheader × Reader × Reader × Reader) (strs : List (List Byte))
    (tail : List Byte)
    (hc : FileImpl.new_checked rh { offset := 0, bytes := zf } = .ok checked)
    (hle : checked.1.mimeListPos ≤ min checked.1.urlPtrPos 1024)
    (hin : min checked.1.urlPtrPos 1024 ≤ zf.length)
    (hstr : ∀ s ∈ strs, s ≠ [] ∧ (0 : Byte) ∉ s)
    (h0 : (0 : Byte) ∉ tail)
    (hregion : mimeRegion checked.1 zf = cstrings strs ++ tail) :
    (tail ≠ [] →
      FileImpl.new env rh zf = .error (.ZimFileFormatError "Error getting mimelists.")) ∧
    (tail = [] → ∃ f, FileImpl.new env rh zf = .ok f ∧ f.mimeTypes = strs) := by
  have hm := FileImpl.new_mimeTypes_eq zf checked.1 hle hin
  rw [hregion] at hm
  refine ⟨fun ht => ?_, fun ht => ?_⟩
  · rw [FileImpl.parseMimeTypes_unterminated strs tail hstr ht h0] at hm
    rw [FileImpl.new_of_checked hc, bind_of_error hm]
  · subst ht
    rw [FileImpl.parseMimeTypes_exact strs hstr] at hm
    refine ⟨(FileImpl.mk env ⟨0, zf⟩ checked.1 checked.2.2.1 checked.2.1 checked.2.2.2 strs), ?_, rfl⟩
    rw [FileImpl.new_of_checked hc, bind_of_ok hm]
    rfl

/-- C20, amended, at a concrete input: the MIME region of `truncatedMimeFile`
is `a`, NUL, `b`, and the constructor rejects the file. -/
theorem FileImpl.new_mime_list_without_end_witness :
    FileImpl.new (idCodecs true) Fileheader.read truncatedMimeFile =
      .error (.ZimFileFormatError "Error getting mimelists.") :=
  (FileImpl.new_mime_list_without_end (idCodecs true) Fileheader.read truncatedMimeFile
    ({ unterminatedMimeHeader with urlPtrPos := 83, titleIdxPos := 83, clusterPtrPos := 83 },
      ⟨83, []⟩, ⟨83, []⟩, ⟨83, []⟩) [[97]] [98]
    (by decide) (by decide) (by decide) (by decide) (by decide) (by decide)).1 (by decide)

/-- C15 fails on the code: `longUrlFile` is an archive that the constructor
accepts; the record of its only entry, 318 bytes at offset 97, lies entirely
inside the 451 bytes of the file and parses to `longUrlDirent`, and yet
`getDirent(0)` fails.  The first read takes 256 bytes, the parser signals
`InvalidSize`, and the retry asks for 512 bytes at offset 97, beyond the end
of the file: the growth step is not capped by the end of the file.  With 200
more bytes after the file the same call returns the dirent. -/
theorem FileImpl.getDirent_fails_on_long_record :
    FileImpl.new (idCodecs true) Fileheader.read longUrlFile = .ok longUrlArchive ∧
    longUrlFile.length = 451 ∧
    readOffset longUrlArchive.urlPtrOffsetReader 0 = .ok 97 ∧
    slice longUrlFile 97 318 = longUrlRecord ∧
    Dirent.parse longUrlRecord = .ok longUrlDirent ∧
    Dirent.parse (slice longUrlFile 97 256) = .error .InvalidSize ∧
    longUrlArchive.zimReader.read_bytes 97 512 = .error .assertion ∧
    longUrlArchive.getDirent 0 = .error .assertion ∧
    FileImpl.getDirent
      { longUrlArchive with zimReader := ⟨0, longUrlFile ++ List.replicate 200 0⟩ } 0 =
      .ok longUrlDirent := by
  refine ⟨rfl, by decide, by decide, by decide, by decide, by decide, by decide, by decide,
    by decide⟩

/-- C14: for every archive with `N` entries whose records can be read (the
URL pointers lie in their table, the MIME type code and, for an article, the
cluster number lie in the file), let `key(e)` be `clusterOrderKey`: 0 when the
MIME type code of entry `e` is redirect, linktarget or deleted, and otherwise
the little-endian 32-bit number at byte offset 8 of its record.  There is a
list `L` that holds exactly the pairs `(key(e), e)`, `e` in `[0, N)`, sorted
in the order of pairs (so every entry index appears exactly once), such that
`findxByClusterOrder(i)` returns `(true, e_i)` with `e_i` the second component
of the `i`-th element of `L` for every `i < N`, and `(false, 0)` for every
`i ≥ N`.  The pairs are distinct, so `std::sort` can give no other list. -/
theorem FileImpl.findxByClusterOrder_sorted_pairs (f : FileImpl)
    (hsz : f.zimReader.size < 2 ^ 64)
    (hrec : ∀ e < f.getCountArticles, recordReadable f e) :
    ∃ L : List (Nat × Nat),
      L.Perm ((List.range f.getCountArticles).map (fun e => (clusterOrderKey f e, e))) ∧
      L.Sorted pairLE ∧
      (L.map Prod.snd).Perm (List.range f.getCountArticles) ∧
      (∀ i, i < f.getCountArticles →
        f.findxByClusterOrder i = .ok (true, (L.getD i (0, 0)).2)) ∧
      (∀ i, f.getCountArticles ≤ i → f.findxByClusterOrder i = .ok (false, 0)) := by
  have hperm := List.perm_insertionSort pairLE
    ((List.range f.getCountArticles).map (fun e => (clusterOrderKey f e, e)))
  have hlen := hperm.length_eq
  rw [List.length_map, List.length_range] at hlen
  refine ⟨_, hperm, List.sorted_insertionSort pairLE _, ?_, ?_, ?_⟩
  · have h := hperm.map Prod.snd
    rw [List.map_map] at h
    have hid : (Prod.snd ∘ fun e => (clusterOrderKey f e, e)) = id := rfl
    rw [hid, List.map_id] at h
    exact h
  · intro i hi
    unfold FileImpl.findxByClusterOrder
    rw [bind_of_ok (FileImpl.articleListByCluster_eq f hsz hrec), hlen]
    rw [if_neg (show ¬ i ≥ f.getCountArticles by omega)]
    rfl
  · intro i hi
    unfold FileImpl.findxByClusterOrder
    rw [bind_of_ok (FileImpl.articleListByCluster_eq f hsz hrec), hlen]
    rw [if_pos (show i ≥ f.getCountArticles from hi)]
    rfl

/-- C14, at a concrete input: the three entries of `titleArchive` have the
keys 1, 0 and 0 (a redirect), and the order is 1, 2, 0. -/
theorem FileImpl.findxByClusterOrder_sorted_pairs_witness :
    ∃ L : List (Nat × Nat),
      L.Perm ((List.range titleArchive.getCountArticles).map
        (fun e => (clusterOrderKey titleArchive e, e))) ∧
      L.Sorted pairLE ∧
      (L.map Prod.snd).Perm (List.range titleArchive.getCountArticles) ∧
      (∀ i, i < titleArchive.getCountArticles →
        titleArchive.findxByClusterOrder i = .ok (true, (L.getD i (0, 0)).2)) ∧
      (∀ i, titleArchive.getCountArticles ≤ i →
        titleArchive.findxByClusterOrder i = .ok (false, 0)) :=
  FileImpl.findxByClusterOrder_sorted_pairs titleArchive (by decide) (by decide)

/-- C11: for every archive whose title pointer table lists the dirents
`ds 0, ..., ds (N-1)` sorted by (namespace, title) and whose namespace offsets
`l ≤ u` delimit the run of the entries of namespace `ns` in that table,
`findxByTitle(ns, title)` returns and: it returns `(true, p)` for some `p` if
and only if some entry has namespace `ns` and title `title`; and whenever it
returns `(true, p)`, the dirent at title index `p` has namespace `ns` and
that title.  The title of a dirent is `getTitle()`, its URL when the title is
empty. -/
theorem FileImpl.findxByTitle_found_iff (f : FileImpl) (ns : Byte) (title : List Byte)
    (ds : Nat → Dirent) (l u : Nat)
    (hd : ∀ i, i < f.getCountArticles → f.getDirentByTitle i = .ok (ds i))
    (hsorted : ∀ j, j < f.getCountArticles → ∀ i, i ≤ j →
      keyLE (titleKey (ds i)) (titleKey (ds j)))
    (hl : f.getNamespaceBeginOffset ns = .ok l) (hu : f.getNamespaceEndOffset ns = .ok u)
    (hlu : l ≤ u) (huN : u ≤ f.getCountArticles)
    (hrun : ∀ i, i < f.getCountArticles → ((ds i).getNamespace = ns ↔ l ≤ i ∧ i < u)) :
    (∃ r, f.findxByTitle ns title = .ok r) ∧
    ((∃ p, f.findxByTitle ns title = .ok (true, p)) ↔
      ∃ i, i < f.getCountArticles ∧ (ds i).getNamespace = ns ∧ (ds i).getTitle = title) ∧
    (∀ p, f.findxByTitle ns title = .ok (true, p) →
      p < f.getCountArticles ∧ (ds p).getNamespace = ns ∧ (ds p).getTitle = title) := by
  rcases Nat.eq_or_lt_of_le hlu with heq | hlt
  · subst heq
    have hres := FileImpl.findxByTitle_no_namespace f ns title l hl hu
    rw [hres]
    refine ⟨⟨_, rfl⟩, ⟨?_, ?_⟩, ?_⟩
    · rintro ⟨p, hp⟩
      simp at hp
    · rintro ⟨i, hi, hn, _⟩
      have := (hrun i hi).mp hn
      omega
    · intro p hp
      simp at hp
  · have hs := titles_sorted_in_run f.getCountArticles ns ds l u hsorted huN hrun
    have hns : ∀ i, l ≤ i → i < u → (ds i).getNamespace = ns :=
      fun i h1 h2 => (hrun i (by omega)).mpr ⟨h1, h2⟩
    rcases FileImpl.findxByTitle_cases f ns title ds l u
      (fun i _ h2 => hd i (by omega)) hns hs hl hu hlt with
      ⟨p, hres, hp1, hp2, hpt⟩ | ⟨m, hm1, hm2, hres, hne, hlow, hhigh⟩
    · rw [hres]
      refine ⟨⟨_, rfl⟩, ⟨fun _ => ⟨p, by omega, hns p hp1 hp2, hpt⟩, fun _ => ⟨p, rfl⟩⟩, ?_⟩
      intro q hq
      have hqp : p = q := by simpa using hq
      subst hqp
      exact ⟨by omega, hns p hp1 hp2, hpt⟩
    · rw [hres]
      refine ⟨⟨_, rfl⟩, ⟨?_, ?_⟩, ?_⟩
      · rintro ⟨p, hp⟩
        simp at hp
      · rintro ⟨i, hi, hn, ht⟩
        exfalso
        have hiu := (hrun i hi).mp hn
        rcases Nat.lt_trichotomy i m with h | h | h
        · have h1 := hlow (by omega)
          have h2 := hs i m hiu.1 (by omega) hm2
          rw [ht] at h2
          exact absurd (lt_of_le_of_lt h2 h1) (lt_irrefl _)
        · subst h
          exact hne ht
        · have h1 := hhigh i (by omega) hiu.2
          rw [ht] at h1
          exact absurd h1 (lt_irrefl _)
      · intro p hp
        simp at hp

/-- C11, at a concrete input: in `titleArchive` the entries of namespace `A`
are the title indices `[0, 2)`, and `findxByTitle('A', "Zed")` finds title
index 1. -/
theorem FileImpl.findxByTitle_found_iff_witness :
    (∃ r, titleArchive.findxByTitle 65 [90, 101, 100] = .ok r) ∧
    ((∃ p, titleArchive.findxByTitle 65 [90, 101, 100] = .ok (true, p)) ↔
      ∃ i, i < titleArchive.getCountArticles ∧ (titleDirents i).getNamespace = 65 ∧
        (titleDirents i).getTitle = [90, 101, 100]) ∧
    (∀ p, titleArchive.findxByTitle 65 [90, 101, 100] = .ok (true, p) →
      p < titleArchive.getCountArticles ∧ (titleDirents p).getNamespace = 65 ∧
        (titleDirents p).getTitle = [90, 101, 100]) :=
  FileImpl.findxByTitle_found_iff titleArchive 65 [90, 101, 100] titleDirents 0 2
    (by decide) (by decide) (by decide) (by decide) (by decide) (by decide) (by decide)

/-- C12, as stated, fails: `titleArchive` is accepted by the constructor, its
title pointer table is sorted by (namespace, title), and no entry has
namespace `B`.  The key `('B', "x")` is above the keys at the title indices 0
and 1 and below the key at title index 2, so its lower bound is 2, but
`findxByTitle('B', "x")` returns `(false, 0)`. -/
theorem FileImpl.findxByTitle_absent_namespace_returns_zero :
    FileImpl.new (idCodecs true) Fileheader.read titleFile = .ok titleArchive ∧
    (∀ i, i < titleArchive.getCountArticles →
      titleArchive.getDirentByTitle i = .ok (titleDirents i)) ∧
    (∀ j, j < titleArchive.getCountArticles → ∀ i, i ≤ j →
      keyLE (titleKey (titleDirents i)) (titleKey (titleDirents j))) ∧
    (∀ i, i < titleArchive.getCountArticles → (titleDirents i).getNamespace ≠ 66) ∧
    (∀ i, i < 2 → keyLT (titleKey (titleDirents i)) (66, [120])) ∧
    keyLT (66, [120]) (titleKey (titleDirents 2)) ∧
    titleArchive.findxByTitle 66 [120] = .ok (false, 0) := by
  refine ⟨rfl, by decide, by decide, by decide, by decide, by decide, by decide⟩

/-- C12, amended: for every archive whose title pointer table lists the
dirents `ds 0, ..., ds (N-1)` sorted by (namespace, title) and whose namespace
offsets `l ≤ u` delimit the run of the entries of namespace `ns` in that
table, and every key `(ns, title)` that matches no entry: when some entry has
namespace `ns` (`l < u`), `findxByTitle(ns, title)` returns `(false, b)` with
`b` the lower bound of the key (every title index below `b` has a smaller
key, every title index from `b` on has a greater key, so `b` is the smallest
title index with a greater key, or `N`); when no entry has namespace `ns`
(`l = u`), it returns `(false, 0)`. -/
theorem FileImpl.findxByTitle_miss_lower_bound (f : FileImpl) (ns : Byte)
    (title : List Byte) (ds : Nat → Dirent) (l u : Nat)
    (hd : ∀ i, i < f.getCountArticles → f.getDirentByTitle i = .ok (ds i))
    (hsorted : ∀ j, j < f.getCountArticles → ∀ i, i ≤ j →
      keyLE (titleKey (ds i)) (titleKey (ds j)))
    (hl : f.getNamespaceBeginOffset ns = .ok l) (hu : f.getNamespaceEndOffset ns = .ok u)
    (hlu : l ≤ u) (huN : u ≤ f.getCountArticles)
    (hrun : ∀ i, i < f.getCountArticles → ((ds i).getNamespace = ns ↔ l ≤ i ∧ i < u))
    (hmiss : ∀ i, i < f.getCountArticles →
      ¬ ((ds i).getNamespace = ns ∧ (ds i).getTitle = title)) :
    (l < u → ∃ b, f.findxByTitle ns title = .ok (false, b) ∧ b ≤ f.getCountArticles ∧
      (∀ i, i < b → keyLT (titleKey (ds i)) (ns, title)) ∧
      (∀ i, b ≤ i → i < f.getCountArticles → keyLT (ns, title) (titleKey (ds i)))) ∧
    (l = u → f.findxByTitle ns title = .ok (false, 0)) := by
  refine ⟨fun hlt => ?_, fun heq => ?_⟩
  · have hs := titles_sorted_in_run f.getCountArticles ns ds l u hsorted huN hrun
    have hns : ∀ i, l ≤ i → i < u → (ds i).getNamespace = ns :=
      fun i h1 h2 => (hrun i (by omega)).mpr ⟨h1, h2⟩
    have hbefore := namespace_lt_before_run f.getCountArticles ns ds l u hsorted hlt huN hrun
    have hafter := namespace_gt_after_run f.getCountArticles ns ds l u hsorted hlt hrun
    rcases FileImpl.findxByTitle_cases f ns title ds l u
      (fun i _ h2 => hd i (by omega)) hns hs hl hu hlt with
      ⟨p, _, hp1, hp2, hpt⟩ | ⟨m, hm1, hm2, hres, hne, hlow, hhigh⟩
    · exact absurd ⟨hns p hp1 hp2, hpt⟩ (hmiss p (by omega))
    · by_cases hc : title < (ds m).getTitle
      · rw [if_pos hc] at hres
        have hml : m = l := by
          by_contra hml
          exact absurd (lt_trans hc (hlow hml)) (lt_irrefl _)
        subst hml
        refine ⟨m, hres, by omega, ?_, ?_⟩
        · intro i hi
          exact Or.inl (hbefore i hi)
        · intro i hi hin
          by_cases hiu : i < u
          · exact Or.inr ⟨(hns i hi hiu).symm, lt_of_lt_of_le hc (hs m i (Nat.le_refl _) hi hiu)⟩
          · exact Or.inl (hafter i (by omega) hin)
      · rw [if_neg hc] at hres
        have hmt : (ds m).getTitle < title :=
          lt_of_le_of_ne (not_lt.mp hc) hne
        refine ⟨m + 1, hres, by omega, ?_, ?_⟩
        · intro i hi
          by_cases hil : i < l
          · exact Or.inl (hbefore i hil)
          · exact Or.inr ⟨hns i (by omega) (by omega),
              lt_of_le_of_lt (hs i m (by omega) (by omega) hm2) hmt⟩
        · intro i hi hin
          by_cases hiu : i < u
          · exact Or.inr ⟨(hns i (by omega) hiu).symm, hhigh i hi hiu⟩
          · exact Or.inl (hafter i (by omega) hin)
  · subst heq
    exact FileImpl.findxByTitle_no_namespace f ns title l hl hu

/-- C12, amended, at a concrete input: in `titleArchive` the key `('A', "F")`
lies between `Ant` and `Zed`, and its lower bound is the title index 1. -/
theorem FileImpl.findxByTitle_miss_lower_bound_witness :
    ∃ b, titleArchive.findxByTitle 65 [70] = .ok (false, b) ∧
      b ≤ titleArchive.getCountArticles ∧
      (∀ i, i < b → keyLT (titleKey (titleDirents i)) (65, [70])) ∧
      (∀ i, b ≤ i → i < titleArchive.getCountArticles →
        keyLT (65, [70]) (titleKey (titleDirents i))) :=
  (FileImpl.findxByTitle_miss_lower_bound titleArchive 65 [70] titleDirents 0 2
    (by decide) (by decide) (by decide) (by decide) (by decide) (by decide) (by decide)
    (by decide)).1 (by decide)

/-- C21 fails on the code: `getMimeType(code)` rejects only `code > size`, so
the code equal to the size of the MIME table passes the check and indexes the
table at position `size`, outside `[0, size)`.  This holds for every
`FileImpl`; in `titleArchive`, whose table has the one entry `x`, code 0
returns that entry, code 2 fails with the unknown-mime-type error, and code 1
is the access outside the table. -/
theorem FileImpl.getMimeType_indexes_at_size :
    (∀ f : FileImpl, f.getMimeType f.mimeTypes.length = .error .out_of_bounds) ∧
    titleArchive.mimeTypes.length = 1 ∧
    titleArchive.getMimeType 0 = .ok [120] ∧
    titleArchive.getMimeType 1 = .error .out_of_bounds ∧
    titleArchive.getMimeType 2 =
      .error (.runtime_error ("unknown mime type code " ++ toString 2)) := by
  refine ⟨fun f => ?_, by decide, by decide, by decide, ?_⟩
  · unfold FileImpl.getMimeType
    rw [if_neg (Nat.lt_irrefl _), List.get?_eq_none.mpr (Nat.le_refl _)]
  · unfold FileImpl.getMimeType
    exact if_pos (by decide)

/-- C30 fails on the code: on the miss path of `getDirent`, an exception of
`zimReader->read` or of the dirent parser other than `InvalidSize` leaves the
function between `pthread_mutex_lock(&bufferDirentLock)` and the unlock, so
`bufferDirentLock` stays locked.  For every `FileImpl`, index and cache state:
when the index is in range, the cache misses, the URL pointer is read and the
read-and-parse loop fails with `e`, `getDirent` raises `e` with
`bufferDirentLock` locked and `direntCacheLock` unlocked.  In `longUrlArchive`
the call `getDirent(0)` ends this way, while in `titleArchive` the call
succeeds with both mutexes unlocked. -/
theorem FileImpl.getDirent_keeps_lock_on_failure :
    (∀ (f : FileImpl) (idx : Nat) (s : Caches) (indexOffset : Nat) (e : Error),
      idx < f.getCountArticles → (s.direntCache.get idx).1 = none →
      readOffset f.urlPtrOffsetReader idx = .ok indexOffset →
      f.readDirent indexOffset = .error e →
      (f.getDirent_st idx s).1 = .error e ∧
      (f.getDirent_st idx s).2.bufferDirentLock = true ∧
      (f.getDirent_st idx s).2.direntCacheLock = false) ∧
    (longUrlArchive.getDirent_st 0 (Caches.empty 512 16)).1 = .error .assertion ∧
    (longUrlArchive.getDirent_st 0 (Caches.empty 512 16)).2.bufferDirentLock = true ∧
    (longUrlArchive.getDirent_st 0 (Caches.empty 512 16)).2.direntCacheLock = false ∧
    (titleArchive.getDirent_st 0 (Caches.empty 512 16)).1 = .ok (titleDirents 1) ∧
    (titleArchive.getDirent_st 0 (Caches.empty 512 16)).2.bufferDirentLock = false ∧
    (titleArchive.getDirent_st 0 (Caches.empty 512 16)).2.direntCacheLock = false := by
  refine ⟨?_, by decide, by decide, by decide, by decide, by decide, by decide⟩
  intro f idx s indexOffset e hidx hmiss ho hr
  unfold FileImpl.getDirent_st
  rw [if_neg (show ¬ idx ≥ f.getCountArticles by omega)]
  cases hg : s.direntCache.get idx with
  | mk v c1 =>
    rw [hg] at hmiss
    simp only at hmiss
    subst hmiss
    simp only [ho, hr]
    exact ⟨trivial, trivial, trivial⟩

/-- C22: for every `FileImpl` that the constructor builds, `getChecksum()`
returns the empty string when the header has no checksum; otherwise it returns
a string `s` of exactly 32 characters from `0123456789abcdef` that encodes the
16 bytes stored at the checksum offset: byte `i` gives the character `2i` (its
high nibble) and the character `2i + 1` (its low nibble), and hex-decoding `s`
yields those 16 bytes.  The file size is a 64-bit value. -/
theorem FileImpl.getChecksum_hex (env : Codecs) (rh : Buffer → Except Error Fileheader)
    (zf : List Byte) (f : FileImpl) (hnew : FileImpl.new env rh zf = .ok f)
    (hsz : zf.length < 2 ^ 64) :
    (f.header.hasChecksum = false → f.getChecksum = .ok []) ∧
    (f.header.hasChecksum = true →
      ∃ s, f.getChecksum = .ok s ∧ s.length = 32 ∧ (∀ c ∈ s, c ∈ hex) ∧
        (slice zf f.header.checksumPos 16).length = 16 ∧
        (∀ i, i < 16 →
          s.getD (2 * i) 0 =
            hex.getD (((slice zf f.header.checksumPos 16).getD i 0).val / 16) 0 ∧
          s.getD (2 * i + 1) 0 =
            hex.getD (((slice zf f.header.checksumPos 16).getD i 0).val % 16) 0) ∧
        hexDecode s = some (slice zf f.header.checksumPos 16)) := by
  obtain ⟨-, hs, hk⟩ := FileImpl.readHeader_eq_of_new hnew
  obtain ⟨checked, m, -, -, hf⟩ := FileImpl.new_inv hnew
  have hzr : f.zimReader = { offset := 0, bytes := zf } := by rw [hf]
  refine ⟨fun hno => ?_, fun hc => ?_⟩
  · unfold FileImpl.getChecksum
    rw [hno]
    rfl
  · have hpos := FileImpl.new_checksum_ok hk hc
    have hs' : 80 ≤ zf.length := hs
    have hsize : Reader.size { offset := 0, bytes := zf } = zf.length := rfl
    rw [hsize] at hpos
    have hlen : (slice zf f.header.checksumPos 16).length = 16 := by
      rw [slice_length, hpos]
      omega
    have hb : f.zimReader.get_buffer f.header.checksumPos 16 =
        .ok (slice zf f.header.checksumPos 16) := by
      rw [hzr]
      unfold Reader.get_buffer
      exact if_pos (show f.header.checksumPos + 16 ≤ Reader.size { offset := 0, bytes := zf } by
        rw [hsize, hpos]
        omega)
    have hres : f.getChecksum = .ok (hexEncode (slice zf f.header.checksumPos 16)) := by
      unfold FileImpl.getChecksum
      rw [hc, hb]
      simp only [not_true_eq_false, if_false]
      rw [FileImpl.getChecksum_loop_eq _ 16 0 [] (by rw [hlen])]
      have : slice (slice zf f.header.checksumPos 16) 0 16 = slice zf f.header.checksumPos 16 := by
        unfold slice
        rw [List.drop_zero, List.take_take]
        simp
      rw [this, List.nil_append]
    refine ⟨_, hres, ?_, hexEncode_mem _, hlen, ?_, hexDecode_hexEncode _⟩
    · rw [hexEncode_length, hlen]
    · intro i hi
      exact hexEncode_getD _ i (by rw [hlen]; exact hi)

/-- C22, at a concrete input: the checksum of `checksumFile` is 16 zero bytes,
and `getChecksum()` is a string of 32 hexadecimal digits that decodes to
them. -/
theorem FileImpl.getChecksum_hex_witness :
    ∃ s, checksumArchive.getChecksum = .ok s ∧ s.length = 32 ∧ (∀ c ∈ s, c ∈ hex) ∧
      (slice checksumFile checksumArchive.header.checksumPos 16).length = 16 ∧
      (∀ i, i < 16 →
        s.getD (2 * i) 0 =
          hex.getD (((slice checksumFile checksumArchive.header.checksumPos 16).getD i 0).val
            / 16) 0 ∧
        s.getD (2 * i + 1) 0 =
          hex.getD (((slice checksumFile checksumArchive.header.checksumPos 16).getD i 0).val
            % 16) 0) ∧
      hexDecode s = some (slice checksumFile checksumArchive.header.checksumPos 16) :=
  (FileImpl.getChecksum_hex (idCodecs true) Fileheader.read checksumFile checksumArchive rfl
    (by decide)).2 rfl

/-- C28: for every buffer `b` (its size is a 64-bit value) and every offset
`o` and size `s` with `o + s ≤ b.size`, `b.sub_buffer(o, s)` is a view of size
`s` whose byte `i`, read at the pointer that its `dataImpl(i)` returns, is the
byte `o + i` of `b` for all `i < s`; and sub-views compose: whenever
`o2 + s2 ≤ s1`, `b.sub_buffer(o1, s1).sub_buffer(o2, s2)` is the same view as
`b.sub_buffer(o1 + o2, s2)`, of size `s2` and with byte `i` the byte
`o1 + o2 + i` of `b`. -/
theorem Buffer.sub_buffer_view (b : Buffer) (hb : b.size < 2 ^ 64) :
    (∀ o s, o + s ≤ b.size →
      ∃ v, b.sub_buffer o s = .ok v ∧ v.size = s ∧
        ∀ i, i < s → v.at i = Buffer.at b (o + i) ∧ ∃ x, v.at i = .ok x) ∧
    (∀ o1 s1 o2 s2, o1 + s1 ≤ b.size → o2 + s2 ≤ s1 →
      ∃ v1 v2, b.sub_buffer o1 s1 = .ok v1 ∧ v1.sub_buffer o2 s2 = .ok v2 ∧
        b.sub_buffer (o1 + o2) s2 = .ok v2 ∧ v2.size = s2 ∧
        ∀ i, i < s2 → v2.at i = Buffer.at b (o1 + o2 + i) ∧ ∃ x, v2.at i = .ok x) := by
  have hb' : b.length < 2 ^ 64 := hb
  have bytes : ∀ o s i, o + s ≤ b.length → i < s →
      SubBuffer.at { size_ := s, _data := b.data o } i = Buffer.at b (o + i) ∧
      ∃ x, SubBuffer.at { size_ := s, _data := b.data o } i = .ok x := by
    intro o s i h hi
    refine ⟨SubBuffer.at_eq b o s i hi, ?_⟩
    rw [SubBuffer.at_eq b o s i hi]
    exact ⟨_, Buffer.at_of_lt b (o + i) (by omega)⟩
  refine ⟨?_, ?_⟩
  · intro o s h
    have h' : o + s ≤ b.length := h
    exact ⟨{ size_ := s, _data := b.data o }, SubBuffer.new_eq b o s hb' h', rfl,
      fun i hi => bytes o s i h' hi⟩
  · intro o1 s1 o2 s2 h1 h2
    have h1' : o1 + s1 ≤ b.length := h1
    refine ⟨{ size_ := s1, _data := b.data o1 }, { size_ := s2, _data := b.data (o1 + o2) },
      SubBuffer.new_eq b o1 s1 hb' h1', ?_, SubBuffer.new_eq b (o1 + o2) s2 hb' (by omega), rfl,
      fun i hi => bytes (o1 + o2) s2 i (by omega) hi⟩
    unfold SubBuffer.sub_buffer
    rw [SubBuffer.new_view_eq _ o2 s2 (show s1 < 2 ^ 64 by omega) h2]
    unfold Buffer.data
    rw [List.drop_drop]

/-- C28, at a concrete input: views of the five bytes `1, 2, 3, 4, 5`. -/
theorem Buffer.sub_buffer_view_witness :
    (∃ v, Buffer.sub_buffer [1, 2, 3, 4, 5] 1 3 = .ok v ∧ v.size = 3 ∧
      ∀ i, i < 3 → v.at i = Buffer.at [1, 2, 3, 4, 5] (1 + i) ∧ ∃ x, v.at i = .ok x) ∧
    (∃ v1 v2, Buffer.sub_buffer [1, 2, 3, 4, 5] 1 3 = .ok v1 ∧
      v1.sub_buffer 1 2 = .ok v2 ∧
      Buffer.sub_buffer [1, 2, 3, 4, 5] (1 + 1) 2 = .ok v2 ∧ v2.size = 2 ∧
      ∀ i, i < 2 → v2.at i = Buffer.at [1, 2, 3, 4, 5] (1 + 1 + i) ∧ ∃ x, v2.at i = .ok x) :=
  ⟨(Buffer.sub_buffer_view [1, 2, 3, 4, 5] (by decide)).1 1 3 (by decide),
   (Buffer.sub_buffer_view [1, 2, 3, 4, 5] (by decide)).2 1 3 1 2 (by decide) (by decide)⟩

/-- C23: for every `FileImpl` that the constructor builds from the logical
file `zf`, every MD5 implementation with 16-byte digests and all parts whose
streams do not go bad, `verify()` returns, and it returns `true` if and only
if the header declares a checksum, the parts hold at least `checksumPos`
bytes, and the MD5 digest of the first `checksumPos` bytes of the
concatenation of the parts in order equals the 16 bytes stored at
`checksumPos`.  It returns `false` when there is no checksum and when the
parts hold fewer than `checksumPos` bytes.  When the parts are the parts of
the logical file, their concatenation is `zf` and the digest is that of the
bytes `[0, checksumPos)` of the file.  The file size is a 64-bit value. -/
theorem FileImpl.verify_iff {σ : Type} (env : Codecs) (rh : Buffer → Except Error Fileheader)
    (zf : List Byte) (f : FileImpl) (md5 : MD5 σ) (parts : List PartStream)
    (hnew : FileImpl.new env rh zf = .ok f) (hsz : zf.length < 2 ^ 64)
    (hgood : ∀ p ∈ parts, p.bad = false)
    (hdigest : ∀ ctx, (md5.zim_MD5Final ctx).length = 16) :
    ∃ b, f.verify md5 parts = .ok b ∧
      (b = true ↔
        f.header.hasChecksum = true ∧ f.header.checksumPos ≤ (concatParts parts).length ∧
        md5.digest ((concatParts parts).take f.header.checksumPos) =
          slice zf f.header.checksumPos 16) ∧
      (f.header.hasChecksum = false → b = false) ∧
      ((concatParts parts).length < f.header.checksumPos → b = false) := by
  obtain ⟨-, hs, hk⟩ := FileImpl.readHeader_eq_of_new hnew
  obtain ⟨checked, m, -, -, hf⟩ := FileImpl.new_inv hnew
  have hzr : f.zimReader = { offset := 0, bytes := zf } := by rw [hf]
  cases hc : f.header.hasChecksum with
  | false =>
    refine ⟨false, ?_, ?_, fun _ => rfl, fun _ => rfl⟩
    · unfold FileImpl.verify
      rw [hc]
      rfl
    · simp
  | true =>
    have hpos := FileImpl.new_checksum_ok hk hc
    have hs' : 80 ≤ zf.length := hs
    have hsize : Reader.size { offset := 0, bytes := zf } = zf.length := rfl
    rw [hsize] at hpos
    have hlen : (slice zf f.header.checksumPos 16).length = 16 := by
      rw [slice_length, hpos]
      omega
    have hb : f.zimReader.get_buffer f.header.checksumPos 16 =
        .ok (slice zf f.header.checksumPos 16) := by
      rw [hzr]
      unfold Reader.get_buffer
      exact if_pos (show f.header.checksumPos + 16 ≤ Reader.size { offset := 0, bytes := zf } by
        rw [hsize, hpos]
        omega)
    have hparts := FileImpl.verify_parts_eq md5 f.header.checksumPos parts md5.zim_MD5Init 0
      (Nat.zero_le _) hgood
    rw [Nat.sub_zero, Nat.zero_add] at hparts
    by_cases hle : f.header.checksumPos ≤ (concatParts parts).length
    · have hmin : min f.header.checksumPos (concatParts parts).length = f.header.checksumPos :=
        Nat.min_eq_left hle
      have hdata : (Buffer.data (slice zf f.header.checksumPos 16) 0).take 16 =
          slice zf f.header.checksumPos 16 := by
        unfold Buffer.data
        rw [List.drop_zero]
        exact List.take_of_length_le (by rw [hlen])
      have hfin : (md5.zim_MD5Final
          (List.foldl md5.zim_MD5Update md5.zim_MD5Init
            (List.take f.header.checksumPos (concatParts parts)))).take 16 =
          md5.digest ((concatParts parts).take f.header.checksumPos) := by
        unfold MD5.digest
        exact List.take_of_length_le (by rw [hdigest])
      by_cases heq : md5.digest ((concatParts parts).take f.header.checksumPos) =
          slice zf f.header.checksumPos 16
      · refine ⟨true, ?_, ?_, fun h => by simp at h, fun h => by omega⟩
        · unfold FileImpl.verify
          rw [hc, hparts]
          simp only [not_true_eq_false, if_false, hmin, ne_eq]
          rw [bind_of_ok hb, hdata, hfin, heq]
          simp [pure, Except.pure]
        · simp [hle, heq]
      · refine ⟨false, ?_, ?_, fun _ => rfl, fun _ => rfl⟩
        · unfold FileImpl.verify
          rw [hc, hparts]
          simp only [not_true_eq_false, if_false, hmin, ne_eq]
          rw [bind_of_ok hb, hdata, hfin]
          rw [if_pos (fun h => heq h.symm)]
          rfl
        · simp [heq]
    · have hmin : min f.header.checksumPos (concatParts parts).length =
          (concatParts parts).length := Nat.min_eq_right (by omega)
      refine ⟨false, ?_, ?_, fun _ => rfl, fun _ => rfl⟩
      · unfold FileImpl.verify
        rw [hc, hparts]
        simp only [not_true_eq_false, if_false, hmin]
        rw [if_pos (show (concatParts parts).length ≠ f.header.checksumPos by omega)]
        rfl
      · simp [hle]

/-- C23, at a concrete input: `sumFile` ends with the digest of its first 80
bytes, and `verify()` over its two parts of 50 and 46 bytes returns `true`. -/
theorem FileImpl.verify_iff_witness :
    ∃ b, sumArchive.verify sumDigest [⟨sumFile.take 50, false⟩, ⟨sumFile.drop 50, false⟩] =
        .ok b ∧
      (b = true ↔
        sumArchive.header.hasChecksum = true ∧
        sumArchive.header.checksumPos ≤
          (concatParts [⟨sumFile.take 50, false⟩, ⟨sumFile.drop 50, false⟩]).length ∧
        sumDigest.digest
          ((concatParts [⟨sumFile.take 50, false⟩, ⟨sumFile.drop 50, false⟩]).take
            sumArchive.header.checksumPos) =
          slice sumFile sumArchive.header.checksumPos 16) ∧
      (sumArchive.header.hasChecksum = false → b = false) ∧
      ((concatParts [⟨sumFile.take 50, false⟩, ⟨sumFile.drop 50, false⟩]).length <
        sumArchive.header.checksumPos → b = false) :=
  FileImpl.verify_iff (idCodecs true) Fileheader.read sumFile sumArchive sumDigest
    [⟨sumFile.take 50, false⟩, ⟨sumFile.drop 50, false⟩] rfl (by decide) (by decide)
    (fun _ => rfl)

/-- C24 fails on the code: `longUrlFile` is an archive that the constructor
accepts, with one entry, whose record parses to a dirent of namespace `A`; its
dirents are sorted by namespace, and yet `getNamespaces()` fails instead of
returning `A`, because its first statement `getDirent(0)` fails on the record
of 318 bytes (the retry of `getDirent` reads past the end of the file).  With
200 more bytes after the file the same call returns `A`, and on `titleArchive`
(namespaces `A`, `A`, `M`) it returns `AM`.  For every archive
whose `getDirent(i)` return dirents sorted by namespace, the loop ends within
`N` rounds and the string is strictly increasing and holds exactly the
namespaces present. -/
theorem FileImpl.getNamespaces_fails_on_long_record :
    FileImpl.new (idCodecs true) Fileheader.read longUrlFile = .ok longUrlArchive ∧
    longUrlArchive.getCountArticles = 1 ∧
    readOffset longUrlArchive.urlPtrOffsetReader 0 = .ok 97 ∧
    Dirent.parse (slice longUrlFile 97 318) = .ok longUrlDirent ∧
    longUrlDirent.getNamespace = 65 ∧
    longUrlArchive.getDirent 0 = .error .assertion ∧
    (∀ fuel, longUrlArchive.getNamespaces fuel = .error .assertion) ∧
    (∀ fuel, 1 ≤ fuel → FileImpl.getNamespaces
      { longUrlArchive with zimReader := ⟨0, longUrlFile ++ List.replicate 200 0⟩ } fuel =
        .ok (some [65])) ∧
    titleArchive.getNamespaces 3 = .ok (some [65, 77]) ∧
    (∀ (f : FileImpl) (ds : Nat → Dirent), 0 < f.getCountArticles →
      (∀ i, i < f.getCountArticles → f.getDirent i = .ok (ds i)) →
      (∀ j, j < f.getCountArticles → ∀ i, i ≤ j →
        (ds i).getNamespace ≤ (ds j).getNamespace) →
      ∃ s : List Byte,
        (∀ fuel, f.getCountArticles ≤ fuel → f.getNamespaces fuel = .ok (some s)) ∧
        s.Pairwise (· < ·) ∧ s.Nodup ∧
        (∀ c, c ∈ s ↔ ∃ i, i < f.getCountArticles ∧ (ds i).getNamespace = c)) := by
  have hfail : longUrlArchive.getDirent 0 = .error .assertion := by decide
  refine ⟨rfl, by decide, by decide, by decide, by decide, hfail, ?_, ?_, by decide,
    FileImpl.getNamespaces_of_readable⟩
  · intro fuel
    unfold FileImpl.getNamespaces
    rw [bind_of_error hfail]
  · intro fuel hfuel
    obtain ⟨s, hs, -, -, hmem⟩ := FileImpl.getNamespaces_of_readable
      { longUrlArchive with zimReader := ⟨0, longUrlFile ++ List.replicate 200 0⟩ }
      (fun _ => longUrlDirent) (by decide)
      (fun i hi => by
        have h0 : i = 0 := Nat.lt_one_iff.mp hi
        subst h0
        decide)
      (fun _ _ _ _ => le_refl _)
    have h1 := hs 1 (by decide)
    have hone : FileImpl.getNamespaces
        { longUrlArchive with zimReader := ⟨0, longUrlFile ++ List.replicate 200 0⟩ } 1 =
        .ok (some [65]) := by decide
    rw [hone] at h1
    have hs' : s = [65] := by
      injection h1 with h1
      injection h1 with h1
      exact h1.symm
    rw [hs'] at hs
    exact hs fuel hfuel

/-- C29: a `DecodedDataStream` keeps exact input accounting, whatever the
decoder is.  With `pulled` the number of bytes pulled from the upstream stream
so far: the state after construction is `Accounted` (`pulled +
inputBytesLeft_ = inputSize`, so `pulled ≤ inputSize`), and `readNextChunk`,
`decodeMoreBytes` and `readImpl` keep it so; every refill pulls exactly
`min(1024, inputBytesLeft_)` bytes, lowers `inputBytesLeft_` by that number
and sets `avail_in` to it; and `decodeMoreBytes` refills exactly when
`avail_in = 0` and `inputBytesLeft_ ≠ 0` and then steps the decoder with
`stepOf`, which is `FINISH` exactly when `avail_in = 0` and `inputBytesLeft_ =
0`, and `STEP` otherwise. -/
theorem DecodedDataStream.input_accounting {σ : Type} (dec : Decoder σ)
    (uninitialized : DecoderState σ) (inputData : IDataStream) (inputSize : Nat) :
    (∀ s, DecodedDataStream.new dec uninitialized inputData inputSize = .ok s →
      DecodedDataStream.Accounted inputData inputSize s) ∧
    (∀ s : DecodedDataStream σ, DecodedDataStream.Accounted inputData inputSize s →
      s.pulled inputData + s.inputBytesLeft_ = inputSize ∧ s.pulled inputData ≤ inputSize) ∧
    (∀ s s' : DecodedDataStream σ, DecodedDataStream.Accounted inputData inputSize s →
      s.readNextChunk = .ok s' →
      DecodedDataStream.Accounted inputData inputSize s' ∧
      s'.pulled inputData = s.pulled inputData + min 1024 s.inputBytesLeft_ ∧
      s'.inputBytesLeft_ = s.inputBytesLeft_ - min 1024 s.inputBytesLeft_ ∧
      s'.decoderState_.avail_in = min 1024 s.inputBytesLeft_) ∧
    (∀ s : DecodedDataStream σ,
      DecodedDataStream.decodeMoreBytes dec s =
        ((if s.decoderState_.avail_in = 0 ∧ s.inputBytesLeft_ ≠ 0 then s.readNextChunk
          else pure s) >>= fun s1 =>
          pure ((dec.stream_run_decode s1.decoderState_ s.stepOf).1,
            { s1 with
              decoderState_ := (dec.stream_run_decode s1.decoderState_ s.stepOf).2 })) ∧
      (s.stepOf = CompStep.FINISH ↔ s.decoderState_.avail_in = 0 ∧ s.inputBytesLeft_ = 0) ∧
      (s.stepOf = CompStep.STEP ↔ ¬ (s.decoderState_.avail_in = 0 ∧ s.inputBytesLeft_ = 0))) ∧
    (∀ (s s' : DecodedDataStream σ) (status : CompStatus),
      DecodedDataStream.Accounted inputData inputSize s →
      DecodedDataStream.decodeMoreBytes dec s = .ok (status, s') →
      DecodedDataStream.Accounted inputData inputSize s') ∧
    (∀ (fuel : Nat) (s : DecodedDataStream σ) (nbytes : Nat)
      (r : List Byte × DecodedDataStream σ),
      DecodedDataStream.Accounted inputData inputSize s →
      DecodedDataStream.readImpl dec fuel s nbytes = .ok (some r) →
      DecodedDataStream.Accounted inputData inputSize r.2) := by
  refine ⟨?_, ?_, ?_, ?_, ?_, ?_⟩
  · intro s h
    unfold DecodedDataStream.new at h
    obtain ⟨s1, h1, h⟩ := bind_ok h
    have hs := pure_ok h
    have hacc0 : DecodedDataStream.Accounted inputData inputSize
        { encodedDataStream_ := inputData, inputBytesLeft_ := inputSize,
          decoderState_ := uninitialized, encodedDataBuf_ := List.replicate BUF_SIZE 0 } := by
      refine ⟨?_, ?_, ?_, Or.inl (List.length_replicate _ _)⟩
      · simp [DecodedDataStream.pulled]
      · simp [DecodedDataStream.pulled]
      · simp [DecodedDataStream.pulled]
    have hacc1 := (DecodedDataStream.readNextChunk_accounted inputData inputSize hacc0 h1).1
    rw [← hs]
    exact hacc1
  · intro s hacc
    exact ⟨hacc.1, by have := hacc.1; omega⟩
  · intro s s' hacc h
    exact DecodedDataStream.readNextChunk_accounted inputData inputSize hacc h
  · intro s
    refine ⟨DecodedDataStream.decodeMoreBytes_eq dec s, ?_, ?_⟩
    · unfold DecodedDataStream.stepOf
      by_cases hc : s.decoderState_.avail_in = 0 ∧ s.inputBytesLeft_ = 0
      · simp [hc]
      · simp [hc]
    · unfold DecodedDataStream.stepOf
      by_cases hc : s.decoderState_.avail_in = 0 ∧ s.inputBytesLeft_ = 0
      · simp [hc]
      · simp [hc]
  · intro s s' status hacc h
    exact DecodedDataStream.decodeMoreBytes_accounted dec inputData inputSize hacc h
  · intro fuel s nbytes r hacc h
    unfold DecodedDataStream.readImpl at h
    obtain ⟨o, ho, h⟩ := bind_ok h
    have hr := pure_ok h
    cases o with
    | none => cases hr
    | some s' =>
      have hacc' := DecodedDataStream.readImpl_loop_accounted dec inputData inputSize fuel _ s'
        (show DecodedDataStream.Accounted inputData inputSize
          { s with decoderState_ := { s.decoderState_ with next_out := [], avail_out := nbytes } }
          from hacc) ho
      have : r = (s'.decoderState_.next_out, s') := by
        simp only [Option.map_some', Option.some.injEq] at hr
        exact hr.symm
      rw [this]
      exact hacc'

/-- C25: decoding undoes encoding through `DecodedDataStream`.  For every
decoder that decodes the compressed form `comp` to the data `D` through the
step interface, and every sequence of read sizes `ns` with sum at most `|D|`:
the construction of a `DecodedDataStream` over `comp` (followed by any bytes
`rest` upstream) with `inputSize = |comp|` succeeds, and the successive reads
of the sizes `ns` return (each loop ends within `|comp| + |D|` rounds) the
consecutive slices of `D` of those sizes; in particular the read of exactly
`|D|` bytes returns `D`. -/
theorem DecodedDataStream.reads_return_slices {σ : Type} (dec : Decoder σ)
    (comp D : List Byte) (R : σ → Nat → Nat → Prop) (hdec : dec.DecodesTo comp D R)
    (uninitialized : DecoderState σ) (rest : List Byte) (ns : List Nat)
    (hsum : ns.sum ≤ D.length) :
    ∃ s, DecodedDataStream.new dec uninitialized (comp ++ rest) comp.length = .ok s ∧
      (∀ fuel, comp.length + D.length ≤ fuel →
        ∃ s', DecodedDataStream.readBlobs dec fuel s ns =
          .ok (some (consecutiveSlices D ns, s'))) ∧
      (∀ fuel, comp.length + D.length ≤ fuel →
        ∃ s', DecodedDataStream.readBlob dec fuel s D.length = .ok (some (D, s'))) := by
  obtain ⟨s, hnew, hs⟩ := DecodedDataStream.new_decoding dec comp rest D R hdec uninitialized
  refine ⟨s, hnew, ?_, ?_⟩
  · intro fuel hfuel
    obtain ⟨s', c', h, -⟩ := DecodedDataStream.readBlobs_decoding dec hdec fuel hfuel ns s 0 0 hs
      (by omega)
    rw [List.drop_zero] at h
    exact ⟨s', h⟩
  · intro fuel hfuel
    obtain ⟨s', c', h, -⟩ := DecodedDataStream.readBlob_decoding dec hdec fuel s 0 0 D.length hs
      (by omega) hfuel
    have e : slice D 0 D.length = D := by
      unfold slice
      rw [List.drop_zero, List.take_length]
    rw [e] at h
    exact ⟨s', h⟩

/-- C25, at a concrete input: with the codec that stores data as it is, reads
of 2 and 3 bytes from the stream over `1, 2, 3, 4, 5` return `1, 2` and
`3, 4, 5`. -/
theorem DecodedDataStream.reads_return_slices_witness :
    ∃ s, DecodedDataStream.new storedDecoder blankState ([1, 2, 3, 4, 5] ++ [9, 9])
        [1, 2, 3, 4, 5].length = .ok s ∧
      (∀ fuel, [1, 2, 3, 4, 5].length + [1, 2, 3, 4, 5].length ≤ fuel →
        ∃ s', DecodedDataStream.readBlobs storedDecoder fuel s [2, 3] =
          .ok (some (consecutiveSlices [1, 2, 3, 4, 5] [2, 3], s'))) ∧
      (∀ fuel, [1, 2, 3, 4, 5].length + [1, 2, 3, 4, 5].length ≤ fuel →
        ∃ s', DecodedDataStream.readBlob storedDecoder fuel s [1, 2, 3, 4, 5].length =
          .ok (some ([1, 2, 3, 4, 5], s'))) :=
  DecodedDataStream.reads_return_slices storedDecoder [1, 2, 3, 4, 5] [1, 2, 3, 4, 5]
    (fun _ c p => c = p) (storedDecoder_decodesTo [1, 2, 3, 4, 5]) blankState [9, 9] [2, 3]
    (by decide)

/-- C26 fails on the code: `readImpl` loops while `avail_out != 0` and does
not look at the status that `decodeMoreBytes` returns, and there is no
`TruncatedStream` error.  For every decoder that decodes `comp` to `D`: after
successful reads of the sizes `ns`, a read of `n` bytes with more bytes asked
for than are left in `D` neither fails nor returns: for every number `fuel` of
rounds, its loop has not ended and goes on calling the decoder. -/
theorem DecodedDataStream.read_past_end_never_returns {σ : Type} (dec : Decoder σ)
    (comp D : List Byte) (R : σ → Nat → Nat → Prop) (hdec : dec.DecodesTo comp D R)
    (uninitialized : DecoderState σ) (rest : List Byte) (ns : List Nat) (n : Nat)
    (hsum : ns.sum ≤ D.length) (hn : D.length < ns.sum + n) :
    ∃ s s', DecodedDataStream.new dec uninitialized (comp ++ rest) comp.length = .ok s ∧
      DecodedDataStream.readBlobs dec (comp.length + D.length) s ns =
        .ok (some (consecutiveSlices D ns, s')) ∧
      ∀ fuel, DecodedDataStream.readBlob dec fuel s' n = .ok none := by
  obtain ⟨s, hnew, hs⟩ := DecodedDataStream.new_decoding dec comp rest D R hdec uninitialized
  obtain ⟨s', c', h, hs'⟩ := DecodedDataStream.readBlobs_decoding dec hdec
    (comp.length + D.length) (Nat.le_refl _) ns s 0 0 hs (by omega)
  rw [List.drop_zero] at h
  refine ⟨s, s', hnew, h, ?_⟩
  intro fuel
  exact DecodedDataStream.readBlob_never dec hdec fuel s' c' (0 + ns.sum) n hs' (by omega)

/-- C26, at a concrete input: with the codec that stores data as it is and the
data `1, 2, 3` (`L = 3`), the read of `L + 1 = 4` bytes does not end within
any number of rounds. -/
theorem DecodedDataStream.read_past_end_never_returns_witness :
    ∃ s s', DecodedDataStream.new storedDecoder blankState ([1, 2, 3] ++ [])
        [1, 2, 3].length = .ok s ∧
      DecodedDataStream.readBlobs storedDecoder ([1, 2, 3].length + [1, 2, 3].length) s [] =
        .ok (some (consecutiveSlices [1, 2, 3] [], s')) ∧
      ∀ fuel, DecodedDataStream.readBlob storedDecoder fuel s' 4 = .ok none :=
  DecodedDataStream.read_past_end_never_returns storedDecoder [1, 2, 3] [1, 2, 3]
    (fun _ c p => c = p) (storedDecoder_decodesTo [1, 2, 3]) blankState [] [] 4
    (by decide) (by decide)

/-- C33: for every uncompressed cluster and every blob index `n ≥ count()`,
`getBlob(n)` and `getBlob(n, off, size)` return the empty `Blob` for every
`off` and `size`, without an error; the result is the same whatever the data
reader of the cluster is, so no data is read. -/
theorem Cluster.getBlob_out_of_range_empty (c : Cluster) (n : Nat) (h : c.count ≤ n) :
    c.getBlob n = .ok [] ∧
    (∀ off size, c.getBlobAt n off size = .ok []) ∧
    (∀ r : Reader, Cluster.getBlob { c with reader := r } n = .ok [] ∧
      ∀ off size, Cluster.getBlobAt { c with reader := r } n off size = .ok []) := by
  have key : ∀ c' : Cluster, c'.count ≤ n →
      c'.getBlob n = .ok [] ∧ ∀ off size, c'.getBlobAt n off size = .ok [] := by
    intro c' h'
    refine ⟨?_, fun off size => ?_⟩
    · unfold Cluster.getBlob
      rw [if_neg (show ¬ n < c'.count by omega)]
      rfl
    · unfold Cluster.getBlobAt
      rw [if_neg (show ¬ n < c'.count by omega)]
      rfl
  exact ⟨(key c h).1, (key c h).2, fun r => key { c with reader := r } h⟩

/-- C33, at a concrete input: the example cluster has two blobs, and index 2
gives the empty blob. -/
theorem Cluster.getBlob_out_of_range_empty_witness :
    exampleCluster.getBlob 2 = .ok [] ∧
    (∀ off size, exampleCluster.getBlobAt 2 off size = .ok []) ∧
    (∀ r : Reader, Cluster.getBlob { exampleCluster with reader := r } 2 = .ok [] ∧
      ∀ off size, Cluster.getBlobAt { exampleCluster with reader := r } 2 off size = .ok []) :=
  Cluster.getBlob_out_of_range_empty exampleCluster 2 (by decide)

/-- C32: the assertions of `SubBuffer` bound the 64-bit sum `offset.v + size.v`,
not the sum of the two numbers: the constructor succeeds exactly when
`offset ≤ parent.size` and `(offset + size) mod 2^64 ≤ parent.size`.  With
`offset = 1` and `size = 2^64 - 1` the sum wraps to 0, so every non-empty parent
accepts the view, which reports `2^64 - 1` bytes; on the parent `[1, 2, 3]` the
view has size `2^64 - 1 > 3` and `1 + (2^64 - 1) > 3`. -/
theorem SubBuffer.new_passes_by_wrap :
    (∀ (parent : Buffer) (offset size : Nat),
      (∃ b, SubBuffer.new parent offset size = .ok b) ↔
        offset ≤ parent.size ∧ (offset + size) % 2 ^ 64 ≤ parent.size) ∧
    (∀ parent : Buffer, 0 < parent.size →
      SubBuffer.new parent 1 (2 ^ 64 - 1) =
        .ok { size_ := 2 ^ 64 - 1, _data := parent.data 1 }) ∧
    SubBuffer.new [1, 2, 3] 1 (2 ^ 64 - 1) = .ok { size_ := 2 ^ 64 - 1, _data := [2, 3] } ∧
    (1 : Nat) < 2 ^ 64 ∧ 2 ^ 64 - 1 < 2 ^ 64 ∧
    Buffer.size [1, 2, 3] < 2 ^ 64 - 1 ∧
    ¬ (1 + (2 ^ 64 - 1) ≤ Buffer.size [1, 2, 3]) := by
  have gen : ∀ parent : Buffer, 0 < parent.size →
      SubBuffer.new parent 1 (2 ^ 64 - 1) =
        .ok { size_ := 2 ^ 64 - 1, _data := parent.data 1 } := by
    intro parent hp
    unfold SubBuffer.new
    rw [bind_of_ok (ASSERT_of (show 1 ≤ parent.size from hp)),
      bind_of_ok (ASSERT_of (show (1 + (2 ^ 64 - 1)) % 2 ^ 64 ≤ parent.size by
        norm_num))]
    rfl
  refine ⟨SubBuffer.new_ok_iff, gen, ?_, by norm_num, by norm_num, ?_, ?_⟩
  · exact gen [1, 2, 3] (by decide)
  · show (3 : Nat) < 2 ^ 64 - 1
    norm_num
  · show ¬ (1 + (2 ^ 64 - 1) ≤ (3 : Nat))
    norm_num

/-- C31: with a first offset `F < w` the count `F / w` is 0 and the pre-decrement
of `while (--n_offset)` wraps it to `2^64 - 1` iterations.  On the decoded bytes
`00 00 00 00 | 05 00 00 00 | 09 00 00 00 | rest` (`w = 4`, `F = 0`)
`CompressedCluster::readHeader` reads two further entries and stores three
offsets before it goes on with `2^64 - 3` iterations left on `rest`; when the
stream ends there the read fails.  `Cluster::read_header` on the same bytes
fails in its first iteration, at the read outside the `F`-byte buffer. -/
theorem CompressedCluster.readHeader_count_wraps :
    (∀ F w : Nat, 0 < w → F < w → loopCount (F / w) = 2 ^ 64 - 1) ∧
    (∀ rest : IDataStream,
      CompressedCluster.readHeader 4 ([0, 0, 0, 0, 5, 0, 0, 0, 9, 0, 0, 0] ++ rest) =
        (CompressedCluster.readHeader_loop 4 0 (2 ^ 64 - 3) 9 [0, 5, 9] rest >>=
          fun t => pure (0, t.1, t.2))) ∧
    CompressedCluster.readHeader 4 [0, 0, 0, 0, 5, 0, 0, 0, 9, 0, 0, 0] = .error .assertion ∧
    Cluster.read_header 4 { offset := 0, bytes := [0, 0, 0, 0, 5, 0, 0, 0, 9, 0, 0, 0] } =
      .error .assertion := by
  have hcount : ∀ F w : Nat, 0 < w → F < w → loopCount (F / w) = 2 ^ 64 - 1 := by
    intro F w _ hF
    rw [Nat.div_eq_of_lt hF]
    exact loopCount_zero
  have htrace : ∀ rest : IDataStream,
      CompressedCluster.readHeader 4 ([0, 0, 0, 0, 5, 0, 0, 0, 9, 0, 0, 0] ++ rest) =
        (CompressedCluster.readHeader_loop 4 0 (2 ^ 64 - 3) 9 [0, 5, 9] rest >>=
          fun t => pure (0, t.1, t.2)) := by
    intro rest
    have e0 : fromLittleEndian [(0 : Byte), 0, 0, 0] = 0 := by decide
    have hc : loopCount (0 / 4) = (2 ^ 64 - 3) + 1 + 1 := by
      rw [hcount 0 4 (by decide) (by decide)]
      norm_num
    unfold CompressedCluster.readHeader
    show (IDataStream.read 4 (0 :: 0 :: 0 :: 0 :: 5 :: 0 :: 0 :: 0 :: 9 :: 0 :: 0 :: 0 :: rest)
      >>= _) = _
    rw [bind_of_ok (IDataStream.read_four 0 0 0 0 _)]
    simp only [e0]
    rw [hc, CompressedCluster.readHeader_loop_two]
  refine ⟨hcount, htrace, ?_, ?_⟩
  · have h := htrace []
    rw [List.append_nil] at h
    rw [h]
    have hc : 2 ^ 64 - 3 = (2 ^ 64 - 4) + 1 := by norm_num
    rw [hc, CompressedCluster.readHeader_loop_succ,
      bind_of_error (IDataStream.read_nil 4 (by decide))]
    rfl
  · unfold Cluster.read_header
    have hr : Reader.read_uint 4 { offset := 0, bytes := [0, 0, 0, 0, 5, 0, 0, 0, 9, 0, 0, 0] } 0
        = .ok 0 := by decide
    rw [bind_of_ok hr]
    have hb : Reader.get_buffer { offset := 0, bytes := [0, 0, 0, 0, 5, 0, 0, 0, 9, 0, 0, 0] } 0 0
        = .ok [] := by decide
    rw [bind_of_ok hb]
    have hc : loopCount (0 / 4) = (2 ^ 64 - 2) + 1 := by
      rw [hcount 0 4 (by decide) (by decide)]
      norm_num
    rw [hc, Cluster.read_header_loop]
    rfl

end zim
